import Mathlib

/-!
The `jargon` tokenizers

A shallow embedding of the tokenizers of the `jargon` package
(`tokenizer_legacy.go`, `tokenizer2.go`), of the code point classes of the
package `is` (`is/is.go`) and of the filter selection of the command-line
program (`cmd/jargon/main.go`), and the properties of the token streams: round
trip, terminal idempotence, technical terms, punctuation.

Conventions of the embedding.

* A Go `rune` is a code point, a natural number.  Text (a Go `string`, the
  contents of a `bytes.Buffer`, the bytes of a segment) is the list of code
  points it encodes, so `utf8.RuneCount` is the length of the list and
  `utf8.DecodeRune` its first element.
  `ReadRune` returns code points that `WriteRune` writes back unchanged.  The
  section on bytes relates the code points to the bytes of the input and of the
  token values through `utf8.DecodeRune` and `utf8.EncodeRune`.
* A reader is the list of code points still to be read together with the
  condition met after the last one: `io.EOF`, or an I/O error; once the end is
  reached it is reported at every later read.  The segmenter and the markup
  tokenizer are, in the same way, the lists of the segments and of the elements
  they are still to deliver.
* A method with a pointer receiver returns the new receiver next to its result.
* The character tables, the common-token table and `newTokenFromRune` are
  declared in other files of the package; they are the fields of `Tables`, and
  every general theorem holds for all of them.
-/

namespace Jargon

/-! ## Tokens and the tables the tokenizers consult -/

/-- A Go rune, that is a Unicode code point. -/
abbrev Rune := Nat

/-- A Go error value, named by its message. -/
abbrev Error := String

/-- The code points of a string literal. -/
def runes (s : String) : List Rune := s.toList.map Char.toNat

/-- The type `Token`: its text and the two flags set by the constructors. -/
structure Token where
  value : List Rune
  punct : Bool
  space : Bool
deriving DecidableEq

/-- What a call of `Next` gives: a token, `nil` at the end (`none`), or an error. -/
abbrev Result := Except Error (Option Token)

/-- The classification functions and tables that `next` and `token` consult:
`unicode.IsSpace`, `isPunct`, the maps `leadingPunct`, `midPunct`,
`punctAsSymbol` and `common`, and the constructor `newTokenFromRune`. -/
structure Tables where
  IsSpace : Rune → Bool
  isPunct : Rune → Bool
  leadingPunct : Rune → Bool
  midPunct : Rune → Bool
  punctAsSymbol : Rune → Bool
  common : Rune → Option Token
  newTokenFromRune : Rune → Token

/-- A token made for one code point carries that code point as its text, whether
it comes from the `common` table or from `newTokenFromRune`. -/
def Tables.SingleRuneValues (T : Tables) : Prop :=
  (∀ r, (T.newTokenFromRune r).value = [r]) ∧ (∀ r t, T.common r = some t → t.value = [r])

/-- The values of a list of tokens, concatenated in order. -/
def concatValues : List Token → List Rune
  | [] => []
  | t :: ts => t.value ++ concatValues ts

/-! ## The token stream: calling `Next` until it returns `nil` -/

/-- Calls `next` until it returns `nil` or an error, at most `fuel` times: the
tokens returned, the error that stopped the iteration if any, and the final
state.  `none` when `fuel` calls did not reach the end. -/
def drain {σ : Type} (next : σ → Result × σ) : Nat → σ → Option (List Token × Option Error × σ)
  | 0, _ => none
  | fuel + 1, s =>
    match next s with
    | (.error e, s1) => some ([], some e, s1)
    | (.ok none, s1) => some ([], none, s1)
    | (.ok (some tok), s1) =>
      match drain next fuel s1 with
      | none => none
      | some (toks, e, s2) => some (tok :: toks, e, s2)

/-- The state after `k` calls of `next`. -/
def after {σ : Type} (next : σ → Result × σ) : Nat → σ → σ
  | 0, s => s
  | k + 1, s => after next k (next s).2

/-- Big-step reading of the iteration: from `s` the calls of `next` return the
tokens `toks` and then stop with `e` in state `sf`. -/
inductive Emits {σ : Type} (next : σ → Result × σ) : σ → List Token → Option Error → σ → Prop
  | done (s s1 : σ) : next s = (.ok none, s1) → Emits next s [] none s1
  | fail (s s1 : σ) (e : Error) : next s = (.error e, s1) → Emits next s [] (some e) s1
  | step (s s1 sf : σ) (tok : Token) (toks : List Token) (e : Option Error) :
      next s = (.ok (some tok), s1) → Emits next s1 toks e sf → Emits next s (tok :: toks) e sf

/-! ## The Legacy tokenizer (`tokenizer_legacy.go`) -/

/-- The reader `incoming`: the code points not read yet and what follows the
last one, `io.EOF` (`none`) or a read error. -/
structure Reader where
  runes : List Rune
  err : Option Error
deriving DecidableEq

/-- The struct `tokenizerLegacy`. -/
structure tokenizerLegacy where
  incoming : Reader
  outgoing : List Rune
deriving DecidableEq

/-- The constructor `newTokenizerLegacy`. -/
def newTokenizerLegacy (r : Reader) : tokenizerLegacy :=
  { incoming := r, outgoing := [] }

/-- The method `accept`: writes the rune to `outgoing`. -/
def tokenizerLegacy.accept (t : tokenizerLegacy) (r : Rune) : tokenizerLegacy :=
  { t with outgoing := t.outgoing ++ [r] }

/-- The method `token`: takes the contents of `outgoing` and resets it; one rune
is looked up in `common`, or built by `newTokenFromRune`; anything else is a
plain token. -/
def tokenizerLegacy.token (T : Tables) (t : tokenizerLegacy) : Token × tokenizerLegacy :=
  let b := t.outgoing
  let t1 := { t with outgoing := [] }
  match b with
  | [r] =>
    match T.common r with
    | some known => (known, t1)
    | none => (T.newTokenFromRune r, t1)
  | _ => ({ value := b, punct := false, space := false }, t1)

/-- The method `peekTerminator`: reads one rune and unreads it at once, so the
reader is left as it was; the end of input is a terminator. -/
def tokenizerLegacy.peekTerminator (T : Tables) (t : tokenizerLegacy) : Except Error Bool :=
  match t.incoming.runes with
  | [] =>
    match t.incoming.err with
    | none => .ok true
    | some e => .error e
  | r :: _ => .ok (T.isPunct r || T.IsSpace r)

/-- The loop of `readWord`, by recursion on the runes still to be read; `out` is
the buffer `outgoing`. -/
def readWordLoop (T : Tables) (err : Option Error) :
    List Rune → List Rune → Result × tokenizerLegacy
  | [], out =>
    let t : tokenizerLegacy := { incoming := { runes := [], err := err }, outgoing := out }
    match err with
    | none => (.ok (some (t.token T).1), (t.token T).2)
    | some e => (.error e, t)
  | r :: rs, out =>
    let t : tokenizerLegacy := { incoming := { runes := rs, err := err }, outgoing := out }
    if T.midPunct r then
      match t.peekTerminator T with
      | .error e => (.error e, t)
      | .ok true => (.ok (some (t.token T).1), (t.token T).2.accept r)
      | .ok false => readWordLoop T err rs (out ++ [r])
    else if T.isPunct r || T.IsSpace r then
      (.ok (some (t.token T).1), (t.token T).2.accept r)
    else
      readWordLoop T err rs (out ++ [r])

/-- The method `readWord`. -/
def tokenizerLegacy.readWord (T : Tables) (t : tokenizerLegacy) : Result × tokenizerLegacy :=
  readWordLoop T t.incoming.err t.incoming.runes t.outgoing

/-- The method `next` of the Legacy tokenizer. -/
def tokenizerLegacy.next (T : Tables) (t : tokenizerLegacy) : Result × tokenizerLegacy :=
  if t.outgoing.length > 0 then
    (.ok (some (t.token T).1), (t.token T).2)
  else
    match t.incoming.runes with
    | [] =>
      match t.incoming.err with
      | none => (.ok none, t)
      | some e => (.error e, t)
    | r :: rs =>
      let t1 : tokenizerLegacy := { t with incoming := { t.incoming with runes := rs } }
      if T.IsSpace r then
        (.ok (some ((t1.accept r).token T).1), ((t1.accept r).token T).2)
      else if T.isPunct r then
        let t2 := t1.accept r
        match t2.peekTerminator T with
        | .error e => (.error e, t2)
        | .ok followedByTerminator =>
          let isLeadingPunct := T.leadingPunct r && !followedByTerminator
          if isLeadingPunct then
            t2.readWord T
          else
            (.ok (some (t2.token T).1), (t2.token T).2)
      else
        (t1.accept r).readWord T

/-- The stream `TokenizeLegacy(r)`: its initial state; `Next` is
`tokenizerLegacy.next`. -/
def TokenizeLegacy (r : Reader) : tokenizerLegacy := newTokenizerLegacy r

/-- The tokens of `TokenizeLegacy` over a text that is read to its end without
error, `Next` being called until it returns `nil`. -/
def legacyTokens (T : Tables) (text : List Rune) : List Token :=
  match drain (tokenizerLegacy.next T) (text.length + 1)
      (TokenizeLegacy { runes := text, err := none }) with
  | some (toks, _, _) => toks
  | none => []

/-- The token that `token` builds when `outgoing` holds the runes `b`. -/
def tokenOf (T : Tables) (b : List Rune) : Token :=
  (tokenizerLegacy.token T { incoming := { runes := [], err := none }, outgoing := b }).1

/-- A code point of a word: neither whitespace, nor punctuation, nor mid-word
punctuation. -/
def Tables.isWordRune (T : Tables) (r : Rune) : Bool :=
  !T.IsSpace r && !T.isPunct r && !T.midPunct r

/-- The runes still to be read start with a rune that is neither punctuation nor
whitespace, so that what was read before them is not followed by a terminator. -/
def Tables.followedByLetter (T : Tables) : List Rune → Bool
  | [] => false
  | c :: _ => !(T.isPunct c || T.IsSpace c)

/-! ## The segmentation-based tokenizer (`tokenizer2.go`) -/

/-- The segment types of the external segmenter (`segment.None`,
`segment.Number`, `segment.Letter`, `segment.Kana`, `segment.Ideo`). -/
inductive SegmentType where
  | None
  | Number
  | Letter
  | Kana
  | Ideo
deriving DecidableEq

/-- The struct `seg` (the field `Type` is spelled `Typ`). -/
structure seg where
  Bytes : List Rune
  Typ : SegmentType
  Err : Option Error
deriving DecidableEq

/-- The method `Is`. -/
def seg.Is (s : seg) (typ : SegmentType) : Bool := s.Typ == typ

/-- Modelled from the spec: the type `queue` of the field `outgoing`, declared in
another file of the package; the spec describes it as a FIFO queue of fully
formed tokens awaiting return. -/
structure queue where
  tokens : List Token
deriving DecidableEq

/-- Modelled from the spec: `len` of the FIFO queue. -/
def queue.len (q : queue) : Nat := q.tokens.length

/-- Modelled from the spec: `push` of the FIFO queue, at the back. -/
def queue.push (q : queue) (tok : Token) : queue := { tokens := q.tokens ++ [tok] }

/-- Modelled from the spec: `pop` of the FIFO queue, from the front. -/
def queue.pop (q : queue) : Option Token × queue :=
  match q.tokens with
  | [] => (none, q)
  | tok :: rest => (some tok, { tokens := rest })

/-- The struct `tokenizer2`; `segmenter` holds the segments that the calls of
`Segment()` are still to deliver. -/
structure tokenizer2 where
  segmenter : List seg
  buffer : List seg
  outgoing : queue
deriving DecidableEq

/-- The constructor `newTokenizer2`, over the segments of the input. -/
def newTokenizer2 (segs : List seg) : tokenizer2 :=
  { segmenter := segs, buffer := [], outgoing := { tokens := [] } }

/-- The constant `utf8.RuneError`. -/
def RuneError : Rune := 0xFFFD

/-- The function `tryRune`. -/
def tryRune (b : List Rune) : Rune × Bool :=
  match b with
  | [r] => (r, true)
  | _ => (RuneError, false)

/-- The method `accept` of `tokenizer2`. -/
def tokenizer2.accept (t : tokenizer2) (s : seg) : tokenizer2 :=
  { t with buffer := t.buffer ++ [s] }

/-- The bytes of the buffered segments, written one after the other. -/
def bufferBytes : List seg → List Rune
  | [] => []
  | s :: rest => s.Bytes ++ bufferBytes rest

/-- The method `token` of `tokenizer2`. -/
def tokenizer2.token (T : Tables) (t : tokenizer2) : Token × tokenizer2 :=
  let b := bufferBytes t.buffer
  let t1 := { t with buffer := [] }
  if (tryRune b).2 then
    (T.newTokenFromRune (tryRune b).1, t1)
  else
    ({ value := b, punct := false, space := false }, t1)

/-- The statement `t.outgoing.push(t.token())`. -/
def tokenizer2.pushToken (T : Tables) (t : tokenizer2) : tokenizer2 :=
  { (t.token T).2 with outgoing := (t.token T).2.outgoing.push (t.token T).1 }

/-- The statement `if len(t.buffer) > 0 { t.outgoing.push(t.token()) }`. -/
def tokenizer2.queueBuffer (T : Tables) (t : tokenizer2) : tokenizer2 :=
  if t.buffer.length > 0 then t.pushToken T else t

/-- The statement `return t.outgoing.pop(), nil`. -/
def tokenizer2.returnPop (t : tokenizer2) : Result × tokenizer2 :=
  (.ok t.outgoing.pop.1, { t with outgoing := t.outgoing.pop.2 })

/-- The error of the guard after `tryRune`. -/
def shouldBeRune : Error := "should be a rune, this is likely a bug in the tokenizer"

/-- The statements from `// Trailing symbol?` to the end of the loop body: a
trailing symbol is accepted and the loop goes on (`goOn`); anything else is
terminating punctuation, queued behind the buffer, and the front of the queue is
returned. -/
def trailingOrTerminating (T : Tables) (t : tokenizer2) (current : seg) (r : Rune)
    (goOn : List seg → queue → Result × tokenizer2) : Result × tokenizer2 :=
  if T.punctAsSymbol r then
    goOn (t.accept current).buffer t.outgoing
  else
    (((t.queueBuffer T).accept current).pushToken T).returnPop

/-- The loop `for t.segmenter.Segment()` of `next` and the statements after it,
by recursion on the segments still to be delivered.  The loop body is written
once for a last segment, after which the look-ahead `t.segmenter.Segment()`
fails, and once for a segment followed by another, the `lookahead`. -/
def segmentLoop (T : Tables) : List seg → List seg → queue → Result × tokenizer2
  | [], buffer, outgoing =>
    let t : tokenizer2 := { segmenter := [], buffer := buffer, outgoing := outgoing }
    let t1 := t.queueBuffer T
    if t1.outgoing.len > 0 then t1.returnPop else (.ok none, t1)
  | [current], buffer, outgoing =>
    let t : tokenizer2 := { segmenter := [], buffer := buffer, outgoing := outgoing }
    match current.Err with
    | some err => (.error err, t)
    | none =>
      let isword := current.Typ != SegmentType.None
      if isword then
        segmentLoop T [] (t.accept current).buffer outgoing
      else if !(tryRune current.Bytes).2 then
        (.error shouldBeRune, t)
      else
        let r := (tryRune current.Bytes).1
        if T.IsSpace r then
          (((t.queueBuffer T).accept current).pushToken T).returnPop
        else
          trailingOrTerminating T t current r (segmentLoop T [])
  | current :: lookahead :: rest, buffer, outgoing =>
    let t : tokenizer2 :=
      { segmenter := lookahead :: rest, buffer := buffer, outgoing := outgoing }
    match current.Err with
    | some err => (.error err, t)
    | none =>
      let isword := current.Typ != SegmentType.None
      if isword then
        segmentLoop T (lookahead :: rest) (t.accept current).buffer outgoing
      else if !(tryRune current.Bytes).2 then
        (.error shouldBeRune, t)
      else
        let r := (tryRune current.Bytes).1
        if T.IsSpace r then
          (((t.queueBuffer T).accept current).pushToken T).returnPop
        else if T.leadingPunct r then
          let t0 : tokenizer2 := { segmenter := rest, buffer := buffer, outgoing := outgoing }
          let isleading := lookahead.Is SegmentType.Letter || lookahead.Is SegmentType.Number
          if isleading then
            segmentLoop T rest ((t0.accept current).accept lookahead).buffer outgoing
          else
            let t1 :=
              ((((t0.queueBuffer T).accept current).pushToken T).accept lookahead).pushToken T
            segmentLoop T rest t1.buffer t1.outgoing
        else
          trailingOrTerminating T t current r (segmentLoop T (lookahead :: rest))

/-- The method `next` of `tokenizer2`. -/
def tokenizer2.next (T : Tables) (t : tokenizer2) : Result × tokenizer2 :=
  if t.outgoing.len > 0 then
    t.returnPop
  else
    segmentLoop T t.segmenter t.buffer t.outgoing

/-- The stream `Tokenize2(r)`: its initial state over the segments of the input;
`Next` is `tokenizer2.next`. -/
def Tokenize2 (segs : List seg) : tokenizer2 := newTokenizer2 segs

/-- The segment of type `None` that holds the single code point `r`, delivered
without error. -/
def noneSeg (r : Rune) : seg := { Bytes := [r], Typ := SegmentType.None, Err := none }

/-- A segment delivered without error that, when it is not word-like (type
`None`), is exactly one code point. -/
def seg.oneRuneIfNone (s : seg) : Bool :=
  s.Err.isNone && (s.Typ != SegmentType.None || s.Bytes.length == 1)

/-- The text a `tokenizer2` still has to emit: the queued tokens, the buffered
segments and the segments not delivered yet. -/
def tokenizer2.content (t : tokenizer2) : List Rune :=
  concatValues t.outgoing.tokens ++ (bufferBytes t.buffer ++ bufferBytes t.segmenter)

/-- A bound on the calls of `next` that can still return a token. -/
def tokenizer2.measure (t : tokenizer2) : Nat :=
  2 * t.segmenter.length + t.outgoing.tokens.length + min t.buffer.length 1

/-- What a call of `next` from the state `t` achieves when it returns `out`:
either the end, with no text left to emit, or a token that starts the text left,
the remaining segments still delivered without error and one code point long
where not word-like, and the bound on further calls smaller. -/
def tokenizer2.Progress (t : tokenizer2) (out : Result × tokenizer2) : Prop :=
  (out.1 = .ok none ∧ t.content = []) ∨
  (∃ tok, out.1 = .ok (some tok) ∧ (∀ s ∈ out.2.segmenter, s.oneRuneIfNone = true) ∧
    out.2.measure < t.measure ∧ tok.value ++ out.2.content = t.content)

/-! ## The HTML-aware tokenizer (`tokenizer_legacy.go`) -/

/-- The types of the elements that the markup tokenizer delivers; `ErrorToken`
is the end of the sequence of elements. -/
inductive TokenType where
  | TextToken
  | StartTagToken
  | EndTagToken
  | SelfClosingTagToken
  | CommentToken
  | DoctypeToken
deriving DecidableEq

/-- An element delivered by the markup tokenizer: the `html.Token` (its type and
`Data`), the text that `tok.String()` returns for it, and the source text `Raw`
it was read from. -/
structure Element where
  Typ : TokenType
  Data : List Rune
  String : List Rune
  Raw : List Rune
deriving DecidableEq

/-- The markup tokenizer `html.Tokenizer`: the elements still to be delivered and
what `Err()` reports after the last one, `io.EOF` (`none`) or an error. -/
structure Tokenizer where
  elems : List Element
  err : Option Error
deriving DecidableEq

/-- The struct `htokenizer`; the stream `text` is the state of a Legacy
tokenizer, or `none` for `dummy`. -/
structure htokenizer where
  html : Tokenizer
  text : Option tokenizerLegacy
deriving DecidableEq

/-- The call `t.text.Next()`: `dummy` returns `nil, nil`. -/
def textNext (T : Tables) : Option tokenizerLegacy → Result × Option tokenizerLegacy
  | none => (.ok none, none)
  | some inner => ((inner.next T).1, some (inner.next T).2)

/-- The method `next` of `htokenizer`. -/
def htokenizer.next (T : Tables) (t : htokenizer) : Result × htokenizer :=
  let t1 : htokenizer := { t with text := (textNext T t.text).2 }
  match (textNext T t.text).1 with
  | .error err => (.error err, t1)
  | .ok (some text) => (.ok (some text), t1)
  | .ok none =>
    match t1.html.elems with
    | [] =>
      match t1.html.err with
      | none => (.ok none, t1)
      | some err => (.error err, t1)
    | tok :: rest =>
      let html1 : Tokenizer := { t1.html with elems := rest }
      if tok.Typ = TokenType.TextToken then
        let inner := TokenizeLegacy { runes := tok.Data, err := none }
        ((inner.next T).1, { html := html1, text := some (inner.next T).2 })
      else
        (.ok (some { value := tok.String, punct := true, space := false }),
          { html := html1, text := t1.text })

/-- The stream `TokenizeHTML(r)`: its initial state over the elements of the
input; `Next` is `htokenizer.next`. -/
def TokenizeHTML (z : Tokenizer) : htokenizer := { html := z, text := none }

/-- The source text of a sequence of elements. -/
def rawMarkup : List Element → List Rune
  | [] => []
  | e :: rest => e.Raw ++ rawMarkup rest

/-- The tokens of one element: those of the Legacy tokenizer over the text of a
text node, and one punctuation token for any other element. -/
def elementTokens (T : Tables) (e : Element) : List Token :=
  if e.Typ = TokenType.TextToken then legacyTokens T e.Data
  else [{ value := e.String, punct := true, space := false }]

/-- The tokens of a sequence of elements, element by element. -/
def elementsTokens (T : Tables) : List Element → List Token
  | [] => []
  | e :: rest => elementTokens T e ++ elementsTokens T rest

/-- What the calls of `next` of `htokenizer` emit for a sequence of elements, as
text: `Data` for a text node, the result of `String()` for any other element. -/
def emittedMarkup : List Element → List Rune
  | [] => []
  | e :: rest => (if e.Typ = TokenType.TextToken then e.Data else e.String) ++ emittedMarkup rest

/-! ## Tables for the worked examples -/

/-- The function `unicode.IsSpace` of the Go library: the code points with the
Unicode property White_Space. -/
def unicodeIsSpace (r : Rune) : Bool :=
  (0x09 ≤ r && r ≤ 0x0D) || r == 0x20 || r == 0x85 || r == 0xA0 || r == 0x1680 ||
  (0x2000 ≤ r && r ≤ 0x200A) || r == 0x2028 || r == 0x2029 || r == 0x202F ||
  r == 0x205F || r == 0x3000

/-- The ASCII code points of general category P (punctuation): the marks
exclamation, quotation, number sign, percent, ampersand, apostrophe, parentheses,
asterisk, comma, hyphen, full stop, solidus, colon, semicolon, question mark,
commercial at, square brackets, reverse solidus, low line and curly brackets. -/
def asciiPunctuation : List Rune :=
  [0x21, 0x22, 0x23, 0x25, 0x26, 0x27, 0x28, 0x29, 0x2A, 0x2C, 0x2D, 0x2E, 0x2F, 0x3A, 0x3B,
    0x3F, 0x40, 0x5B, 0x5C, 0x5D, 0x5F, 0x7B, 0x7D]

/-- Modelled from the spec: the tables `isPunct`, `leadingPunct`, `midPunct`,
`punctAsSymbol`, `common` and the constructor `newTokenFromRune`, declared in
other files of the package.  The examples use the ASCII punctuation marks
(general category P, so `+` is a symbol and not punctuation), the leading marks
`.`, `#`, `@`, the mid-word marks `.`, the apostrophe and U+2019, the trailing
symbols `+` and `#`, a common table holding the space and the comma, and
single-rune tokens flagged by the classifier. -/
def exampleTables : Tables where
  IsSpace := unicodeIsSpace
  isPunct := fun r => r ∈ asciiPunctuation
  leadingPunct := fun r => r ∈ runes ".#@"
  midPunct := fun r => r ∈ runes ".\x27" || r == 0x2019
  punctAsSymbol := fun r => r ∈ runes "+#"
  common := fun r =>
    if r == 0x20 then some { value := [r], punct := false, space := true }
    else if r == 0x2C then some { value := [r], punct := true, space := false }
    else none
  newTokenFromRune := fun r =>
    { value := [r], punct := r ∈ asciiPunctuation, space := unicodeIsSpace r }

/-- The elements that the markup tokenizer delivers for the source
`<A>x &amp; y</A>`: the start tag with its name in lower case, for which
`String()` gives `<a>`; the text with the entity unescaped in `Data`; the end
tag, for which `String()` gives `</a>`. -/
def exampleElements : List Element :=
  [ { Typ := TokenType.StartTagToken, Data := runes "a", String := runes "<a>",
      Raw := runes "<A>" },
    { Typ := TokenType.TextToken, Data := runes "x & y", String := runes "x &amp; y",
      Raw := runes "x &amp; y" },
    { Typ := TokenType.EndTagToken, Data := runes "a", String := runes "</a>",
      Raw := runes "</A>" } ]

/-- The elements that the markup tokenizer delivers for the source `<b>Hi</b>`. -/
def boldElements : List Element :=
  [ { Typ := TokenType.StartTagToken, Data := runes "b", String := runes "<b>",
      Raw := runes "<b>" },
    { Typ := TokenType.TextToken, Data := runes "Hi", String := runes "Hi",
      Raw := runes "Hi" },
    { Typ := TokenType.EndTagToken, Data := runes "b", String := runes "</b>",
      Raw := runes "</b>" } ]

/-! ## The package `is` (`is/is.go`) -/

/-- The tests of the Go package `unicode` that `is.go` consults:
`unicode.IsLetter`, `unicode.IsNumber`, and `unicode.Is` for the category `Nl`,
the property `Other_Alphabetic`, the scripts `Hiragana`, `Katakana`, `Hebrew`
and the property `Ideographic`. -/
structure Unicode where
  IsLetter : Rune → Bool
  IsNumber : Rune → Bool
  Nl : Rune → Bool
  Other_Alphabetic : Rune → Bool
  Hiragana : Rune → Bool
  Katakana : Rune → Bool
  Ideographic : Rune → Bool
  Hebrew : Rune → Bool

/-- The function `Alphabetic`. -/
def Alphabetic (U : Unicode) (r : Rune) : Bool :=
  if r == 0x5F || U.IsLetter r || U.Nl r || U.Other_Alphabetic r then true
  else false

/-- The function `HebrewLetter`. -/
def HebrewLetter (U : Unicode) (r : Rune) : Bool :=
  U.Hebrew r && U.IsLetter r

/-- The function `ALetter`: the first `switch` returns `false`, the second
returns `true`, and `Alphabetic` decides what is left. -/
def ALetter (U : Unicode) (r : Rune) : Bool :=
  if HebrewLetter U r || U.Hiragana r || U.Katakana r || U.Ideographic r then false
  else if (0x02C2 ≤ r && r ≤ 0x02C5) ||
      (0x02D2 ≤ r && r ≤ 0x02D7) ||
      r == 0x02DE ||
      r == 0x02DF ||
      (0x02E5 ≤ r && r ≤ 0x02EB) ||
      r == 0x02ED ||
      (0x02EF ≤ r && r ≤ 0x02FF) ||
      r == 0x055A ||
      r == 0x055B ||
      r == 0x055C ||
      r == 0x055E ||
      r == 0x058A ||
      r == 0x05F3 ||
      (0xA708 ≤ r && r ≤ 0xA716) ||
      r == 0xA720 ||
      r == 0xA721 ||
      r == 0xA789 ||
      r == 0xA78A ||
      r == 0xAB5B then true
  else Alphabetic U r

/-- The function `MidLetter`: the code points of the `case` list, U+00B7,
U+0387, U+055F, U+05F4, U+2027, U+FE13, U+FE55 and U+FF1A; the colon is
commented out in the source. -/
def MidLetter (r : Rune) : Bool :=
  r == 0x00B7 || r == 0x0387 || r == 0x055F || r == 0x05F4 || r == 0x2027 ||
    r == 0xFE13 || r == 0xFE55 || r == 0xFF1A

/-- The function `InfixNumeric`. -/
def InfixNumeric (r : Rune) : Bool :=
  r == 0x002C || r == 0x002E || r == 0x003A || r == 0x003B || r == 0x037E ||
    r == 0x0589 || r == 0x060C || r == 0x060D || r == 0x07F8 || r == 0x2044 ||
    r == 0xFE10 || r == 0xFE13 || r == 0xFE14

/-- The function `MidNum`: the first `case` returns `false`, the second returns
`true`, and the `default` is `InfixNumeric`. -/
def MidNum (r : Rune) : Bool :=
  if r == 0x003A || r == 0xFE13 || r == 0x002E then false
  else if r == 0x066C || r == 0xFE50 || r == 0xFE54 || r == 0xFF0C || r == 0xFF1B then true
  else InfixNumeric r

/-- The explicit allow-list of `ALetter`, as the specification lists it. -/
def inALetterAllowList (r : Rune) : Prop :=
  (0x02C2 ≤ r ∧ r ≤ 0x02C5) ∨ (0x02D2 ≤ r ∧ r ≤ 0x02D7) ∨ r = 0x02DE ∨ r = 0x02DF ∨
  (0x02E5 ≤ r ∧ r ≤ 0x02EB) ∨ r = 0x02ED ∨ (0x02EF ≤ r ∧ r ≤ 0x02FF) ∨ r = 0x055A ∨
  r = 0x055B ∨ r = 0x055C ∨ r = 0x055E ∨ r = 0x058A ∨ r = 0x05F3 ∨
  (0xA708 ≤ r ∧ r ≤ 0xA716) ∨ r = 0xA720 ∨ r = 0xA721 ∨ r = 0xA789 ∨ r = 0xA78A ∨
  r = 0xAB5B

/-- The code points that `ALetter` leaves out: Hebrew letters, Hiragana, Katakana
and Ideographic code points. -/
def notALetterScript (U : Unicode) (r : Rune) : Bool :=
  HebrewLetter U r || U.Hiragana r || U.Katakana r || U.Ideographic r

/-- A part of the tables of the Go package `unicode`, for the examples: the
letters of the ASCII, Hebrew (alef to tav), Hiragana, Katakana and CJK Unified
Ideographs blocks, the digits, the Roman numerals of category `Nl`, the script
ranges of those blocks and the ideographs. -/
def exampleUnicode : Unicode where
  IsLetter := fun r =>
    (0x41 ≤ r && r ≤ 0x5A) || (0x61 ≤ r && r ≤ 0x7A) || (0x05D0 ≤ r && r ≤ 0x05EA) ||
    (0x3041 ≤ r && r ≤ 0x3096) || (0x30A1 ≤ r && r ≤ 0x30FA) || (0x4E00 ≤ r && r ≤ 0x9FFF)
  IsNumber := fun r => (0x30 ≤ r && r ≤ 0x39) || (0x2160 ≤ r && r ≤ 0x2188)
  Nl := fun r => 0x2160 ≤ r && r ≤ 0x2188
  Other_Alphabetic := fun r => 0x05B0 ≤ r && r ≤ 0x05BD
  Hiragana := fun r => (0x3041 ≤ r && r ≤ 0x3096) || (0x309D ≤ r && r ≤ 0x309F)
  Katakana := fun r => (0x30A1 ≤ r && r ≤ 0x30FA) || (0x30FD ≤ r && r ≤ 0x30FF)
  Ideographic := fun r => (0x3400 ≤ r && r ≤ 0x4DBF) || (0x4E00 ≤ r && r ≤ 0x9FFF)
  Hebrew := fun r => (0x0591 ≤ r && r ≤ 0x05C7) || (0x05D0 ≤ r && r ≤ 0x05EA) ||
    (0x05EF ≤ r && r ≤ 0x05F4)

/-- The function `MidNumLet`: the code points of the `case` list, U+002E,
U+2019, U+2024, U+FE52, U+FF07 and U+FF0E. -/
def MidNumLet (r : Rune) : Bool :=
  r == 0x002E || r == 0x2019 || r == 0x2024 || r == 0xFE52 || r == 0xFF07 || r == 0xFF0E

/-- The function `MidNumLetQ`. -/
def MidNumLetQ (r : Rune) : Bool :=
  MidNumLet r || r == 0x0027

/-- The function `SingleQuote`. -/
def SingleQuote (r : Rune) : Bool :=
  r == 0x0027

/-! ## Bytes: the UTF-8 text that `ReadRune` reads and `WriteRune` writes -/

/-- The function `utf8.DecodeRune` of the Go library, to which `ReadRune` leaves
the decoding: the first rune of the bytes and its width.  Bytes that do not
start a well-formed encoding give `RuneError` and the width 1. -/
def DecodeRune : List Nat → Rune × Nat
  | [] => (RuneError, 0)
  | [p0] => if p0 < 0x80 then (p0, 1) else (RuneError, 1)
  | [p0, b1] =>
    if p0 < 0x80 then (p0, 1)
    else if 0xC2 ≤ p0 ∧ p0 < 0xE0 ∧ 0x80 ≤ b1 ∧ b1 ≤ 0xBF then
      (p0 % 0x20 * 0x40 + b1 % 0x40, 2)
    else (RuneError, 1)
  | [p0, b1, b2] =>
    if p0 < 0x80 then (p0, 1)
    else if 0xC2 ≤ p0 ∧ p0 < 0xE0 ∧ 0x80 ≤ b1 ∧ b1 ≤ 0xBF then
      (p0 % 0x20 * 0x40 + b1 % 0x40, 2)
    else if 0xE0 ≤ p0 ∧ p0 < 0xF0 ∧ (if p0 = 0xE0 then 0xA0 else 0x80) ≤ b1 ∧
        b1 ≤ (if p0 = 0xED then 0x9F else 0xBF) ∧ 0x80 ≤ b2 ∧ b2 ≤ 0xBF then
      (p0 % 0x10 * 0x1000 + b1 % 0x40 * 0x40 + b2 % 0x40, 3)
    else (RuneError, 1)
  | p0 :: b1 :: b2 :: b3 :: _ =>
    if p0 < 0x80 then (p0, 1)
    else if 0xC2 ≤ p0 ∧ p0 < 0xE0 ∧ 0x80 ≤ b1 ∧ b1 ≤ 0xBF then
      (p0 % 0x20 * 0x40 + b1 % 0x40, 2)
    else if 0xE0 ≤ p0 ∧ p0 < 0xF0 ∧ (if p0 = 0xE0 then 0xA0 else 0x80) ≤ b1 ∧
        b1 ≤ (if p0 = 0xED then 0x9F else 0xBF) ∧ 0x80 ≤ b2 ∧ b2 ≤ 0xBF then
      (p0 % 0x10 * 0x1000 + b1 % 0x40 * 0x40 + b2 % 0x40, 3)
    else if 0xF0 ≤ p0 ∧ p0 < 0xF5 ∧ (if p0 = 0xF0 then 0x90 else 0x80) ≤ b1 ∧
        b1 ≤ (if p0 = 0xF4 then 0x8F else 0xBF) ∧ 0x80 ≤ b2 ∧ b2 ≤ 0xBF ∧
        0x80 ≤ b3 ∧ b3 ≤ 0xBF then
      (p0 % 0x08 * 0x40000 + b1 % 0x40 * 0x1000 + b2 % 0x40 * 0x40 + b3 % 0x40, 4)
    else (RuneError, 1)

/-- The runes that successive calls of `ReadRune` return for the bytes of the
input, at most `fuel` of them (the number of bytes is enough). -/
def readRunes : Nat → List Nat → List Rune
  | 0, _ => []
  | _ + 1, [] => []
  | fuel + 1, b :: bs =>
    (DecodeRune (b :: bs)).1 :: readRunes fuel ((b :: bs).drop (DecodeRune (b :: bs)).2)

/-- The bytes that `WriteRune` writes for a rune, the function `utf8.EncodeRune`
of the Go library: a surrogate or a value beyond U+10FFFF is written as
`RuneError`. -/
def EncodeRune (r : Rune) : List Nat :=
  if r < 0x80 then [r]
  else if r < 0x800 then [0xC0 + r / 0x40, 0x80 + r % 0x40]
  else if (0xD800 ≤ r ∧ r ≤ 0xDFFF) ∨ 0x10FFFF < r then [0xEF, 0xBF, 0xBD]
  else if r < 0x10000 then [0xE0 + r / 0x1000, 0x80 + r / 0x40 % 0x40, 0x80 + r % 0x40]
  else [0xF0 + r / 0x40000, 0x80 + r / 0x1000 % 0x40, 0x80 + r / 0x40 % 0x40,
    0x80 + r % 0x40]

/-- The bytes of a text: the encodings of its code points, one after the other. -/
def encodeString : List Rune → List Nat
  | [] => []
  | r :: rs => EncodeRune r ++ encodeString rs

/-- The bytes of the values of a list of tokens, concatenated in order. -/
def concatBytes : List Token → List Nat
  | [] => []
  | t :: ts => encodeString t.value ++ concatBytes ts

/-- The reader over the bytes of an input that is read to its end without error. -/
def bytesReader (input : List Nat) : Reader :=
  { runes := readRunes input.length input, err := none }

/-- A Unicode scalar value: a code point up to U+10FFFF that is not a surrogate. -/
def validRune (r : Rune) : Bool :=
  r < 0xD800 || (0xE000 ≤ r && r ≤ 0x10FFFF)

/-! ## The command-line program (`cmd/jargon/main.go`) -/

/-- The values of type `jargon.Filter` that the program refers to: `ascii.Fold`,
`contractions.Expander`, `stackoverflow.Tags` and the stemmers `stemmer.English`
to `stemmer.Swedish`. -/
inductive Filter where
  | asciiFold
  | contractionsExpander
  | stackoverflowTags
  | stemmerEnglish
  | stemmerFrench
  | stemmerNorwegian
  | stemmerRussian
  | stemmerSpanish
  | stemmerSwedish
deriving DecidableEq

/-- The map `filterMap`; `none` when the key is not found. -/
def filterMap (arg : String) : Option Filter :=
  if arg = "-ascii" then some Filter.asciiFold
  else if arg = "-contractions" then some Filter.contractionsExpander
  else if arg = "-stack" then some Filter.stackoverflowTags
  else if arg = "-stem" then some Filter.stemmerEnglish
  else none

/-- The list `langs`. -/
def langs : List String := ["english", "french", "norwegian", "russian", "spanish", "swedish"]

/-- The map `stemmerMap`; `none` when the key is not found. -/
def stemmerMap (lang : String) : Option Filter :=
  if lang = "english" then some Filter.stemmerEnglish
  else if lang = "french" then some Filter.stemmerFrench
  else if lang = "norwegian" then some Filter.stemmerNorwegian
  else if lang = "russian" then some Filter.stemmerRussian
  else if lang = "spanish" then some Filter.stemmerSpanish
  else if lang = "swedish" then some Filter.stemmerSwedish
  else none

/-- The struct `config`, with the fields that `setFilters` and `execute` use;
`Reader` and `Writer` are `none` for `nil`, and the writer is not written to
here. -/
structure config where
  HTML : Bool
  Filters : List Filter
  Reader : Option Reader
  Writer : Option Unit
deriving DecidableEq

/-- The error of `setFilters` for a language that `stemmerMap` does not hold. -/
def unknownLang (lang : String) : Error := "lang " ++ lang ++ " is not known"

/-- The function `setFilters`: the loop over the arguments, by recursion on the
arguments still to be looked at. -/
def setFilters (c : config) (args : List String) (lang : String) : Option Error × config :=
  match args with
  | [] => (none, c)
  | arg :: rest =>
    match filterMap arg with
    | some filter =>
      if filter = Filter.stemmerEnglish then
        if lang ≠ "" then
          match stemmerMap lang with
          | some stem => setFilters { c with Filters := c.Filters ++ [stem] } rest lang
          | none => (some (unknownLang lang), c)
        else
          setFilters { c with Filters := c.Filters ++ [filter] } rest lang
      else
        setFilters { c with Filters := c.Filters ++ [filter] } rest lang
    | none => setFilters c rest lang

/-- The loop `for _, f := range c.Filters` of `execute`, `apply tokens f` being
`tokens.Filter(f)`. -/
def filterLoop {σ : Type} (apply : σ → Filter → σ) : List Filter → σ → σ
  | [], tokens => tokens
  | f :: rest, tokens => filterLoop apply rest (apply tokens f)

/-- The function `execute`, up to the stream that it hands to `WriteTo`:
`Tokenize` and `TokenizeHTML` give the stream over the reader, and
`apply tokens f` is `tokens.Filter(f)`. -/
def execute {σ : Type} (Tokenize TokenizeHTML : Reader → σ) (apply : σ → Filter → σ)
    (c : config) : Except Error σ :=
  match c.Reader with
  | none => .error "reader is required"
  | some reader =>
    match c.Writer with
    | none => .error "writer is required"
    | some _ =>
      let tokens := if c.HTML then TokenizeHTML reader else Tokenize reader
      .ok (filterLoop apply c.Filters tokens)

/-- The filter that a command-line argument selects: that of the flags `-ascii`,
`-contractions`, `-stack`, and for `-stem` the stemmer of the language, the
English one when no language is given; no filter for any other argument. -/
def flagFilter (lang : String) (arg : String) : Option Filter :=
  if arg = "-ascii" then some Filter.asciiFold
  else if arg = "-contractions" then some Filter.contractionsExpander
  else if arg = "-stack" then some Filter.stackoverflowTags
  else if arg = "-stem" then (if lang = "" then some Filter.stemmerEnglish else stemmerMap lang)
  else none

/-- The filters `f1`, ..., `fn` applied first-listed first: the stream
`fn(...f2(f1(tokens))...)`. -/
def appliedInOrder {σ : Type} (apply : σ → Filter → σ) (filters : List Filter) (tokens : σ) : σ :=
  filters.reverse.foldr (fun f inner => apply inner f) tokens

/-- The configuration that `main` hands to `setFilters`: no filter yet. -/
def initialConfig (html : Bool) : config :=
  { HTML := html, Filters := [], Reader := none, Writer := none }

/-! ## Tokens built from a buffer that is not empty -/

/-- The token that `token` of `tokenizer2` builds when `buffer` holds the
segments `buf`. -/
def tokenOfBuffer (T : Tables) (buf : List seg) : Token :=
  (tokenizer2.token T { segmenter := [], buffer := buf, outgoing := { tokens := [] } }).1

/-- A token that `token` of `tokenizer2` built from a buffer of at least one
segment, each segment holding at least one byte. -/
def Tables.fromBuffer (T : Tables) (tok : Token) : Prop :=
  ∃ buf : List seg, buf ≠ [] ∧ (∀ s ∈ buf, s.Bytes ≠ []) ∧ tok = tokenOfBuffer T buf

/-- A state of `tokenizer2` without an empty piece: the segments still to be
delivered and the buffered segments hold at least one byte each, and the queued
tokens were built from buffers that were not empty. -/
def tokenizer2.NoEmpty (T : Tables) (t : tokenizer2) : Prop :=
  (∀ s ∈ t.segmenter, s.Bytes ≠ []) ∧ (∀ s ∈ t.buffer, s.Bytes ≠ []) ∧
  (∀ tok ∈ t.outgoing.tokens, T.fromBuffer tok)

/-- What a call of `next` gives from a state without an empty piece: a state
without an empty piece and, when a token is returned, one built from a buffer
that was not empty. -/
def tokenizer2.Good (T : Tables) (out : Result × tokenizer2) : Prop :=
  out.2.NoEmpty T ∧ ∀ tok, out.1 = .ok (some tok) → T.fromBuffer tok

/-! ## Calling `Next` until the end: general facts -/

theorem Emits.drain_eq {σ : Type} {next : σ → Result × σ} {s sf : σ} {toks : List Token}
    {e : Option Error} (h : Emits next s toks e sf) :
    ∀ fuel, toks.length < fuel → drain next fuel s = some (toks, e, sf) := by
  induction h with
  | done s s1 hn =>
    intro fuel hf
    cases fuel with
    | zero => simp at hf
    | succ n => simp [drain, hn]
  | fail s s1 e hn =>
    intro fuel hf
    cases fuel with
    | zero => simp at hf
    | succ n => simp [drain, hn]
  | step s s1 sf tok toks e hn _ ih =>
    intro fuel hf
    cases fuel with
    | zero => simp at hf
    | succ n =>
      have h1 : toks.length < n := by simpa using hf
      simp [drain, hn, ih n h1]

/-- A stream whose every call of `next` either returns the end or returns a
token and lowers the bound `μ` comes to its end without error, within `μ` tokens.
With `content` the text still to be emitted and `val` the text of a token: if
each token returned starts the text left, and no text is left at the end, the
tokens returned make up the text. -/
theorem emits_of_measure {σ : Type} (next : σ → Result × σ) (content : σ → List Rune)
    (val : Token → List Rune) (μ : σ → Nat) (Inv : σ → Prop)
    (hstep : ∀ s, Inv s →
      (∃ s1, next s = (.ok none, s1) ∧ content s = []) ∨
      (∃ tok s1, next s = (.ok (some tok), s1) ∧ Inv s1 ∧ μ s1 < μ s ∧
        val tok ++ content s1 = content s)) :
    ∀ n s, μ s < n → Inv s →
      ∃ toks sf, Emits next s toks none sf ∧ (toks.map val).flatten = content s ∧
        toks.length ≤ μ s := by
  intro n
  induction n with
  | zero => intro s h; simp at h
  | succ n ih =>
    intro s hμ hinv
    rcases hstep s hinv with ⟨s1, hn, hc⟩ | ⟨tok, s1, hn, hinv1, hlt, hc⟩
    · exact ⟨[], s1, Emits.done s s1 hn, by simp [hc], by simp⟩
    · obtain ⟨toks, sf, hem, hcv, hlen⟩ := ih s1 (by omega) hinv1
      refine ⟨tok :: toks, sf, Emits.step s s1 sf tok toks none hn hem, ?_, ?_⟩
      · simp [hcv, hc]
      · simp; omega

theorem concatValues_eq_join (toks : List Token) :
    concatValues toks = (toks.map Token.value).flatten := by
  induction toks with
  | nil => rfl
  | cons t ts ih => simp [concatValues, ih]

theorem Emits.deterministic {σ : Type} {next : σ → Result × σ} {s sf : σ} {toks : List Token}
    {e : Option Error} (h : Emits next s toks e sf) :
    ∀ {toks1 e1 sf1}, Emits next s toks1 e1 sf1 → toks1 = toks ∧ e1 = e ∧ sf1 = sf := by
  induction h with
  | done s s1 hn =>
    intro toks1 e1 sf1 h1
    cases h1 with
    | done _ _ hn1 => rw [hn] at hn1; cases hn1; exact ⟨rfl, rfl, rfl⟩
    | fail _ _ _ hn1 => rw [hn] at hn1; cases hn1
    | step _ _ _ _ _ _ hn1 _ => rw [hn] at hn1; cases hn1
  | fail s s1 e hn =>
    intro toks1 e1 sf1 h1
    cases h1 with
    | done _ _ hn1 => rw [hn] at hn1; cases hn1
    | fail _ _ _ hn1 => rw [hn] at hn1; cases hn1; exact ⟨rfl, rfl, rfl⟩
    | step _ _ _ _ _ _ hn1 _ => rw [hn] at hn1; cases hn1
  | step s s1 sf tok toks e hn _ ih =>
    intro toks1 e1 sf1 h1
    cases h1 with
    | done _ _ hn1 => rw [hn] at hn1; cases hn1
    | fail _ _ _ hn1 => rw [hn] at hn1; cases hn1
    | step _ s2 _ tok2 toks2 _ hn1 h2 =>
      rw [hn] at hn1
      cases hn1
      obtain ⟨a, b, c⟩ := ih h2
      exact ⟨by rw [a], b, c⟩

/-! ## The Legacy tokenizer -/

theorem legacy_token_eq (T : Tables) (t : tokenizerLegacy) :
    (t.token T).1 = tokenOf T t.outgoing := by
  unfold tokenOf tokenizerLegacy.token
  dsimp only
  split
  · split <;> rfl
  · rfl

theorem tokenOf_value (T : Tables) (hT : T.SingleRuneValues) (b : List Rune) :
    (tokenOf T b).value = b := by
  unfold tokenOf tokenizerLegacy.token
  dsimp only
  split
  · rename_i r
    split
    · rename_i known hk
      exact hT.2 r known hk
    · exact hT.1 r
  · rfl

theorem legacy_token_value (T : Tables) (hT : T.SingleRuneValues) (t : tokenizerLegacy) :
    (t.token T).1.value = t.outgoing := by
  rw [legacy_token_eq, tokenOf_value T hT]

theorem legacy_token_state (T : Tables) (t : tokenizerLegacy) :
    (t.token T).2 = { t with outgoing := [] } := by
  unfold tokenizerLegacy.token
  dsimp only
  split
  · split <;> rfl
  · rfl

/-- What `readWord` returns when the source ends without a read error: the token
of the buffer followed by some of the runes read, the rune that stopped the word
(if any) stashed in `outgoing`, nothing lost. -/
theorem readWordLoop_spec (T : Tables) :
    ∀ (rs out : List Rune), ∃ t1 pre,
      readWordLoop T none rs out = (.ok (some (tokenOf T (out ++ pre))), t1) ∧
      t1.incoming.err = none ∧ pre ++ t1.outgoing ++ t1.incoming.runes = rs ∧
      t1.outgoing.length ≤ 1 := by
  intro rs
  induction rs with
  | nil =>
    intro out
    refine ⟨{ incoming := { runes := [], err := none }, outgoing := [] }, [], ?_, rfl, rfl,
      by simp⟩
    rw [readWordLoop]
    simp only [legacy_token_eq, legacy_token_state, List.append_nil]
  | cons r rs ih =>
    intro out
    have hflush : ∃ t1 pre,
        ((Except.ok (some ((tokenizerLegacy.token T
            { incoming := { runes := rs, err := none }, outgoing := out }).1)) : Result),
          (tokenizerLegacy.token T
            { incoming := { runes := rs, err := none }, outgoing := out }).2.accept r)
          = (.ok (some (tokenOf T (out ++ pre))), t1) ∧ t1.incoming.err = none ∧
        pre ++ t1.outgoing ++ t1.incoming.runes = r :: rs ∧
        t1.outgoing.length ≤ 1 := by
      refine ⟨{ incoming := { runes := rs, err := none }, outgoing := [r] }, [], ?_, rfl,
        rfl, by simp⟩
      simp only [legacy_token_eq, legacy_token_state, tokenizerLegacy.accept, List.append_nil,
        List.nil_append]
    have hkeep : ∃ t1 pre,
        readWordLoop T none rs (out ++ [r]) = (.ok (some (tokenOf T (out ++ pre))), t1) ∧
        t1.incoming.err = none ∧ pre ++ t1.outgoing ++ t1.incoming.runes = r :: rs ∧
        t1.outgoing.length ≤ 1 := by
      obtain ⟨t1, pre, h1, h2, h4, h5⟩ := ih (out ++ [r])
      exact ⟨t1, r :: pre, by simpa using h1, h2, by simp [← h4], h5⟩
    rw [readWordLoop]
    split
    · cases hp : tokenizerLegacy.peekTerminator T
          { incoming := { runes := rs, err := none }, outgoing := out } with
      | error e =>
        exfalso
        unfold tokenizerLegacy.peekTerminator at hp
        cases rs <;> simp at hp
      | ok b =>
        cases b
        · simpa using hkeep
        · simpa using hflush
    · split
      · exact hflush
      · exact hkeep

theorem legacy_peek_ok (T : Tables) (rs out : List Rune) :
    ∃ b, tokenizerLegacy.peekTerminator T
      { incoming := { runes := rs, err := none }, outgoing := out } = .ok b := by
  unfold tokenizerLegacy.peekTerminator
  cases rs <;> simp

/-- One call of `next` of the Legacy tokenizer over a source that ends without a
read error: either the end, with nothing left and the state unchanged, or the
token of a non-empty run of runes that starts what was left. -/
theorem legacy_next_step (T : Tables) (t : tokenizerLegacy)
    (herr : t.incoming.err = none) :
    (t.next T = (.ok none, t) ∧ t.outgoing ++ t.incoming.runes = []) ∨
    (∃ b s1, t.next T = (.ok (some (tokenOf T b)), s1) ∧ s1.incoming.err = none ∧
      b ≠ [] ∧ b ++ (s1.outgoing ++ s1.incoming.runes) = t.outgoing ++ t.incoming.runes) := by
  obtain ⟨⟨rs, err⟩, out⟩ := t
  simp only at herr
  subst herr
  unfold tokenizerLegacy.next
  by_cases hout : out.length > 0
  · right
    simp only [hout, if_true]
    refine ⟨out, _, by rw [legacy_token_eq], ?_, ?_, ?_⟩
    · simp [legacy_token_state]
    · intro h; simp [h] at hout
    · simp [legacy_token_state]
  · have hnil : out = [] := by
      cases out with
      | nil => rfl
      | cons a l => simp at hout
    subst hnil
    simp only [hout, if_false]
    cases rs with
    | nil => left; exact ⟨rfl, rfl⟩
    | cons r rs =>
      right
      have hword : ∃ b s1, readWordLoop T none rs [r] = (.ok (some (tokenOf T b)), s1) ∧
          s1.incoming.err = none ∧ b ≠ [] ∧
          b ++ (s1.outgoing ++ s1.incoming.runes) = [] ++ r :: rs := by
        obtain ⟨s1, pre, h1, h2, h4, _⟩ := readWordLoop_spec T rs [r]
        exact ⟨[r] ++ pre, s1, h1, h2, by simp, by rw [← h4]; simp⟩
      have htok : ∃ b s1,
          ((Except.ok (some ((tokenizerLegacy.token T
              { incoming := { runes := rs, err := none }, outgoing := [r] }).1)) : Result),
            (tokenizerLegacy.token T
              { incoming := { runes := rs, err := none }, outgoing := [r] }).2)
            = (.ok (some (tokenOf T b)), s1) ∧ s1.incoming.err = none ∧ b ≠ [] ∧
          b ++ (s1.outgoing ++ s1.incoming.runes) = [] ++ r :: rs := by
        refine ⟨[r], _, by rw [legacy_token_eq], ?_, ?_, ?_⟩
        · simp [legacy_token_state]
        · simp
        · simp [legacy_token_state]
      dsimp only [tokenizerLegacy.accept, tokenizerLegacy.readWord, List.nil_append]
      split
      · exact htok
      · split
        · obtain ⟨b, hb⟩ := legacy_peek_ok T rs [r]
          rw [hb]
          dsimp only
          split
          · exact hword
          · exact htok
        · exact hword

/-- The Legacy tokenizer over a text read to its end without error comes to its
end, within as many tokens as there are runes buffered and to be read. -/
theorem legacy_terminates (T : Tables) (t : tokenizerLegacy) (herr : t.incoming.err = none) :
    ∃ toks sf, Emits (tokenizerLegacy.next T) t toks none sf ∧
      toks.length ≤ (t.outgoing ++ t.incoming.runes).length := by
  obtain ⟨toks, sf, h1, _, h3⟩ :=
    emits_of_measure (tokenizerLegacy.next T) (fun _ => []) (fun _ => [])
      (fun s => (s.outgoing ++ s.incoming.runes).length) (fun s => s.incoming.err = none)
      (fun s hs => by
        rcases legacy_next_step T s hs with ⟨h1, _⟩ | ⟨b, s1, h1, h2, h3, h4⟩
        · exact Or.inl ⟨s, h1, rfl⟩
        · refine Or.inr ⟨_, s1, h1, h2, ?_, rfl⟩
          have hl := congrArg List.length h4
          have hb : 0 < b.length := List.length_pos.mpr h3
          simp only [List.length_append] at hl ⊢
          omega)
      _ t (Nat.lt_succ_self _) herr
  exact ⟨toks, sf, h1, h3⟩

/-- The Legacy tokenizer over a text read to its end without error: the calls
of `next` end, and the values of the tokens make up what was buffered and what
was still to be read. -/
theorem legacy_emits (T : Tables) (hT : T.SingleRuneValues) (t : tokenizerLegacy)
    (herr : t.incoming.err = none) :
    ∃ toks sf, Emits (tokenizerLegacy.next T) t toks none sf ∧
      concatValues toks = t.outgoing ++ t.incoming.runes ∧
      toks.length ≤ (t.outgoing ++ t.incoming.runes).length := by
  obtain ⟨toks, sf, h1, h2, h3⟩ :=
    emits_of_measure (tokenizerLegacy.next T) (fun s => s.outgoing ++ s.incoming.runes)
      Token.value
      (fun s => (s.outgoing ++ s.incoming.runes).length) (fun s => s.incoming.err = none)
      (fun s hs => by
        rcases legacy_next_step T s hs with ⟨h1, h0⟩ | ⟨b, s1, h1, h2, h3, h4⟩
        · exact Or.inl ⟨s, h1, h0⟩
        · refine Or.inr ⟨_, s1, h1, h2, ?_, by rw [tokenOf_value T hT]; exact h4⟩
          have hl := congrArg List.length h4
          have hb : 0 < b.length := List.length_pos.mpr h3
          simp only [List.length_append] at hl ⊢
          omega)
      _ t (Nat.lt_succ_self _) herr
  exact ⟨toks, sf, h1, by rw [concatValues_eq_join]; exact h2, h3⟩

/-- C1. Round trip of the Legacy tokenizer: for every input text read to its end
without an I/O error and all tables whose single-rune tokens carry their rune as
value, calling `next` until it returns the end yields (with no error, within
`length + 1` calls) tokens whose values concatenate to the input. -/
theorem legacy_round_trip (T : Tables) (hT : T.SingleRuneValues) (input : List Rune) :
    ∃ toks sf, (∀ fuel, input.length < fuel →
        drain (tokenizerLegacy.next T) fuel (TokenizeLegacy { runes := input, err := none })
          = some (toks, none, sf)) ∧
      concatValues toks = input := by
  obtain ⟨toks, sf, hem, hcv, hlen⟩ :=
    legacy_emits T hT (TokenizeLegacy { runes := input, err := none }) rfl
  refine ⟨toks, sf, ?_, ?_⟩
  · intro fuel hf
    apply hem.drain_eq
    simp [TokenizeLegacy, newTokenizerLegacy] at hlen
    omega
  · simpa [TokenizeLegacy, newTokenizerLegacy] using hcv

theorem exampleTables_singleRuneValues : exampleTables.SingleRuneValues := by
  constructor
  · intro r; rfl
  · intro r t h
    simp only [exampleTables] at h
    split at h
    · cases h; rfl
    · split at h
      · cases h; rfl
      · cases h

theorem legacy_round_trip_witness :
    exampleTables.SingleRuneValues ∧
    ∃ toks sf, (∀ fuel, (runes "Hello, world.").length < fuel →
        drain (tokenizerLegacy.next exampleTables) fuel
          (TokenizeLegacy { runes := runes "Hello, world.", err := none })
          = some (toks, none, sf)) ∧
      concatValues toks = runes "Hello, world." :=
  ⟨exampleTables_singleRuneValues,
    legacy_round_trip exampleTables exampleTables_singleRuneValues (runes "Hello, world.")⟩

/-! ## Words, punctuation and mid-word punctuation in the Legacy tokenizer -/

theorem legacy_peek_letter (T : Tables) (rs out : List Rune) :
    tokenizerLegacy.peekTerminator T
      { incoming := { runes := rs, err := none }, outgoing := out }
      = .ok (!T.followedByLetter rs) := by
  cases rs with
  | nil => rfl
  | cons c rs => simp [tokenizerLegacy.peekTerminator, Tables.followedByLetter]

/-- The runes of a word are accepted one after the other. -/
theorem readWordLoop_word (T : Tables) (err : Option Error) :
    ∀ (w rest out : List Rune), (∀ r ∈ w, T.isWordRune r = true) →
      readWordLoop T err (w ++ rest) out = readWordLoop T err rest (out ++ w) := by
  intro w
  induction w with
  | nil => intro rest out _; simp
  | cons r w ih =>
    intro rest out hw
    have hr : T.isWordRune r = true := hw r (by simp)
    simp only [Tables.isWordRune, Bool.and_eq_true, Bool.not_eq_true'] at hr
    obtain ⟨⟨h1, h2⟩, h3⟩ := hr
    rw [List.cons_append, readWordLoop]
    simp only [h1, h2, h3, Bool.or_self, Bool.false_eq_true, if_false]
    rw [ih rest (out ++ [r]) (fun x hx => hw x (by simp [hx]))]
    simp

/-- A word at the end of the input is flushed as one token. -/
theorem readWordLoop_end (T : Tables) (w out : List Rune)
    (hw : ∀ r ∈ w, T.isWordRune r = true) :
    readWordLoop T none w out =
      (.ok (some (tokenizerLegacy.token T
          { incoming := { runes := [], err := none }, outgoing := out ++ w }).1),
        { incoming := { runes := [], err := none }, outgoing := [] }) := by
  have h := readWordLoop_word T none w [] out hw
  rw [List.append_nil] at h
  rw [h, readWordLoop]
  simp [legacy_token_state]

/-- The rune `c` stops a word when it is mid-word punctuation followed by a
terminator, or other punctuation or whitespace. -/
theorem readWordLoop_stop (T : Tables) (c : Rune) (rest out : List Rune)
    (hc : (T.midPunct c = true ∧ T.followedByLetter rest = false) ∨
      (T.midPunct c = false ∧ (T.isPunct c || T.IsSpace c) = true)) :
    readWordLoop T none (c :: rest) out =
      (.ok (some (tokenizerLegacy.token T
          { incoming := { runes := rest, err := none }, outgoing := out }).1),
        { incoming := { runes := rest, err := none }, outgoing := [c] }) := by
  rw [readWordLoop]
  rcases hc with ⟨h1, h2⟩ | ⟨h1, h2⟩
  · simp only [h1, if_true, legacy_peek_letter, h2, Bool.not_false]
    simp [legacy_token_state, tokenizerLegacy.accept]
  · simp only [h1, Bool.false_eq_true, if_false, h2, if_true]
    simp [legacy_token_state, tokenizerLegacy.accept]

/-- Mid-word punctuation followed by a letter is accepted like a letter. -/
theorem readWordLoop_mid (T : Tables) (m : Rune) (rest out : List Rune)
    (hm : T.midPunct m = true) (hl : T.followedByLetter rest = true) :
    readWordLoop T none (m :: rest) out = readWordLoop T none rest (out ++ [m]) := by
  rw [readWordLoop]
  simp only [hm, if_true, legacy_peek_letter, hl, Bool.not_true]

/-- The stashed rune is the token of the next call. -/
theorem legacy_next_stashed (T : Tables) (c : Rune) (rest : List Rune) :
    tokenizerLegacy.next T { incoming := { runes := rest, err := none }, outgoing := [c] } =
      (.ok (some (tokenizerLegacy.token T
          { incoming := { runes := rest, err := none }, outgoing := [c] }).1),
        { incoming := { runes := rest, err := none }, outgoing := [] }) := by
  simp [tokenizerLegacy.next, legacy_token_state]

/-- A whitespace rune is a token of its own. -/
theorem legacy_next_space (T : Tables) (s : Rune) (rest : List Rune)
    (hs : T.IsSpace s = true) :
    tokenizerLegacy.next T { incoming := { runes := s :: rest, err := none }, outgoing := [] } =
      (.ok (some (tokenizerLegacy.token T
          { incoming := { runes := rest, err := none }, outgoing := [s] }).1),
        { incoming := { runes := rest, err := none }, outgoing := [] }) := by
  simp [tokenizerLegacy.next, hs, legacy_token_state, tokenizerLegacy.accept]

/-- A word starts at a rune that is neither whitespace nor punctuation. -/
theorem legacy_next_letter (T : Tables) (r : Rune) (rest : List Rune)
    (h1 : T.IsSpace r = false) (h2 : T.isPunct r = false) :
    tokenizerLegacy.next T { incoming := { runes := r :: rest, err := none }, outgoing := [] } =
      readWordLoop T none rest [r] := by
  simp [tokenizerLegacy.next, h1, h2, tokenizerLegacy.accept, tokenizerLegacy.readWord]

/-- A leading punctuation mark followed by a letter starts a word. -/
theorem legacy_next_leading (T : Tables) (p : Rune) (rest : List Rune)
    (h1 : T.IsSpace p = false) (h2 : T.isPunct p = true) (h3 : T.leadingPunct p = true)
    (hl : T.followedByLetter rest = true) :
    tokenizerLegacy.next T { incoming := { runes := p :: rest, err := none }, outgoing := [] } =
      readWordLoop T none rest [p] := by
  simp [tokenizerLegacy.next, h1, h2, h3, tokenizerLegacy.accept, tokenizerLegacy.readWord,
    legacy_peek_letter, hl]

/-- At the end of the input, with nothing buffered, `next` returns the end and
leaves the state as it is. -/
theorem legacy_next_end (T : Tables) :
    tokenizerLegacy.next T { incoming := { runes := [], err := none }, outgoing := [] } =
      (.ok none, { incoming := { runes := [], err := none }, outgoing := [] }) := by
  simp [tokenizerLegacy.next]

theorem followedByLetter_word (T : Tables) (w rest : List Rune) (hne : w ≠ [])
    (hw : ∀ r ∈ w, T.isWordRune r = true) : T.followedByLetter (w ++ rest) = true := by
  cases w with
  | nil => exact absurd rfl hne
  | cons r w =>
    have hr : T.isWordRune r = true := hw r (by simp)
    simp only [Tables.isWordRune, Bool.and_eq_true, Bool.not_eq_true'] at hr
    simp [Tables.followedByLetter, hr.1.1, hr.1.2]

/-- The first call of `next` on a word followed by a rune that stops it: the
word is the token, the rune is stashed. -/
theorem legacy_next_word_stop (T : Tables) (w : List Rune) (c : Rune) (rest : List Rune)
    (hne : w ≠ []) (hw : ∀ r ∈ w, T.isWordRune r = true)
    (hc : (T.midPunct c = true ∧ T.followedByLetter rest = false) ∨
      (T.midPunct c = false ∧ (T.isPunct c || T.IsSpace c) = true)) :
    tokenizerLegacy.next T
        { incoming := { runes := w ++ c :: rest, err := none }, outgoing := [] } =
      (.ok (some (tokenizerLegacy.token T
          { incoming := { runes := rest, err := none }, outgoing := w }).1),
        { incoming := { runes := rest, err := none }, outgoing := [c] }) := by
  cases w with
  | nil => exact absurd rfl hne
  | cons r w =>
    have hr : T.isWordRune r = true := hw r (by simp)
    simp only [Tables.isWordRune, Bool.and_eq_true, Bool.not_eq_true'] at hr
    rw [List.cons_append, legacy_next_letter T r _ hr.1.1 hr.1.2,
      readWordLoop_word T none w (c :: rest) [r] (fun x hx => hw x (by simp [hx])),
      readWordLoop_stop T c rest _ hc]
    simp

/-- The first call of `next` on a word that ends the input. -/
theorem legacy_next_word_end (T : Tables) (w : List Rune)
    (hne : w ≠ []) (hw : ∀ r ∈ w, T.isWordRune r = true) :
    tokenizerLegacy.next T { incoming := { runes := w, err := none }, outgoing := [] } =
      (.ok (some (tokenizerLegacy.token T
          { incoming := { runes := [], err := none }, outgoing := w }).1),
        { incoming := { runes := [], err := none }, outgoing := [] }) := by
  cases w with
  | nil => exact absurd rfl hne
  | cons r w =>
    have hr : T.isWordRune r = true := hw r (by simp)
    simp only [Tables.isWordRune, Bool.and_eq_true, Bool.not_eq_true'] at hr
    rw [legacy_next_letter T r _ hr.1.1 hr.1.2,
      readWordLoop_end T w [r] (fun x hx => hw x (by simp [hx]))]
    simp

/-- C5. Technical-term atomicity in the Legacy tokenizer: a non-empty word of
code points that are neither whitespace, nor punctuation, nor mid-word
punctuation is emitted as exactly one token with the word as value; and so is
the word preceded by a punctuation code point of the leading-punctuation set
(a punctuation mark, not whitespace). -/
theorem legacy_technical_term (T : Tables) (hT : T.SingleRuneValues) (w : List Rune)
    (hne : w ≠ []) (hw : ∀ r ∈ w, T.isWordRune r = true) :
    (∀ fuel, 1 < fuel → ∃ tok sf,
      drain (tokenizerLegacy.next T) fuel (TokenizeLegacy { runes := w, err := none })
        = some ([tok], none, sf) ∧ tok.value = w) ∧
    (∀ p, T.isPunct p = true → T.leadingPunct p = true → T.IsSpace p = false →
      ∀ fuel, 1 < fuel → ∃ tok sf,
        drain (tokenizerLegacy.next T) fuel (TokenizeLegacy { runes := p :: w, err := none })
          = some ([tok], none, sf) ∧ tok.value = p :: w) := by
  constructor
  · intro fuel hf
    refine ⟨_, _, Emits.drain_eq (Emits.step _ _ _ _ _ _ (legacy_next_word_end T w hne hw)
      (Emits.done _ _ (legacy_next_end T))) fuel (by simpa using hf), ?_⟩
    simp [legacy_token_value T hT]
  · intro p hp hlead hsp fuel hf
    have hnext : tokenizerLegacy.next T (TokenizeLegacy { runes := p :: w, err := none }) =
        (.ok (some (tokenizerLegacy.token T
            { incoming := { runes := [], err := none }, outgoing := [p] ++ w }).1),
          { incoming := { runes := [], err := none }, outgoing := [] }) := by
      have hl := followedByLetter_word T w [] hne hw
      rw [List.append_nil] at hl
      show tokenizerLegacy.next T
        { incoming := { runes := p :: w, err := none }, outgoing := [] } = _
      rw [legacy_next_leading T p w hsp hp hlead hl, readWordLoop_end T w [p] hw]
    refine ⟨_, _, Emits.drain_eq (Emits.step _ _ _ _ _ _ hnext
      (Emits.done _ _ (legacy_next_end T))) fuel (by simpa using hf), ?_⟩
    simp [legacy_token_value T hT]

theorem legacy_technical_term_witness :
    exampleTables.SingleRuneValues ∧ runes "C++" ≠ [] ∧
    (∀ r ∈ runes "C++", exampleTables.isWordRune r = true) ∧
    ((∀ fuel, 1 < fuel → ∃ tok sf,
      drain (tokenizerLegacy.next exampleTables) fuel
          (TokenizeLegacy { runes := runes "C++", err := none })
        = some ([tok], none, sf) ∧ tok.value = runes "C++") ∧
    (∀ p, exampleTables.isPunct p = true → exampleTables.leadingPunct p = true →
      exampleTables.IsSpace p = false →
      ∀ fuel, 1 < fuel → ∃ tok sf,
        drain (tokenizerLegacy.next exampleTables) fuel
            (TokenizeLegacy { runes := p :: runes "C++", err := none })
          = some ([tok], none, sf) ∧ tok.value = p :: runes "C++")) ∧
    (legacyTokens exampleTables (runes "C++")).map Token.value = [runes "C++"] ∧
    (legacyTokens exampleTables (runes ".Net")).map Token.value = [runes ".Net"] ∧
    (legacyTokens exampleTables (runes "#hashtag")).map Token.value = [runes "#hashtag"] ∧
    (legacyTokens exampleTables (runes "@handle")).map Token.value = [runes "@handle"] :=
  ⟨exampleTables_singleRuneValues, by decide, by decide,
    legacy_technical_term exampleTables exampleTables_singleRuneValues (runes "C++")
      (by decide) (by decide),
    by decide, by decide, by decide, by decide⟩

/-- C6. Punctuation splitting in the Legacy tokenizer: for non-empty words `u`
and `v`, punctuation code points `p` and `q` and a whitespace code point `s`,
the text `u p s v q` is emitted as exactly the five tokens `u`, `p`, `s`, `v`,
`q`, in that order, followed by the end. -/
theorem legacy_punctuation_splitting (T : Tables) (hT : T.SingleRuneValues)
    (u v : List Rune) (p q s : Rune) (hu : u ≠ []) (hv : v ≠ [])
    (huw : ∀ r ∈ u, T.isWordRune r = true) (hvw : ∀ r ∈ v, T.isWordRune r = true)
    (hp : T.isPunct p = true) (hq : T.isPunct q = true) (hs : T.IsSpace s = true) :
    ∀ fuel, 5 < fuel → ∃ toks sf,
      drain (tokenizerLegacy.next T) fuel
          (TokenizeLegacy { runes := u ++ p :: s :: (v ++ [q]), err := none })
        = some (toks, none, sf) ∧
      toks.map Token.value = [u, [p], [s], v, [q]] := by
  intro fuel hf
  have hpstop : (T.midPunct p = true ∧ T.followedByLetter (s :: (v ++ [q])) = false) ∨
      (T.midPunct p = false ∧ (T.isPunct p || T.IsSpace p) = true) := by
    cases hm : T.midPunct p
    · right; simp [hp]
    · left; simp [Tables.followedByLetter, hs]
  have hqstop : (T.midPunct q = true ∧ T.followedByLetter [] = false) ∨
      (T.midPunct q = false ∧ (T.isPunct q || T.IsSpace q) = true) := by
    cases hm : T.midPunct q
    · right; simp [hq]
    · left; simp [Tables.followedByLetter]
  have h1 := legacy_next_word_stop T u p (s :: (v ++ [q])) hu huw hpstop
  have h2 := legacy_next_stashed T p (s :: (v ++ [q]))
  have h3 := legacy_next_space T s (v ++ [q]) hs
  have h4 := legacy_next_word_stop T v q [] hv hvw hqstop
  have h5 := legacy_next_stashed T q []
  have h6 := legacy_next_end T
  refine ⟨_, _, Emits.drain_eq (Emits.step _ _ _ _ _ _ h1 (Emits.step _ _ _ _ _ _ h2
    (Emits.step _ _ _ _ _ _ h3 (Emits.step _ _ _ _ _ _ h4 (Emits.step _ _ _ _ _ _ h5
    (Emits.done _ _ h6)))))) fuel (by simpa using hf), ?_⟩
  simp [legacy_token_value T hT]

theorem legacy_punctuation_splitting_witness :
    exampleTables.SingleRuneValues ∧
    ∀ fuel, 5 < fuel → ∃ toks sf,
      drain (tokenizerLegacy.next exampleTables) fuel
          (TokenizeLegacy { runes := runes "Hello, world.", err := none })
        = some (toks, none, sf) ∧
      toks.map Token.value = [runes "Hello", runes ",", runes " ", runes "world", runes "."] :=
  ⟨exampleTables_singleRuneValues,
    legacy_punctuation_splitting exampleTables exampleTables_singleRuneValues
      (runes "Hello") (runes "world") 0x2C 0x2E 0x20 (by decide) (by decide) (by decide)
      (by decide) (by decide) (by decide) (by decide)⟩

/-- C7. Mid-word punctuation in the Legacy tokenizer: while a word is
accumulated (buffer `out`), a mid-word punctuation code point `m` is kept inside
the word (the token returned continues `out` with `m`) if and only if the code
point after `m` exists and is neither punctuation nor whitespace; otherwise the
token returned is the word before `m`, and the following call of `next` returns
`m` as a token of its own, leaving what follows `m` unread. -/
theorem legacy_mid_word_punct (T : Tables) (hT : T.SingleRuneValues)
    (out : List Rune) (m : Rune) (rest : List Rune) (hm : T.midPunct m = true) :
    ∃ tok t1,
      tokenizerLegacy.readWord T
          { incoming := { runes := m :: rest, err := none }, outgoing := out }
        = (.ok (some tok), t1) ∧
      ((∃ more, tok.value = out ++ m :: more) ↔
        ∃ c rest1, rest = c :: rest1 ∧ T.isPunct c = false ∧ T.IsSpace c = false) ∧
      ((rest = [] ∨ ∃ c rest1, rest = c :: rest1 ∧ (T.isPunct c = true ∨ T.IsSpace c = true)) →
        tok.value = out ∧
        t1 = { incoming := { runes := rest, err := none }, outgoing := [m] } ∧
        ∃ tokm, tokenizerLegacy.next T t1 =
            (.ok (some tokm), { incoming := { runes := rest, err := none }, outgoing := [] }) ∧
          tokm.value = [m]) := by
  cases hl : T.followedByLetter rest
  · -- followed by a terminator
    have hstop := readWordLoop_stop T m rest out (Or.inl ⟨hm, hl⟩)
    refine ⟨_, _, hstop, ?_, ?_⟩
    · constructor
      · rintro ⟨more, hmore⟩
        rw [legacy_token_value T hT] at hmore
        have := congrArg List.length hmore
        simp at this
      · rintro ⟨c, rest1, rfl, h1, h2⟩
        simp [Tables.followedByLetter, h1, h2] at hl
    · intro _
      refine ⟨legacy_token_value T hT _, rfl, _, legacy_next_stashed T m rest, ?_⟩
      exact legacy_token_value T hT _
  · -- followed by a letter
    obtain ⟨t1, pre, h1, _, _, _⟩ := readWordLoop_spec T rest (out ++ [m])
    have hmid := readWordLoop_mid T m rest out hm hl
    refine ⟨tokenOf T (out ++ [m] ++ pre), t1, ?_, ?_, ?_⟩
    · show readWordLoop T none (m :: rest) out = _
      rw [hmid, h1]
    · constructor
      · intro _
        cases rest with
        | nil => simp [Tables.followedByLetter] at hl
        | cons c rest1 =>
          refine ⟨c, rest1, rfl, ?_⟩
          simpa [Tables.followedByLetter] using hl
      · intro _
        exact ⟨pre, by simp [tokenOf_value T hT]⟩
    · rintro (rfl | ⟨c, rest1, rfl, hc⟩)
      · simp [Tables.followedByLetter] at hl
      · exfalso
        simp only [Tables.followedByLetter, Bool.not_eq_true', Bool.or_eq_false_iff] at hl
        rcases hc with hc | hc
        · rw [hl.1] at hc; cases hc
        · rw [hl.2] at hc; cases hc

theorem legacy_mid_word_punct_witness :
    exampleTables.SingleRuneValues ∧ exampleTables.midPunct 0x27 = true ∧
    (∃ tok t1,
      tokenizerLegacy.readWord exampleTables
          { incoming := { runes := 0x27 :: runes "t", err := none }, outgoing := runes "can" }
        = (.ok (some tok), t1) ∧
      ((∃ more, tok.value = runes "can" ++ 0x27 :: more) ↔
        ∃ c rest1, runes "t" = c :: rest1 ∧ exampleTables.isPunct c = false ∧
          exampleTables.IsSpace c = false) ∧
      ((runes "t" = [] ∨ ∃ c rest1, runes "t" = c :: rest1 ∧
          (exampleTables.isPunct c = true ∨ exampleTables.IsSpace c = true)) →
        tok.value = runes "can" ∧
        t1 = { incoming := { runes := runes "t", err := none }, outgoing := [0x27] } ∧
        ∃ tokm, tokenizerLegacy.next exampleTables t1 =
            (.ok (some tokm),
              { incoming := { runes := runes "t", err := none }, outgoing := [] }) ∧
          tokm.value = [0x27])) ∧
    (legacyTokens exampleTables (runes "can\x27t")).map Token.value = [runes "can\x27t"] ∧
    (legacyTokens exampleTables (runes "wait...")).map Token.value
      = [runes "wait", runes ".", runes ".", runes "."] :=
  ⟨exampleTables_singleRuneValues, by decide,
    legacy_mid_word_punct exampleTables exampleTables_singleRuneValues (runes "can") 0x27
      (runes "t") (by decide),
    by decide, by decide⟩

/-! ## The segmentation-based tokenizer -/

theorem concatValues_append (a b : List Token) :
    concatValues (a ++ b) = concatValues a ++ concatValues b := by
  induction a with
  | nil => rfl
  | cons t a ih => simp [concatValues, ih]

theorem bufferBytes_append (a b : List seg) :
    bufferBytes (a ++ b) = bufferBytes a ++ bufferBytes b := by
  induction a with
  | nil => rfl
  | cons t a ih => simp [bufferBytes, ih]

theorem tryRune_true (b : List Rune) (h : (tryRune b).2 = true) : b = [(tryRune b).1] := by
  unfold tryRune at h ⊢
  split at h
  · rfl
  · cases h

theorem tryRune_length (b : List Rune) : (tryRune b).2 = true ↔ b.length = 1 := by
  unfold tryRune
  split
  · simp
  · rename_i h
    simp only [Bool.false_eq_true, false_iff]
    intro hl
    match b, hl with
    | [r], _ => exact h r rfl

theorem tokenizer2_token_value (T : Tables) (hT : T.SingleRuneValues) (t : tokenizer2) :
    (t.token T).1.value = bufferBytes t.buffer := by
  unfold tokenizer2.token
  dsimp only
  split
  · rename_i h
    rw [hT.1]
    exact (tryRune_true _ h).symm
  · rfl

theorem tokenizer2_token_state (T : Tables) (t : tokenizer2) :
    (t.token T).2 = { t with buffer := [] } := by
  unfold tokenizer2.token
  dsimp only
  split <;> rfl

theorem tokenizer2_pushToken_eq (T : Tables) (t : tokenizer2) :
    t.pushToken T =
      ⟨t.segmenter, [], ⟨t.outgoing.tokens ++ [(tokenizer2.token T t).1]⟩⟩ := by
  simp [tokenizer2.pushToken, tokenizer2_token_state, queue.push]

theorem tokenizer2_queueBuffer_segmenter (T : Tables) (t : tokenizer2) :
    (t.queueBuffer T).segmenter = t.segmenter := by
  unfold tokenizer2.queueBuffer
  split
  · rw [tokenizer2_pushToken_eq]
  · rfl

theorem tokenizer2_queueBuffer_buffer (T : Tables) (t : tokenizer2) :
    (t.queueBuffer T).buffer = [] := by
  unfold tokenizer2.queueBuffer
  split
  · rw [tokenizer2_pushToken_eq]
  · rename_i h
    cases hb : t.buffer with
    | nil => rfl
    | cons a l => simp [hb] at h

theorem tokenizer2_queueBuffer_len (T : Tables) (t : tokenizer2) :
    (t.queueBuffer T).outgoing.tokens.length =
      t.outgoing.tokens.length + min t.buffer.length 1 := by
  unfold tokenizer2.queueBuffer
  split
  · rename_i h
    rw [tokenizer2_pushToken_eq]
    have : min t.buffer.length 1 = 1 := by omega
    simp [this]
  · rename_i h
    have : t.buffer.length = 0 := by omega
    simp [this]

theorem tokenizer2_queueBuffer_values (T : Tables) (hT : T.SingleRuneValues) (t : tokenizer2) :
    concatValues (t.queueBuffer T).outgoing.tokens =
      concatValues t.outgoing.tokens ++ bufferBytes t.buffer := by
  unfold tokenizer2.queueBuffer
  split
  · rw [tokenizer2_pushToken_eq]
    simp [concatValues_append, concatValues, tokenizer2_token_value T hT]
  · rename_i h
    cases hb : t.buffer with
    | nil => simp [bufferBytes]
    | cons a l => simp [hb] at h

/-- Pushing the token of the buffer and returning the front of the queue: a
token is returned and no text is lost. -/
theorem tokenizer2_push_pop (T : Tables) (hT : T.SingleRuneValues) (t : tokenizer2) :
    ∃ tok t1, (t.pushToken T).returnPop = (.ok (some tok), t1) ∧
      t1.segmenter = t.segmenter ∧ t1.buffer = [] ∧
      t1.outgoing.tokens.length = t.outgoing.tokens.length ∧
      tok.value ++ concatValues t1.outgoing.tokens =
        concatValues t.outgoing.tokens ++ bufferBytes t.buffer := by
  rw [tokenizer2_pushToken_eq]
  obtain ⟨segs, buffer, ⟨q⟩⟩ := t
  cases q with
  | nil =>
    refine ⟨(tokenizer2.token T ⟨segs, buffer, ⟨[]⟩⟩).1, ⟨segs, [], ⟨[]⟩⟩, ?_, rfl, rfl, rfl, ?_⟩
    · simp [tokenizer2.returnPop, queue.pop]
    · simp [concatValues, tokenizer2_token_value T hT]
  | cons a l =>
    refine ⟨a, ⟨segs, [], ⟨l ++ [(tokenizer2.token T ⟨segs, buffer, ⟨a :: l⟩⟩).1]⟩⟩,
      ?_, rfl, rfl, ?_, ?_⟩
    · simp [tokenizer2.returnPop, queue.pop]
    · simp
    · simp [concatValues, concatValues_append, tokenizer2_token_value T hT]

/-- Returning the front of a queue that is not empty. -/
theorem tokenizer2_pop (t : tokenizer2) (h : t.outgoing.len > 0) :
    ∃ tok t1, t.returnPop = (.ok (some tok), t1) ∧
      t1.segmenter = t.segmenter ∧ t1.buffer = t.buffer ∧
      t1.outgoing.tokens.length + 1 = t.outgoing.tokens.length ∧
      tok.value ++ concatValues t1.outgoing.tokens = concatValues t.outgoing.tokens := by
  obtain ⟨segs, buffer, ⟨q⟩⟩ := t
  cases q with
  | nil => simp [queue.len] at h
  | cons a l =>
    refine ⟨a, ⟨segs, buffer, ⟨l⟩⟩, ?_, rfl, rfl, ?_, ?_⟩
    · simp [tokenizer2.returnPop, queue.pop]
    · simp
    · simp [concatValues]

theorem tokenizer2_progress_mono (t t0 : tokenizer2) (out : Result × tokenizer2)
    (h : t0.Progress out) (hc : t0.content = t.content) (hm : t0.measure ≤ t.measure) :
    t.Progress out := by
  rcases h with ⟨h1, h2⟩ | ⟨tok, h1, h2, h3, h4⟩
  · exact Or.inl ⟨h1, by rw [← hc]; exact h2⟩
  · exact Or.inr ⟨tok, h1, h2, by omega, by rw [h4, hc]⟩

/-- The statements of terminating punctuation or whitespace: queue the buffer,
queue the segment, return the front of the queue. -/
theorem tokenizer2_terminating (T : Tables) (hT : T.SingleRuneValues) (current : seg)
    (rest buffer : List seg) (q : queue) (hrest : ∀ s ∈ rest, s.oneRuneIfNone = true) :
    tokenizer2.Progress ⟨current :: rest, buffer, q⟩
      ((((tokenizer2.queueBuffer T ⟨rest, buffer, q⟩).accept current).pushToken T).returnPop) := by
  obtain ⟨tok, t1, h1, h2, h3, h4, h5⟩ := tokenizer2_push_pop T hT
    ((tokenizer2.queueBuffer T ⟨rest, buffer, q⟩).accept current)
  have hseg := tokenizer2_queueBuffer_segmenter T ⟨rest, buffer, q⟩
  have hbuf := tokenizer2_queueBuffer_buffer T ⟨rest, buffer, q⟩
  have hlen := tokenizer2_queueBuffer_len T ⟨rest, buffer, q⟩
  have hval := tokenizer2_queueBuffer_values T hT ⟨rest, buffer, q⟩
  simp only [tokenizer2.accept] at h2 h4 h5
  right
  refine ⟨tok, by rw [h1], ?_, ?_, ?_⟩
  · rw [h1]; simp only; rw [h2, hseg]; exact hrest
  · rw [h1]
    simp only [tokenizer2.measure, h2, h3, h4, hseg, hlen, List.length_cons, List.length_nil]
    omega
  · rw [h1]
    simp only [tokenizer2.content, h2, h3, hseg]
    rw [← List.append_assoc, h5, hval, hbuf]
    simp [bufferBytes]

/-- The loop of `next` over segments delivered without error in which every
segment that is not word-like is one code point: it returns no error, and it
makes progress. -/
theorem segmentLoop_progress (T : Tables) (hT : T.SingleRuneValues) :
    ∀ (n : Nat) (segs buffer : List seg) (q : queue), segs.length < n →
      (∀ s ∈ segs, s.oneRuneIfNone = true) →
      tokenizer2.Progress ⟨segs, buffer, q⟩ (segmentLoop T segs buffer q) := by
  intro n
  induction n with
  | zero => intro segs buffer q h; simp at h
  | succ n ih =>
    intro segs buffer q hlen hgood
    cases segs with
    | nil =>
      rw [segmentLoop]
      have hseg := tokenizer2_queueBuffer_segmenter T ⟨[], buffer, q⟩
      have hbuf := tokenizer2_queueBuffer_buffer T ⟨[], buffer, q⟩
      have hql := tokenizer2_queueBuffer_len T ⟨[], buffer, q⟩
      have hval := tokenizer2_queueBuffer_values T hT ⟨[], buffer, q⟩
      simp only at hseg hbuf hql hval
      split
      · rename_i hpos
        obtain ⟨tok, t1, h1, h2, h3, h4, h5⟩ :=
          tokenizer2_pop (tokenizer2.queueBuffer T ⟨[], buffer, q⟩) hpos
        right
        refine ⟨tok, by rw [h1], ?_, ?_, ?_⟩
        · rw [h1]; simp only; rw [h2, hseg]; simp
        · rw [h1]
          simp only [tokenizer2.measure, h2, h3, hseg, hbuf, List.length_nil]
          omega
        · rw [h1]
          simp only [tokenizer2.content, h2, h3, hseg, hbuf]
          rw [← List.append_assoc, h5, hval]
          simp [bufferBytes]
      · rename_i hpos
        left
        refine ⟨rfl, ?_⟩
        have h0 : (tokenizer2.queueBuffer T ⟨[], buffer, q⟩).outgoing.tokens = [] := by
          cases hh : (tokenizer2.queueBuffer T ⟨[], buffer, q⟩).outgoing.tokens with
          | nil => rfl
          | cons a l => simp [queue.len, hh] at hpos
        rw [h0] at hval
        simp only [tokenizer2.content, bufferBytes, List.append_nil]
        exact hval.symm
    | cons current rest =>
      have hcur : current.oneRuneIfNone = true := hgood current (by simp)
      have hrest : ∀ s ∈ rest, s.oneRuneIfNone = true := fun s hs => hgood s (by simp [hs])
      simp only [seg.oneRuneIfNone, Bool.and_eq_true, Option.isNone_iff_eq_none,
        Bool.or_eq_true, bne_iff_ne, ne_eq, beq_iff_eq] at hcur
      obtain ⟨hE, hrune⟩ := hcur
      have hlen1 : rest.length < n := by simpa using hlen
      -- accepting the current segment and going on
      have hkeep : tokenizer2.Progress ⟨current :: rest, buffer, q⟩
          (segmentLoop T rest (buffer ++ [current]) q) := by
        apply tokenizer2_progress_mono _ _ _ (ih rest (buffer ++ [current]) q hlen1 hrest)
        · simp [tokenizer2.content, bufferBytes_append, bufferBytes]
        · simp only [tokenizer2.measure, List.length_cons, List.length_append]; omega
      have hterm := tokenizer2_terminating T hT current rest buffer q hrest
      have htrail : ∀ r, tokenizer2.Progress ⟨current :: rest, buffer, q⟩
          (trailingOrTerminating T ⟨rest, buffer, q⟩ current r (segmentLoop T rest)) := by
        intro r
        unfold trailingOrTerminating
        split
        · exact hkeep
        · exact hterm
      have hone : current.Typ = SegmentType.None → (tryRune current.Bytes).2 = true := by
        intro hw
        rw [tryRune_length]
        rcases hrune with h | h
        · exact absurd hw h
        · exact h
      cases rest with
      | nil =>
        rw [segmentLoop]
        simp only [hE]
        by_cases hw : current.Typ = SegmentType.None
        · simp only [hw, bne_self_eq_false, Bool.false_eq_true, if_false, hone hw, Bool.not_true]
          split
          · exact hterm
          · exact htrail _
        · simp only [bne_iff_ne, ne_eq, hw, not_false_eq_true, decide_True, if_true]
          exact hkeep
      | cons lookahead rest1 =>
        rw [segmentLoop]
        simp only [hE]
        by_cases hw : current.Typ = SegmentType.None
        · simp only [hw, bne_self_eq_false, Bool.false_eq_true, if_false, hone hw, Bool.not_true]
          split
          · exact hterm
          · split
            · have hlen2 : rest1.length < n := by simp at hlen1; omega
              have hrest1 : ∀ s ∈ rest1, s.oneRuneIfNone = true :=
                fun s hs => hrest s (by simp [hs])
              split
              · apply tokenizer2_progress_mono _ _ _
                  (ih rest1 ((buffer ++ [current]) ++ [lookahead]) q hlen2 hrest1)
                · simp [tokenizer2.content, bufferBytes_append, bufferBytes]
                · simp only [tokenizer2.measure, List.length_cons, List.length_append]; omega
              · have hbuf := tokenizer2_queueBuffer_buffer T ⟨rest1, buffer, q⟩
                have hql := tokenizer2_queueBuffer_len T ⟨rest1, buffer, q⟩
                have hval := tokenizer2_queueBuffer_values T hT ⟨rest1, buffer, q⟩
                simp only at hbuf hql hval
                simp only [tokenizer2_pushToken_eq, tokenizer2.accept, hbuf, List.nil_append]
                apply tokenizer2_progress_mono _ _ _ (ih rest1 _ _ hlen2 hrest1)
                · simp [tokenizer2.content, bufferBytes, concatValues_append, concatValues,
                    tokenizer2_token_value T hT, hval]
                · simp only [tokenizer2.measure, List.length_cons, List.length_append,
                    List.length_nil, hql]
                  omega
            · exact htrail _
        · simp only [bne_iff_ne, ne_eq, hw, not_false_eq_true, decide_True, if_true]
          exact hkeep

/-- One call of `next` of `tokenizer2` over segments delivered without error in
which every segment that is not word-like is one code point. -/
theorem tokenizer2_next_progress (T : Tables) (hT : T.SingleRuneValues) (t : tokenizer2)
    (h : ∀ s ∈ t.segmenter, s.oneRuneIfNone = true) : t.Progress (t.next T) := by
  unfold tokenizer2.next
  split
  · rename_i hpos
    obtain ⟨tok, t1, h1, h2, h3, h4, h5⟩ := tokenizer2_pop t hpos
    right
    refine ⟨tok, by rw [h1], ?_, ?_, ?_⟩
    · rw [h1]; simp only; rw [h2]; exact h
    · rw [h1]; simp only [tokenizer2.measure, h2, h3]; omega
    · rw [h1]; simp only [tokenizer2.content, h2, h3]
      rw [← List.append_assoc, h5]
  · exact segmentLoop_progress T hT _ t.segmenter t.buffer t.outgoing (Nat.lt_succ_self _) h

/-- C2. Byte guarantee of the segmentation-based tokenizer: over segments
delivered without error in which every segment of type none is exactly one code
point, calling `next` until the end returns no error, and the values of the
tokens, in the order of emission, concatenate to the bytes of the segments in
their order. -/
theorem tokenize2_byte_guarantee (T : Tables) (hT : T.SingleRuneValues) (segs : List seg)
    (hsegs : ∀ s ∈ segs, s.oneRuneIfNone = true) :
    ∃ toks sf, (∀ fuel, 2 * segs.length < fuel →
        drain (tokenizer2.next T) fuel (Tokenize2 segs) = some (toks, none, sf)) ∧
      concatValues toks = bufferBytes segs := by
  obtain ⟨toks, sf, h1, h2, h3⟩ :=
    emits_of_measure (tokenizer2.next T) tokenizer2.content Token.value tokenizer2.measure
      (fun t => ∀ s ∈ t.segmenter, s.oneRuneIfNone = true)
      (fun t ht => by
        rcases tokenizer2_next_progress T hT t ht with ⟨h1, h2⟩ | ⟨tok, h1, h2, h3, h4⟩
        · exact Or.inl ⟨(t.next T).2, by rw [← h1], h2⟩
        · exact Or.inr ⟨tok, (t.next T).2, by rw [← h1], h2, h3, h4⟩)
      _ (Tokenize2 segs) (Nat.lt_succ_self _) hsegs
  refine ⟨toks, sf, ?_, ?_⟩
  · intro fuel hf
    apply h1.drain_eq
    simp only [Tokenize2, newTokenizer2, tokenizer2.measure, List.length_nil] at h3
    omega
  · rw [concatValues_eq_join, h2]
    simp [Tokenize2, newTokenizer2, tokenizer2.content, concatValues, bufferBytes]

theorem tokenize2_byte_guarantee_witness :
    exampleTables.SingleRuneValues ∧
    (∀ s ∈ [seg.mk (runes "Hello") SegmentType.Letter none, noneSeg 0x2C, noneSeg 0x20,
        seg.mk (runes "C") SegmentType.Letter none, noneSeg 0x2B, noneSeg 0x2B, noneSeg 0x2E],
      s.oneRuneIfNone = true) ∧
    ∃ toks sf, (∀ fuel, 2 * [seg.mk (runes "Hello") SegmentType.Letter none, noneSeg 0x2C,
        noneSeg 0x20, seg.mk (runes "C") SegmentType.Letter none, noneSeg 0x2B, noneSeg 0x2B,
        noneSeg 0x2E].length < fuel →
        drain (tokenizer2.next exampleTables) fuel
          (Tokenize2 [seg.mk (runes "Hello") SegmentType.Letter none, noneSeg 0x2C,
            noneSeg 0x20, seg.mk (runes "C") SegmentType.Letter none, noneSeg 0x2B,
            noneSeg 0x2B, noneSeg 0x2E]) = some (toks, none, sf)) ∧
      concatValues toks = bufferBytes [seg.mk (runes "Hello") SegmentType.Letter none,
        noneSeg 0x2C, noneSeg 0x20, seg.mk (runes "C") SegmentType.Letter none, noneSeg 0x2B,
        noneSeg 0x2B, noneSeg 0x2E] :=
  ⟨exampleTables_singleRuneValues, by decide,
    tokenize2_byte_guarantee exampleTables exampleTables_singleRuneValues _ (by decide)⟩

/-! ### Technical terms -/

/-- A word-like segment is accepted and the loop goes on. -/
theorem segmentLoop_word (T : Tables) (word : seg) (rest buffer : List seg) (q : queue)
    (hE : word.Err = none) (hw : word.Typ ≠ SegmentType.None) :
    segmentLoop T (word :: rest) buffer q = segmentLoop T rest (buffer ++ [word]) q := by
  cases rest with
  | nil =>
    conv_lhs => rw [segmentLoop]
    simp [hE, hw, tokenizer2.accept]
  | cons lookahead rest1 =>
    rw [segmentLoop]
    simp [hE, hw, tokenizer2.accept]

/-- A trailing symbol that is neither whitespace nor leading punctuation is
accepted and the loop goes on. -/
theorem segmentLoop_symbol (T : Tables) (r : Rune) (rest buffer : List seg) (q : queue)
    (hsym : T.punctAsSymbol r = true) (hsp : T.IsSpace r = false)
    (hlead : T.leadingPunct r = false) :
    segmentLoop T (noneSeg r :: rest) buffer q =
      segmentLoop T rest (buffer ++ [noneSeg r]) q := by
  cases rest with
  | nil =>
    conv_lhs => rw [segmentLoop]
    simp [noneSeg, tryRune, hsp, trailingOrTerminating, hsym, tokenizer2.accept]
  | cons lookahead rest1 =>
    rw [segmentLoop]
    simp [noneSeg, tryRune, hsp, hlead, trailingOrTerminating, hsym, tokenizer2.accept]

theorem segmentLoop_symbols (T : Tables) :
    ∀ (syms : List Rune) (buffer : List seg) (q : queue),
      (∀ r ∈ syms, T.punctAsSymbol r = true ∧ T.IsSpace r = false ∧ T.leadingPunct r = false) →
      segmentLoop T (syms.map noneSeg) buffer q =
        segmentLoop T [] (buffer ++ syms.map noneSeg) q := by
  intro syms
  induction syms with
  | nil => intro buffer q _; simp
  | cons r syms ih =>
    intro buffer q h
    obtain ⟨h1, h2, h3⟩ := h r (by simp)
    rw [List.map_cons, segmentLoop_symbol T r _ buffer q h1 h2 h3,
      ih (buffer ++ [noneSeg r]) q (fun x hx => h x (by simp [hx]))]
    simp

/-- A leading punctuation mark followed by a segment of letters or of digits:
both are accepted and the loop goes on. -/
theorem segmentLoop_leading (T : Tables) (r : Rune) (s : seg) (rest buffer : List seg)
    (q : queue) (hlead : T.leadingPunct r = true) (hsp : T.IsSpace r = false)
    (hs : s.Typ = SegmentType.Letter ∨ s.Typ = SegmentType.Number) :
    segmentLoop T (noneSeg r :: s :: rest) buffer q =
      segmentLoop T rest (buffer ++ [noneSeg r] ++ [s]) q := by
  rw [segmentLoop]
  rcases hs with hs | hs <;>
    simp [noneSeg, tryRune, hsp, hlead, seg.Is, hs, tokenizer2.accept]

/-- At the end of the segments a buffer that is not empty is the last token. -/
theorem segmentLoop_flush (T : Tables) (buffer : List seg) (hb : buffer ≠ []) :
    segmentLoop T [] buffer ⟨[]⟩ =
      (.ok (some (tokenizer2.token T ⟨[], buffer, ⟨[]⟩⟩).1), ⟨[], [], ⟨[]⟩⟩) := by
  rw [segmentLoop]
  have hpos : buffer.length > 0 := List.length_pos.mpr hb
  simp [tokenizer2.queueBuffer, hpos, tokenizer2_pushToken_eq, queue.len, tokenizer2.returnPop,
    queue.pop]

/-- With nothing queued, nothing buffered and no segment left, `next` returns
the end and leaves the state as it is. -/
theorem tokenizer2_next_end (T : Tables) :
    tokenizer2.next T ⟨[], [], ⟨[]⟩⟩ = (.ok none, ⟨[], [], ⟨[]⟩⟩) := by
  simp [tokenizer2.next, queue.len, segmentLoop, tokenizer2.queueBuffer]

/-- C8. Technical-term atomicity in the segmentation-based tokenizer: a
word-like segment followed by any number of single-code-point segments of type
none whose code point is a trailing symbol, not whitespace and not leading
punctuation, is emitted as exactly one token, the concatenation of the segments;
and a leading-punctuation code point (a punctuation mark, not whitespace)
followed by one segment of letters or of digits is emitted as exactly one token,
the code point followed by the segment. -/
theorem tokenize2_technical_term (T : Tables) (hT : T.SingleRuneValues) :
    (∀ (word : seg) (syms : List Rune), word.Err = none → word.Typ ≠ SegmentType.None →
      (∀ r ∈ syms, T.punctAsSymbol r = true ∧ T.IsSpace r = false ∧
        T.leadingPunct r = false) →
      ∀ fuel, 1 < fuel → ∃ tok sf,
        drain (tokenizer2.next T) fuel (Tokenize2 (word :: syms.map noneSeg))
          = some ([tok], none, sf) ∧ tok.value = word.Bytes ++ syms) ∧
    (∀ (r : Rune) (s : seg), T.leadingPunct r = true → T.IsSpace r = false →
      (s.Typ = SegmentType.Letter ∨ s.Typ = SegmentType.Number) →
      ∀ fuel, 1 < fuel → ∃ tok sf,
        drain (tokenizer2.next T) fuel (Tokenize2 [noneSeg r, s])
          = some ([tok], none, sf) ∧ tok.value = r :: s.Bytes) := by
  have hbytes : ∀ syms : List Rune, bufferBytes (syms.map noneSeg) = syms := by
    intro syms
    induction syms with
    | nil => rfl
    | cons r syms ih => simp [bufferBytes, noneSeg, ih]
  constructor
  · intro word syms hE hw hsyms fuel hf
    have hnext : tokenizer2.next T (Tokenize2 (word :: syms.map noneSeg)) =
        (.ok (some (tokenizer2.token T ⟨[], [word] ++ syms.map noneSeg, ⟨[]⟩⟩).1),
          ⟨[], [], ⟨[]⟩⟩) := by
      simp only [tokenizer2.next, Tokenize2, newTokenizer2, queue.len, List.length_nil,
        gt_iff_lt, Nat.lt_irrefl, if_false]
      rw [segmentLoop_word T word _ [] _ hE hw, segmentLoop_symbols T syms _ _ hsyms,
        segmentLoop_flush T _ (by simp)]
      simp
    refine ⟨_, _, Emits.drain_eq (Emits.step _ _ _ _ _ _ hnext
      (Emits.done _ _ (tokenizer2_next_end T))) fuel (by simpa using hf), ?_⟩
    rw [tokenizer2_token_value T hT]
    simp [bufferBytes_append, bufferBytes, hbytes]
  · intro r s hlead hsp hs fuel hf
    have hnext : tokenizer2.next T (Tokenize2 [noneSeg r, s]) =
        (.ok (some (tokenizer2.token T ⟨[], [noneSeg r, s], ⟨[]⟩⟩).1), ⟨[], [], ⟨[]⟩⟩) := by
      simp only [tokenizer2.next, Tokenize2, newTokenizer2, queue.len, List.length_nil,
        gt_iff_lt, Nat.lt_irrefl, if_false]
      rw [segmentLoop_leading T r s [] [] _ hlead hsp hs, segmentLoop_flush T _ (by simp)]
      simp
    refine ⟨_, _, Emits.drain_eq (Emits.step _ _ _ _ _ _ hnext
      (Emits.done _ _ (tokenizer2_next_end T))) fuel (by simpa using hf), ?_⟩
    rw [tokenizer2_token_value T hT]
    simp [bufferBytes, noneSeg]

theorem tokenize2_technical_term_witness :
    exampleTables.SingleRuneValues ∧
    (∃ tok sf,
      drain (tokenizer2.next exampleTables) 2
          (Tokenize2 (seg.mk (runes "C") SegmentType.Letter none :: (runes "++").map noneSeg))
        = some ([tok], none, sf) ∧ tok.value = runes "C" ++ runes "++") ∧
    (∃ tok sf,
      drain (tokenizer2.next exampleTables) 2
          (Tokenize2 [noneSeg 0x2E, seg.mk (runes "Net") SegmentType.Letter none])
        = some ([tok], none, sf) ∧ tok.value = 0x2E :: runes "Net") ∧
    (drain (tokenizer2.next exampleTables) 2
        (Tokenize2 [noneSeg 0x23, seg.mk (runes "hashtag") SegmentType.Letter none])).map
      (fun x => x.1.map Token.value) = some [runes "#hashtag"] ∧
    (drain (tokenizer2.next exampleTables) 2
        (Tokenize2 [noneSeg 0x40, seg.mk (runes "handle") SegmentType.Letter none])).map
      (fun x => x.1.map Token.value) = some [runes "@handle"] :=
  ⟨exampleTables_singleRuneValues,
    (tokenize2_technical_term exampleTables exampleTables_singleRuneValues).1
      (seg.mk (runes "C") SegmentType.Letter none) (runes "++") rfl (by decide) (by decide)
      2 (by decide),
    (tokenize2_technical_term exampleTables exampleTables_singleRuneValues).2
      0x2E (seg.mk (runes "Net") SegmentType.Letter none) (by decide) (by decide) (by decide)
      2 (by decide),
    by decide, by decide⟩

/-- The guard after `tryRune`: a current segment of type none, delivered without
error, whose bytes are not exactly one code point makes `next` return the error
of the guard; the segment is neither buffered nor queued. -/
theorem segmentLoop_guard (T : Tables) (current : seg) (rest buffer : List seg) (q : queue)
    (hE : current.Err = none) (hT : current.Typ = SegmentType.None)
    (hlen : current.Bytes.length ≠ 1) :
    segmentLoop T (current :: rest) buffer q = (.error shouldBeRune, ⟨rest, buffer, q⟩) := by
  have hone : (tryRune current.Bytes).2 = false := by
    cases h : (tryRune current.Bytes).2 with
    | false => rfl
    | true => exact absurd ((tryRune_length _).mp h) hlen
  cases rest with
  | nil =>
    rw [segmentLoop]
    simp [hE, hT, hone]
  | cons lookahead rest1 =>
    rw [segmentLoop]
    simp [hE, hT, hone]

/-- C9. The guard after `tryRune` covers the current segment only.  A segment of
type none that holds the two code points CR LF is refused with the error of the
guard when it is the current segment; taken as the look-ahead after the leading
punctuation mark `.`, the same segment is queued and emitted as a token, and
`next` returns no error. -/
theorem tokenize2_lookahead_not_guarded :
    drain (tokenizer2.next exampleTables) 3
        (Tokenize2 [seg.mk [0x0D, 0x0A] SegmentType.None none])
      = some ([], some shouldBeRune, ⟨[], [], ⟨[]⟩⟩) ∧
    drain (tokenizer2.next exampleTables) 3
        (Tokenize2 [noneSeg 0x2E, seg.mk [0x0D, 0x0A] SegmentType.None none])
      = some ([⟨[0x2E], true, false⟩, ⟨[0x0D, 0x0A], false, false⟩], none,
          ⟨[], [], ⟨[]⟩⟩) := by
  constructor <;> decide

/-! ## The end of a stream is final -/

/-- The method `readWord` never returns `nil` without an error. -/
theorem readWordLoop_ne_end (T : Tables) (err : Option Error) :
    ∀ (rs out : List Rune), (readWordLoop T err rs out).1 ≠ .ok none := by
  intro rs
  induction rs with
  | nil =>
    intro out
    cases err <;> rw [readWordLoop] <;> simp
  | cons r rs ih =>
    intro out
    rw [readWordLoop]
    split
    · split
      · simp
      · simp
      · exact ih _
    · split
      · simp
      · exact ih _

/-- The Legacy tokenizer returns the end only with nothing buffered, at the end
of a source that ends without error, and leaves its state as it is. -/
theorem legacy_end_fixed (T : Tables) (t t1 : tokenizerLegacy)
    (h : t.next T = (.ok none, t1)) :
    t1 = t ∧ t.outgoing = [] ∧ t.incoming.runes = [] ∧ t.incoming.err = none := by
  obtain ⟨⟨rs, err⟩, out⟩ := t
  unfold tokenizerLegacy.next at h
  split at h
  · simp at h
  · rename_i hout
    have hnil : out = [] := by
      cases out with
      | nil => rfl
      | cons a l => simp at hout
    subst hnil
    cases rs with
    | nil =>
      cases err with
      | none => simp at h; exact ⟨h.symm, rfl, rfl, rfl⟩
      | some e => simp at h
    | cons r rs =>
      exfalso
      dsimp only at h
      split at h
      · simp at h
      · split at h
        · split at h
          · simp at h
          · split at h
            · exact readWordLoop_ne_end T _ _ _ (congrArg Prod.fst h)
            · simp at h
        · exact readWordLoop_ne_end T _ _ _ (congrArg Prod.fst h)

theorem tokenizer2_push_pop_some (T : Tables) (t : tokenizer2) :
    ((t.pushToken T).returnPop).1 ≠ .ok none := by
  rw [tokenizer2_pushToken_eq]
  obtain ⟨segs, buffer, ⟨q⟩⟩ := t
  cases q <;> simp [tokenizer2.returnPop, queue.pop]

theorem tokenizer2_pop_some (t : tokenizer2) (h : t.outgoing.len > 0) :
    (t.returnPop).1 ≠ .ok none := by
  obtain ⟨tok, t1, h1, _⟩ := tokenizer2_pop t h
  rw [h1]
  simp

/-- The loop of `next` returns the end only when no segment is left, and then
nothing is buffered and nothing is queued. -/
theorem segmentLoop_end (T : Tables) :
    ∀ (n : Nat) (segs buffer : List seg) (q : queue), segs.length < n →
      (segmentLoop T segs buffer q).1 = .ok none →
      (segmentLoop T segs buffer q).2 = ⟨[], [], ⟨[]⟩⟩ := by
  intro n
  induction n with
  | zero => intro segs buffer q h; simp at h
  | succ n ih =>
    intro segs buffer q hlen
    have htrail : ∀ (t : tokenizer2) (current : seg) (r : Rune) (rest : List seg),
        rest.length < n →
        (trailingOrTerminating T t current r (segmentLoop T rest)).1 = .ok none →
        (trailingOrTerminating T t current r (segmentLoop T rest)).2 = ⟨[], [], ⟨[]⟩⟩ := by
      intro t current r rest hr
      unfold trailingOrTerminating
      split
      · exact ih _ _ _ hr
      · intro h
        exact absurd h (tokenizer2_push_pop_some T _)
    cases segs with
    | nil =>
      rw [segmentLoop]
      split
      · rename_i hpos
        intro h
        exact absurd h (tokenizer2_pop_some _ hpos)
      · rename_i hpos
        intro _
        have hql := tokenizer2_queueBuffer_len T ⟨[], buffer, q⟩
        have hbuf := tokenizer2_queueBuffer_buffer T ⟨[], buffer, q⟩
        have hseg := tokenizer2_queueBuffer_segmenter T ⟨[], buffer, q⟩
        generalize tokenizer2.queueBuffer T ⟨[], buffer, q⟩ = t1 at *
        obtain ⟨s1, b1, ⟨q1⟩⟩ := t1
        simp only [queue.len] at hpos
        simp only at hbuf hseg
        subst hbuf hseg
        cases q1 with
        | nil => rfl
        | cons a l => simp at hpos
    | cons current rest =>
      have hlen1 : rest.length < n := by simpa using hlen
      cases rest with
      | nil =>
        rw [segmentLoop]
        dsimp only
        split
        · simp
        · split
          · exact ih _ _ _ hlen1
          · split
            · simp
            · split
              · intro h
                exact absurd h (tokenizer2_push_pop_some T _)
              · exact htrail _ _ _ _ hlen1
      | cons lookahead rest1 =>
        have hlen2 : rest1.length < n := by simp at hlen1; omega
        rw [segmentLoop]
        dsimp only
        split
        · simp
        · split
          · exact ih _ _ _ hlen1
          · split
            · simp
            · split
              · intro h
                exact absurd h (tokenizer2_push_pop_some T _)
              · split
                · split
                  · exact ih _ _ _ hlen2
                  · exact ih _ _ _ hlen2
                · exact htrail _ _ _ _ hlen1

/-- The segmentation-based tokenizer returns the end only with nothing queued,
nothing buffered and no segment left. -/
theorem tokenizer2_end_final (T : Tables) (t t1 : tokenizer2)
    (h : t.next T = (.ok none, t1)) : t1 = ⟨[], [], ⟨[]⟩⟩ := by
  unfold tokenizer2.next at h
  split at h
  · rename_i hpos
    exact absurd (congrArg Prod.fst h) (tokenizer2_pop_some t hpos)
  · have := segmentLoop_end T _ t.segmenter t.buffer t.outgoing (Nat.lt_succ_self _)
      (congrArg Prod.fst h)
    rw [h] at this
    exact this

/-! ## The HTML-aware tokenizer -/

/-- The tokens of the Legacy tokenizer over a text are those of a complete run,
from the first call of `next` to the end. -/
theorem legacy_emits_tokens (T : Tables) (text : List Rune) :
    ∃ sf, Emits (tokenizerLegacy.next T) (TokenizeLegacy { runes := text, err := none })
      (legacyTokens T text) none sf := by
  obtain ⟨toks, sf, hem, hlen⟩ :=
    legacy_terminates T (TokenizeLegacy { runes := text, err := none }) rfl
  have hd := hem.drain_eq (text.length + 1)
    (by simp [TokenizeLegacy, newTokenizerLegacy] at hlen; omega)
  have : legacyTokens T text = toks := by
    unfold legacyTokens
    rw [hd]
  rw [this]
  exact ⟨sf, hem⟩

theorem legacy_fresh_not_end (T : Tables) (text : List Rune) (h : text ≠ [])
    (t1 : tokenizerLegacy) :
    tokenizerLegacy.next T (TokenizeLegacy { runes := text, err := none }) ≠ (.ok none, t1) := by
  intro hn
  exact h (legacy_end_fixed T _ _ hn).2.2.1

theorem textNext_exhausted (T : Tables) (s s1 : tokenizerLegacy)
    (h : s.next T = (.ok none, s1)) : textNext T (some s) = (.ok none, some s) := by
  have := (legacy_end_fixed T s s1 h).1
  subst this
  simp [textNext, h]

theorem htokenizer_next_inner (T : Tables) (z : Tokenizer) (s s1 : tokenizerLegacy)
    (tok : Token) (h : s.next T = (.ok (some tok), s1)) :
    htokenizer.next T { html := z, text := some s } =
      (.ok (some tok), { html := z, text := some s1 }) := by
  simp [htokenizer.next, textNext, h]

theorem htokenizer_next_eof (T : Tables) (txt : Option tokenizerLegacy)
    (h : textNext T txt = (.ok none, txt)) :
    htokenizer.next T { html := { elems := [], err := none }, text := txt } =
      (.ok none, { html := { elems := [], err := none }, text := txt }) := by
  simp [htokenizer.next, h]

theorem htokenizer_next_markup (T : Tables) (e : Element) (rest : List Element)
    (txt : Option tokenizerLegacy) (h : textNext T txt = (.ok none, txt))
    (he : e.Typ ≠ TokenType.TextToken) :
    htokenizer.next T { html := { elems := e :: rest, err := none }, text := txt } =
      (.ok (some { value := e.String, punct := true, space := false }),
        { html := { elems := rest, err := none }, text := txt }) := by
  simp [htokenizer.next, h, he]

theorem htokenizer_next_text (T : Tables) (e : Element) (rest : List Element)
    (txt : Option tokenizerLegacy) (h : textNext T txt = (.ok none, txt))
    (he : e.Typ = TokenType.TextToken) (tok : Token) (s1 : tokenizerLegacy)
    (hn : tokenizerLegacy.next T (TokenizeLegacy { runes := e.Data, err := none })
      = (.ok (some tok), s1)) :
    htokenizer.next T { html := { elems := e :: rest, err := none }, text := txt } =
      (.ok (some tok), { html := { elems := rest, err := none }, text := some s1 }) := by
  simp [htokenizer.next, h, he, hn]

/-- While the inner text stream runs, its tokens are those of `htokenizer`. -/
theorem html_emits_running (T : Tables) (elems : List Element) (rest : List Token)
    (hrest : ∀ txt, textNext T txt = (.ok none, txt) →
      ∃ sf, Emits (htokenizer.next T) { html := { elems := elems, err := none }, text := txt }
        rest none sf ∧ sf.html.elems = [] ∧ (textNext T sf.text).1 = .ok none) :
    ∀ (st stf : tokenizerLegacy) (L : List Token) (e : Option Error),
      Emits (tokenizerLegacy.next T) st L e stf → e = none →
      ∃ sf, Emits (htokenizer.next T)
        { html := { elems := elems, err := none }, text := some st } (L ++ rest) none sf ∧
        sf.html.elems = [] ∧ (textNext T sf.text).1 = .ok none := by
  intro st stf L e h
  induction h with
  | done s s1 hn =>
    intro _
    exact hrest (some s) (textNext_exhausted T s s1 hn)
  | fail s s1 e hn => intro he; cases he
  | step s s1 sf tok toks e hn _ ih =>
    intro he
    obtain ⟨sf1, h1, h2⟩ := ih he
    exact ⟨sf1, Emits.step _ _ _ _ _ _ (htokenizer_next_inner T _ s s1 tok hn) h1, h2⟩

/-- With the inner text stream exhausted, `htokenizer` emits the tokens of the
elements still to be delivered, element by element, and then the end. -/
theorem html_emits_exhausted (T : Tables) :
    ∀ (elems : List Element), (∀ e ∈ elems, e.Typ = TokenType.TextToken → e.Data ≠ []) →
      ∀ txt, textNext T txt = (.ok none, txt) →
      ∃ sf, Emits (htokenizer.next T) { html := { elems := elems, err := none }, text := txt }
        (elementsTokens T elems) none sf ∧ sf.html.elems = [] ∧
        (textNext T sf.text).1 = .ok none := by
  intro elems
  induction elems with
  | nil =>
    intro _ txt htxt
    exact ⟨_, Emits.done _ _ (htokenizer_next_eof T txt htxt), rfl, by rw [htxt]⟩
  | cons e rest ih =>
    intro hne txt htxt
    have hne1 : ∀ x ∈ rest, x.Typ = TokenType.TextToken → x.Data ≠ [] :=
      fun x hx => hne x (by simp [hx])
    by_cases he : e.Typ = TokenType.TextToken
    · obtain ⟨sfL, hemL⟩ := legacy_emits_tokens T e.Data
      have hdata : e.Data ≠ [] := hne e (by simp) he
      have htoks : elementsTokens T (e :: rest) = legacyTokens T e.Data ++ elementsTokens T rest := by
        simp [elementsTokens, elementTokens, he]
      rw [htoks]
      generalize legacyTokens T e.Data = L at hemL
      cases hemL with
      | done _ _ hn => exact absurd hn (legacy_fresh_not_end T e.Data hdata _)
      | step _ s1 _ tok toks _ hn hrun =>
        obtain ⟨sf, h1, h2⟩ := html_emits_running T rest (elementsTokens T rest)
          (ih hne1) s1 sfL toks none hrun rfl
        exact ⟨sf, Emits.step _ _ _ _ _ _ (htokenizer_next_text T e rest txt htxt he tok s1 hn)
          h1, h2⟩
    · obtain ⟨sf, h1, h2⟩ := ih hne1 txt htxt
      have htoks : elementsTokens T (e :: rest) =
          { value := e.String, punct := true, space := false } :: elementsTokens T rest := by
        simp [elementsTokens, elementTokens, he]
      rw [htoks]
      exact ⟨sf, Emits.step _ _ _ _ _ _ (htokenizer_next_markup T e rest txt htxt he) h1, h2⟩

/-- C10. Structure of the HTML token stream: for elements delivered by the
markup tokenizer (text nodes are never empty) and ended by the end of input, the
tokens emitted by `TokenizeHTML` until the end are, element by element and in
order, the tokens of the Legacy tokenizer over the text of a text node (a
complete run of that tokenizer) and exactly one token with `punct = true` and
`space = false` for any other element; the end is returned with no element left
and the inner text stream exhausted. -/
theorem html_token_structure (T : Tables) (elems : List Element)
    (htext : ∀ e ∈ elems, e.Typ = TokenType.TextToken → e.Data ≠ []) :
    (∃ sf, (∀ fuel, (elementsTokens T elems).length < fuel →
        drain (htokenizer.next T) fuel (TokenizeHTML { elems := elems, err := none })
          = some (elementsTokens T elems, none, sf)) ∧
      sf.html.elems = [] ∧ (textNext T sf.text).1 = .ok none) ∧
    (∀ e ∈ elems, e.Typ = TokenType.TextToken →
      elementTokens T e = legacyTokens T e.Data ∧
      ∃ sfL, drain (tokenizerLegacy.next T) (e.Data.length + 1)
        (TokenizeLegacy { runes := e.Data, err := none })
          = some (legacyTokens T e.Data, none, sfL)) ∧
    (∀ e ∈ elems, e.Typ ≠ TokenType.TextToken →
      elementTokens T e = [{ value := e.String, punct := true, space := false }]) := by
  refine ⟨?_, ?_, ?_⟩
  · obtain ⟨sf, h1, h2⟩ := html_emits_exhausted T elems htext none rfl
    exact ⟨sf, fun fuel hf => h1.drain_eq fuel hf, h2⟩
  · intro e _ he
    refine ⟨by simp [elementTokens, he], ?_⟩
    obtain ⟨toks, sf, hem, hlen⟩ :=
      legacy_terminates T (TokenizeLegacy { runes := e.Data, err := none }) rfl
    have hd := hem.drain_eq (e.Data.length + 1)
      (by simp [TokenizeLegacy, newTokenizerLegacy] at hlen; omega)
    have : legacyTokens T e.Data = toks := by
      unfold legacyTokens
      rw [hd]
    rw [this]
    exact ⟨sf, hd⟩
  · intro e _ he
    simp [elementTokens, he]

theorem html_token_structure_witness :
    (∀ e ∈ boldElements, e.Typ = TokenType.TextToken → e.Data ≠ []) ∧
    ((∃ sf, (∀ fuel, (elementsTokens exampleTables boldElements).length < fuel →
        drain (htokenizer.next exampleTables) fuel
            (TokenizeHTML { elems := boldElements, err := none })
          = some (elementsTokens exampleTables boldElements, none, sf)) ∧
      sf.html.elems = [] ∧ (textNext exampleTables sf.text).1 = .ok none) ∧
    (∀ e ∈ boldElements, e.Typ = TokenType.TextToken →
      elementTokens exampleTables e = legacyTokens exampleTables e.Data ∧
      ∃ sfL, drain (tokenizerLegacy.next exampleTables) (e.Data.length + 1)
        (TokenizeLegacy { runes := e.Data, err := none })
          = some (legacyTokens exampleTables e.Data, none, sfL)) ∧
    (∀ e ∈ boldElements, e.Typ ≠ TokenType.TextToken →
      elementTokens exampleTables e =
        [{ value := e.String, punct := true, space := false }])) ∧
    elementsTokens exampleTables boldElements =
      [⟨runes "<b>", true, false⟩, ⟨runes "Hi", false, false⟩, ⟨runes "</b>", true, false⟩] :=
  ⟨by decide, html_token_structure exampleTables boldElements (by decide), by decide⟩

/-- The values of the tokens of a sequence of elements make up the `Data` of the
text nodes and the `String()` of the other elements. -/
theorem elementsTokens_values (T : Tables) (hT : T.SingleRuneValues) (elems : List Element) :
    concatValues (elementsTokens T elems) = emittedMarkup elems := by
  induction elems with
  | nil => rfl
  | cons e rest ih =>
    simp only [elementsTokens, emittedMarkup, concatValues_append, ih]
    congr 1
    unfold elementTokens
    split
    · obtain ⟨sf, hem⟩ := legacy_emits_tokens T e.Data
      obtain ⟨toks, sf1, hem1, hcv, _⟩ :=
        legacy_emits T hT (TokenizeLegacy { runes := e.Data, err := none }) rfl
      obtain ⟨h1, _, _⟩ := hem1.deterministic hem
      rw [h1, hcv]
      simp [TokenizeLegacy, newTokenizerLegacy]
    · simp [concatValues]

/-- C3. The round trip of the HTML-aware tokenizer fails on the source
`<A>x &amp; y</A>`: the tokens emitted until the end have the values `<a>`, `x`,
a space, `&`, a space, `y`, `</a>`, which concatenate to `<a>x & y</a>` and not
to the source: a tag contributes the result of `String()`, not its raw source
text, and a text node contributes its unescaped `Data`. -/
theorem html_round_trip_fails :
    drain (htokenizer.next exampleTables) 8
        (TokenizeHTML { elems := exampleElements, err := none })
      = some (elementsTokens exampleTables exampleElements, none,
          ⟨⟨[], none⟩, some ⟨⟨[], none⟩, []⟩⟩) ∧
    (elementsTokens exampleTables exampleElements).map Token.value =
      [runes "<a>", runes "x", runes " ", runes "&", runes " ", runes "y", runes "</a>"] ∧
    concatValues (elementsTokens exampleTables exampleElements) = runes "<a>x & y</a>" ∧
    rawMarkup exampleElements = runes "<A>x &amp; y</A>" ∧
    concatValues (elementsTokens exampleTables exampleElements) ≠ rawMarkup exampleElements := by
  refine ⟨by decide, by decide, by decide, by decide, by decide⟩

/-! ## Terminal idempotence -/

theorem after_fixed {σ : Type} (next : σ → Result × σ) (s : σ) (r : Result)
    (h : next s = (r, s)) : ∀ k, after next k s = s := by
  intro k
  induction k with
  | zero => rfl
  | succ k ih => simp [after, h, ih]

/-- When `htokenizer` returns the end, the inner text stream is exhausted and no
element is left, given that no text node still to be delivered is empty. -/
theorem html_end_fixed (T : Tables) (t t1 : htokenizer)
    (htext : ∀ e ∈ t.html.elems, e.Typ = TokenType.TextToken → e.Data ≠ [])
    (h : t.next T = (.ok none, t1)) : t1.next T = (.ok none, t1) := by
  obtain ⟨⟨elems, err⟩, txt⟩ := t
  have hexh : (textNext T txt).1 = .ok none → textNext T txt = (.ok none, txt) := by
    intro h1
    cases txt with
    | none => rfl
    | some inner =>
      exact textNext_exhausted T inner (inner.next T).2 (Prod.ext h1 rfl)
  unfold htokenizer.next at h
  dsimp only at h
  split at h
  · simp at h
  · simp at h
  · rename_i hres
    have hx := hexh hres
    rw [hx] at h
    dsimp only at h
    cases elems with
    | nil =>
      cases err with
      | some e => simp at h
      | none =>
        simp only [Prod.mk.injEq, true_and] at h
        subst h
        exact htokenizer_next_eof T txt hx
    | cons e rest =>
      exfalso
      dsimp only at h
      split at h
      · rename_i he
        have hfst : (tokenizerLegacy.next T
            (TokenizeLegacy { runes := e.Data, err := none })).1 = .ok none :=
          congrArg Prod.fst h
        exact legacy_fresh_not_end T e.Data (htext e (by simp) he)
          (tokenizerLegacy.next T (TokenizeLegacy { runes := e.Data, err := none })).2
          (Prod.ext hfst rfl)
      · simp at h

/-- C4. Terminal idempotence: for the Legacy tokenizer, for the
segmentation-based tokenizer and for the HTML-aware tokenizer (the markup
tokenizer delivering no empty text node), once `next` has returned the end,
every later call of `next` returns the end again and leaves the state as it is. -/
theorem terminal_idempotence (T : Tables) :
    (∀ t t1, tokenizerLegacy.next T t = (.ok none, t1) →
      ∀ k, tokenizerLegacy.next T (after (tokenizerLegacy.next T) k t1) = (.ok none, t1)) ∧
    (∀ t t1, tokenizer2.next T t = (.ok none, t1) →
      ∀ k, tokenizer2.next T (after (tokenizer2.next T) k t1) = (.ok none, t1)) ∧
    (∀ t t1, (∀ e ∈ t.html.elems, e.Typ = TokenType.TextToken → e.Data ≠ []) →
      htokenizer.next T t = (.ok none, t1) →
      ∀ k, htokenizer.next T (after (htokenizer.next T) k t1) = (.ok none, t1)) := by
  refine ⟨?_, ?_, ?_⟩
  · intro t t1 h k
    have h1 : tokenizerLegacy.next T t1 = (.ok none, t1) := by
      have := (legacy_end_fixed T t t1 h).1
      subst this
      exact h
    rw [after_fixed _ t1 _ h1 k]
    exact h1
  · intro t t1 h k
    have h1 : tokenizer2.next T t1 = (.ok none, t1) := by
      rw [tokenizer2_end_final T t t1 h]
      exact tokenizer2_next_end T
    rw [after_fixed _ t1 _ h1 k]
    exact h1
  · intro t t1 htext h k
    have h1 := html_end_fixed T t t1 htext h
    rw [after_fixed _ t1 _ h1 k]
    exact h1

theorem terminal_idempotence_witness :
    (tokenizerLegacy.next exampleTables ⟨⟨[], none⟩, []⟩ = (.ok none, ⟨⟨[], none⟩, []⟩) ∧
      ∀ k, tokenizerLegacy.next exampleTables
        (after (tokenizerLegacy.next exampleTables) k ⟨⟨[], none⟩, []⟩)
          = (.ok none, ⟨⟨[], none⟩, []⟩)) ∧
    (tokenizer2.next exampleTables (Tokenize2 []) = (.ok none, ⟨[], [], ⟨[]⟩⟩) ∧
      ∀ k, tokenizer2.next exampleTables
        (after (tokenizer2.next exampleTables) k ⟨[], [], ⟨[]⟩⟩) = (.ok none, ⟨[], [], ⟨[]⟩⟩)) ∧
    ((∀ e ∈ (htokenizer.mk ⟨[], none⟩ (some ⟨⟨[], none⟩, []⟩)).html.elems,
        e.Typ = TokenType.TextToken → e.Data ≠ []) ∧
      htokenizer.next exampleTables ⟨⟨[], none⟩, some ⟨⟨[], none⟩, []⟩⟩
        = (.ok none, ⟨⟨[], none⟩, some ⟨⟨[], none⟩, []⟩⟩) ∧
      ∀ k, htokenizer.next exampleTables
        (after (htokenizer.next exampleTables) k ⟨⟨[], none⟩, some ⟨⟨[], none⟩, []⟩⟩)
          = (.ok none, ⟨⟨[], none⟩, some ⟨⟨[], none⟩, []⟩⟩)) :=
  ⟨⟨rfl, (terminal_idempotence exampleTables).1 ⟨⟨[], none⟩, []⟩ _ rfl⟩,
    ⟨rfl, (terminal_idempotence exampleTables).2.1 (Tokenize2 []) _ rfl⟩,
    ⟨by decide, rfl,
      (terminal_idempotence exampleTables).2.2 ⟨⟨[], none⟩, some ⟨⟨[], none⟩, []⟩⟩ _
        (by decide) rfl⟩⟩

/-! ## The package `is` -/

/-- C12. The code point set of `MidLetter`: `MidLetter r` is true exactly when
`r` is one of U+00B7, U+0387, U+055F, U+05F4, U+2027, U+FE13, U+FE55, U+FF1A;
the ASCII colon U+003A is not a `MidLetter`. -/
theorem midLetter_code_points :
    (∀ r : Rune, MidLetter r = true ↔
      (r = 0x00B7 ∨ r = 0x0387 ∨ r = 0x055F ∨ r = 0x05F4 ∨ r = 0x2027 ∨ r = 0xFE13 ∨
        r = 0xFE55 ∨ r = 0xFF1A)) ∧
    MidLetter 0x003A = false := by
  constructor
  · intro r
    simp [MidLetter, or_assoc]
  · decide

/-- C11. The carve-outs of `MidNum`: `MidNum r` is true if and only if `r` is
one of U+066C, U+FE50, U+FE54, U+FF0C, U+FF1B, or `InfixNumeric r` holds and `r`
is none of U+003A, U+002E, U+FE13.  The colon and the period satisfy
`InfixNumeric` but not `MidNum`; the comma and the semicolon satisfy both. -/
theorem midNum_carve_outs :
    (∀ r : Rune, MidNum r = true ↔
      ((r = 0x066C ∨ r = 0xFE50 ∨ r = 0xFE54 ∨ r = 0xFF0C ∨ r = 0xFF1B) ∨
        (InfixNumeric r = true ∧ r ≠ 0x003A ∧ r ≠ 0x002E ∧ r ≠ 0xFE13))) ∧
    (InfixNumeric 0x003A = true ∧ MidNum 0x003A = false) ∧
    (InfixNumeric 0x002E = true ∧ MidNum 0x002E = false) ∧
    (InfixNumeric 0x002C = true ∧ MidNum 0x002C = true) ∧
    (InfixNumeric 0x003B = true ∧ MidNum 0x003B = true) := by
  refine ⟨?_, by decide, by decide, by decide, by decide⟩
  intro r
  unfold MidNum
  split
  · rename_i h
    simp only [Bool.or_eq_true, beq_iff_eq] at h
    constructor
    · intro hf; cases hf
    · rintro (h1 | ⟨_, h1, h2, h3⟩)
      · delta Rune at *; omega
      · delta Rune at *; omega
  · rename_i h
    simp only [Bool.or_eq_true, beq_iff_eq, not_or] at h
    split
    · rename_i h2
      simp only [Bool.or_eq_true, beq_iff_eq] at h2
      simp only [true_iff]
      left
      delta Rune at *
      omega
    · rename_i h2
      simp only [Bool.or_eq_true, beq_iff_eq, not_or] at h2
      constructor
      · intro hi
        exact Or.inr ⟨hi, h.1.1, h.2, h.1.2⟩
      · rintro (h1 | ⟨hi, _⟩)
        · delta Rune at *; omega
        · exact hi

theorem aLetter_allow_list_iff (r : Rune) :
    ((0x02C2 ≤ r && r ≤ 0x02C5) ||
      (0x02D2 ≤ r && r ≤ 0x02D7) ||
      r == 0x02DE ||
      r == 0x02DF ||
      (0x02E5 ≤ r && r ≤ 0x02EB) ||
      r == 0x02ED ||
      (0x02EF ≤ r && r ≤ 0x02FF) ||
      r == 0x055A ||
      r == 0x055B ||
      r == 0x055C ||
      r == 0x055E ||
      r == 0x058A ||
      r == 0x05F3 ||
      (0xA708 ≤ r && r ≤ 0xA716) ||
      r == 0xA720 ||
      r == 0xA721 ||
      r == 0xA789 ||
      r == 0xA78A ||
      r == 0xAB5B) = true ↔ inALetterAllowList r := by
  simp only [inALetterAllowList, Bool.or_eq_true, Bool.and_eq_true, decide_eq_true_eq,
    beq_iff_eq, or_assoc]

/-- What `ALetter` computes: a code point that is a Hebrew letter, Hiragana,
Katakana or Ideographic is never an `ALetter`; any other code point is one when
it is allow-listed or `Alphabetic`. -/
theorem aLetter_eq (U : Unicode) (r : Rune) :
    ALetter U r = true ↔
      (notALetterScript U r = false ∧ (inALetterAllowList r ∨ Alphabetic U r = true)) := by
  unfold ALetter
  rw [show (HebrewLetter U r || U.Hiragana r || U.Katakana r || U.Ideographic r)
    = notALetterScript U r from rfl]
  cases hx : notALetterScript U r
  · simp only [Bool.false_eq_true, if_false, true_and]
    split
    · rename_i h
      simp only [true_iff]
      exact Or.inl ((aLetter_allow_list_iff r).mp h)
    · rename_i h
      constructor
      · intro ha; exact Or.inr ha
      · rintro (h1 | h1)
        · exact absurd ((aLetter_allow_list_iff r).mpr h1) h
        · exact h1
  · simp

/-- C18. The definition of `ALetter`: for a code point `r` whose membership of
the allow-list excludes its being a Hebrew letter, Hiragana, Katakana or
Ideographic (as is the case of every code point in the Unicode tables),
`ALetter r` holds if and only if `r` is in the explicit allow-list, or
`Alphabetic r` holds and `r` is not a Hebrew letter, Hiragana, Katakana or
Ideographic. -/
theorem aLetter_definition (U : Unicode) (r : Rune)
    (hdisj : inALetterAllowList r → notALetterScript U r = false) :
    ALetter U r = true ↔
      (inALetterAllowList r ∨ (Alphabetic U r = true ∧ notALetterScript U r = false)) := by
  rw [aLetter_eq]
  constructor
  · rintro ⟨hx, h | h⟩
    · exact Or.inl h
    · exact Or.inr ⟨h, hx⟩
  · rintro (h | ⟨h, hx⟩)
    · exact ⟨hdisj h, Or.inl h⟩
    · exact ⟨hx, Or.inr h⟩

theorem exampleUnicode_allow_list (r : Rune) (h : inALetterAllowList r) :
    notALetterScript exampleUnicode r = false := by
  simp only [inALetterAllowList] at h
  simp only [notALetterScript, HebrewLetter, exampleUnicode, Bool.or_eq_false_iff,
    Bool.and_eq_false_iff, Bool.or_eq_false_iff, decide_eq_false_iff_not, not_le]
  delta Rune at *
  omega

theorem aLetter_definition_witness :
    (inALetterAllowList 0x05F3 → notALetterScript exampleUnicode 0x05F3 = false) ∧
    (ALetter exampleUnicode 0x05F3 = true ↔
      (inALetterAllowList 0x05F3 ∨
        (Alphabetic exampleUnicode 0x05F3 = true ∧
          notALetterScript exampleUnicode 0x05F3 = false))) ∧
    ALetter exampleUnicode 0x05F3 = true ∧ ALetter exampleUnicode 0x61 = true ∧
    ALetter exampleUnicode 0x05D0 = false ∧ ALetter exampleUnicode 0x3042 = false :=
  ⟨exampleUnicode_allow_list 0x05F3,
    aLetter_definition exampleUnicode 0x05F3 (exampleUnicode_allow_list 0x05F3),
    by decide, by decide, by decide, by decide⟩

/-! ## The stashed code point and whitespace in the Legacy tokenizer -/

/-- When `readWord` returns a token, `outgoing` is empty or holds the one rune
that stopped the word, a mid-word punctuation mark, a punctuation mark or a
whitespace rune of the input, and the runes after it are still to be read. -/
theorem readWordLoop_stash (T : Tables) (err : Option Error) :
    ∀ (rs out : List Rune) (tok : Token) (t1 : tokenizerLegacy),
      readWordLoop T err rs out = (.ok (some tok), t1) →
      t1.outgoing = [] ∨
      ∃ c kept, t1.outgoing = [c] ∧ rs = kept ++ c :: t1.incoming.runes ∧
        (T.midPunct c = true ∨ T.isPunct c = true ∨ T.IsSpace c = true) := by
  intro rs
  induction rs with
  | nil =>
    intro out tok t1 h
    cases err with
    | none =>
      rw [readWordLoop] at h
      simp only [Prod.mk.injEq] at h
      left
      rw [← h.2, legacy_token_state]
    | some e =>
      rw [readWordLoop] at h
      simp at h
  | cons r rs ih =>
    intro out tok t1 h
    have hkeep : readWordLoop T err rs (out ++ [r]) = (.ok (some tok), t1) →
        t1.outgoing = [] ∨
        ∃ c kept, t1.outgoing = [c] ∧ r :: rs = kept ++ c :: t1.incoming.runes ∧
          (T.midPunct c = true ∨ T.isPunct c = true ∨ T.IsSpace c = true) := by
      intro h1
      rcases ih _ _ _ h1 with h2 | ⟨c, kept, h2, h3, h4⟩
      · exact Or.inl h2
      · exact Or.inr ⟨c, r :: kept, h2, by rw [h3]; simp, h4⟩
    have hstop : (T.midPunct r = true ∨ T.isPunct r = true ∨ T.IsSpace r = true) →
        (tokenizerLegacy.token T
          { incoming := { runes := rs, err := err }, outgoing := out }).2.accept r = t1 →
        t1.outgoing = [] ∨
        ∃ c kept, t1.outgoing = [c] ∧ r :: rs = kept ++ c :: t1.incoming.runes ∧
          (T.midPunct c = true ∨ T.isPunct c = true ∨ T.IsSpace c = true) := by
      intro hr h1
      right
      refine ⟨r, [], ?_, ?_, hr⟩
      · rw [← h1, legacy_token_state]; rfl
      · rw [← h1, legacy_token_state]; rfl
    rw [readWordLoop] at h
    split at h
    · rename_i hm
      split at h
      · simp at h
      · simp only [Prod.mk.injEq] at h
        exact hstop (Or.inl hm) h.2
      · exact hkeep h
    · split at h
      · rename_i hp
        simp only [Prod.mk.injEq] at h
        simp only [Bool.or_eq_true] at hp
        exact hstop (Or.inr hp) h.2
      · exact hkeep h

/-- With one rune buffered, `next` returns the token of that rune and reads
nothing. -/
theorem legacy_next_buffered (T : Tables) (t : tokenizerLegacy) (c : Rune)
    (h : t.outgoing = [c]) :
    t.next T = (.ok (some (tokenOf T [c])), { incoming := t.incoming, outgoing := [] }) := by
  obtain ⟨inc, out⟩ := t
  simp only at h
  subst h
  simp [tokenizerLegacy.next, legacy_token_state, legacy_token_eq]

/-- C17. The stashed code point of the Legacy tokenizer: whenever `next` returns
a token and leaves a code point stashed in `outgoing`, that is one code point
`c`, the punctuation or whitespace code point of the input at which the word
stopped, and the very next call of `next` returns a token whose value is exactly
`c` and reads nothing: what follows `c` is still to be read, also when `c` is
leading punctuation followed by a letter. -/
theorem legacy_stashed_code_point (T : Tables) (hT : T.SingleRuneValues)
    (t t1 : tokenizerLegacy) (tok : Token)
    (h : t.next T = (.ok (some tok), t1)) (hstash : t1.outgoing ≠ []) :
    ∃ c, t1.outgoing = [c] ∧
      (T.midPunct c = true ∨ T.isPunct c = true ∨ T.IsSpace c = true) ∧
      (∃ kept, t.incoming.runes = kept ++ c :: t1.incoming.runes) ∧
      ∃ tokc, t1.next T = (.ok (some tokc), { incoming := t1.incoming, outgoing := [] }) ∧
        tokc.value = [c] := by
  have hfin : ∀ c, t1.outgoing = [c] →
      ∃ tokc, t1.next T = (.ok (some tokc), { incoming := t1.incoming, outgoing := [] }) ∧
        tokc.value = [c] :=
    fun c hc => ⟨_, legacy_next_buffered T t1 c hc, tokenOf_value T hT [c]⟩
  have hword : ∀ (r : Rune) (rs out : List Rune) (err : Option Error),
      t.incoming.runes = r :: rs →
      readWordLoop T err rs out = (.ok (some tok), t1) →
      ∃ c, t1.outgoing = [c] ∧
        (T.midPunct c = true ∨ T.isPunct c = true ∨ T.IsSpace c = true) ∧
        (∃ kept, t.incoming.runes = kept ++ c :: t1.incoming.runes) ∧
        ∃ tokc, t1.next T = (.ok (some tokc), { incoming := t1.incoming, outgoing := [] }) ∧
          tokc.value = [c] := by
    intro r rs out err hrs hw
    rcases readWordLoop_stash T err rs out tok t1 hw with h0 | ⟨c, kept, h1, h2, h3⟩
    · exact absurd h0 hstash
    · exact ⟨c, h1, h3, ⟨r :: kept, by rw [hrs, h2]; simp⟩, hfin c h1⟩
  obtain ⟨⟨rs, err⟩, out⟩ := t
  unfold tokenizerLegacy.next at h
  split at h
  · simp only [Prod.mk.injEq] at h
    exfalso
    apply hstash
    rw [← h.2, legacy_token_state]
  · cases rs with
    | nil => cases err <;> simp at h
    | cons r rs =>
      dsimp only at h
      split at h
      · simp only [Prod.mk.injEq] at h
        exfalso
        apply hstash
        rw [← h.2, legacy_token_state]
      · split at h
        · split at h
          · simp at h
          · split at h
            · exact hword r rs _ _ rfl h
            · simp only [Prod.mk.injEq] at h
              exfalso
              apply hstash
              rw [← h.2, legacy_token_state]
        · exact hword r rs _ _ rfl h

theorem legacy_stashed_code_point_witness :
    exampleTables.SingleRuneValues ∧
    tokenizerLegacy.next exampleTables (TokenizeLegacy { runes := runes "a#b", err := none })
      = (.ok (some ⟨runes "a", false, false⟩),
          { incoming := { runes := runes "b", err := none }, outgoing := runes "#" }) ∧
    (∃ c, runes "#" = [c] ∧
      (exampleTables.midPunct c = true ∨ exampleTables.isPunct c = true ∨
        exampleTables.IsSpace c = true) ∧
      (∃ kept, runes "a#b" = kept ++ c :: runes "b") ∧
      ∃ tokc, tokenizerLegacy.next exampleTables
          { incoming := { runes := runes "b", err := none }, outgoing := runes "#" }
          = (.ok (some tokc),
              { incoming := { runes := runes "b", err := none }, outgoing := [] }) ∧
        tokc.value = [c]) ∧
    exampleTables.leadingPunct 0x23 = true ∧
    (legacyTokens exampleTables (runes "a#b")).map Token.value
      = [runes "a", runes "#", runes "b"] ∧
    (legacyTokens exampleTables (runes "#b")).map Token.value = [runes "#b"] :=
  ⟨exampleTables_singleRuneValues, rfl,
    legacy_stashed_code_point exampleTables exampleTables_singleRuneValues
      (TokenizeLegacy { runes := runes "a#b", err := none })
      { incoming := { runes := runes "b", err := none }, outgoing := runes "#" }
      ⟨runes "a", false, false⟩ rfl (by decide),
    by decide, by decide, by decide⟩

/-- A property of the token of every call of `next` that returns one, from a
state that satisfies an invariant kept by `next`, holds of all tokens emitted. -/
theorem emits_all {σ : Type} (next : σ → Result × σ) (Inv : σ → Prop) (P : Token → Prop)
    (hstep : ∀ s tok s1, Inv s → next s = (.ok (some tok), s1) → Inv s1 ∧ P tok)
    {s sf : σ} {toks : List Token} {e : Option Error} (h : Emits next s toks e sf) :
    Inv s → ∀ tok ∈ toks, P tok := by
  induction h with
  | done s s1 hn => intro _ tok htok; simp at htok
  | fail s s1 e hn => intro _ tok htok; simp at htok
  | step s s1 sf tok toks e hn _ ih =>
    intro hinv tok1 htok
    obtain ⟨hinv1, hp⟩ := hstep s tok s1 hinv hn
    rcases List.mem_cons.mp htok with h1 | h1
    · rw [h1]; exact hp
    · exact ih hinv1 tok1 h1

/-- With no whitespace in the mid-word punctuation table, the runes that
`readWord` adds to the buffer are not whitespace. -/
theorem readWordLoop_no_space (T : Tables)
    (hmid : ∀ r, T.IsSpace r = true → T.midPunct r = false) :
    ∀ (rs out : List Rune), ∃ t1 kept,
      readWordLoop T none rs out = (.ok (some (tokenOf T (out ++ kept))), t1) ∧
      t1.incoming.err = none ∧ t1.outgoing.length ≤ 1 ∧
      ∀ x ∈ kept, T.IsSpace x = false := by
  intro rs
  induction rs with
  | nil =>
    intro out
    refine ⟨{ incoming := { runes := [], err := none }, outgoing := [] }, [], ?_, rfl,
      by simp, by simp⟩
    rw [readWordLoop]
    simp only [legacy_token_eq, legacy_token_state, List.append_nil]
  | cons r rs ih =>
    intro out
    have hflush : ∃ t1 kept,
        ((Except.ok (some ((tokenizerLegacy.token T
            { incoming := { runes := rs, err := none }, outgoing := out }).1)) : Result),
          (tokenizerLegacy.token T
            { incoming := { runes := rs, err := none }, outgoing := out }).2.accept r)
          = (.ok (some (tokenOf T (out ++ kept))), t1) ∧ t1.incoming.err = none ∧
        t1.outgoing.length ≤ 1 ∧ ∀ x ∈ kept, T.IsSpace x = false := by
      refine ⟨{ incoming := { runes := rs, err := none }, outgoing := [r] }, [], ?_, rfl,
        by simp, by simp⟩
      simp only [legacy_token_eq, legacy_token_state, tokenizerLegacy.accept, List.append_nil,
        List.nil_append]
    have hkeep : T.IsSpace r = false → ∃ t1 kept,
        readWordLoop T none rs (out ++ [r]) = (.ok (some (tokenOf T (out ++ kept))), t1) ∧
        t1.incoming.err = none ∧ t1.outgoing.length ≤ 1 ∧
        ∀ x ∈ kept, T.IsSpace x = false := by
      intro hr
      obtain ⟨t1, kept, h1, h2, h3, h4⟩ := ih (out ++ [r])
      refine ⟨t1, r :: kept, by simpa using h1, h2, h3, ?_⟩
      intro x hx
      rcases List.mem_cons.mp hx with hx | hx
      · rw [hx]; exact hr
      · exact h4 x hx
    rw [readWordLoop]
    split
    · rename_i hm
      have hr : T.IsSpace r = false := by
        cases hs : T.IsSpace r with
        | false => rfl
        | true => rw [hmid r hs] at hm; cases hm
      cases hp : tokenizerLegacy.peekTerminator T
          { incoming := { runes := rs, err := none }, outgoing := out } with
      | error e =>
        exfalso
        unfold tokenizerLegacy.peekTerminator at hp
        cases rs <;> simp at hp
      | ok b =>
        cases b
        · simpa using hkeep hr
        · simpa using hflush
    · split
      · exact hflush
      · rename_i hp
        simp only [Bool.or_eq_true, not_or, Bool.not_eq_true] at hp
        exact hkeep hp.2

/-- One call of `next` from a state with at most one rune buffered, with no
whitespace in the mid-word punctuation table: the token returned is that of one
rune, or of runes none of which is whitespace. -/
theorem legacy_next_no_space (T : Tables)
    (hmid : ∀ r, T.IsSpace r = true → T.midPunct r = false)
    (t t1 : tokenizerLegacy) (tok : Token)
    (hinv : t.incoming.err = none ∧ t.outgoing.length ≤ 1)
    (h : t.next T = (.ok (some tok), t1)) :
    (t1.incoming.err = none ∧ t1.outgoing.length ≤ 1) ∧
    ∃ b, tok = tokenOf T b ∧ ((∃ r, b = [r]) ∨ ∀ x ∈ b, T.IsSpace x = false) := by
  obtain ⟨⟨rs, err⟩, out⟩ := t
  obtain ⟨herr, hlen⟩ := hinv
  simp only at herr hlen
  subst herr
  have hword : ∀ (r : Rune) (rs1 : List Rune), T.IsSpace r = false →
      readWordLoop T none rs1 [r] = (.ok (some tok), t1) →
      (t1.incoming.err = none ∧ t1.outgoing.length ≤ 1) ∧
      ∃ b, tok = tokenOf T b ∧ ((∃ r, b = [r]) ∨ ∀ x ∈ b, T.IsSpace x = false) := by
    intro r rs1 hr hw
    obtain ⟨t2, kept, h1, h2, h3, h4⟩ := readWordLoop_no_space T hmid rs1 [r]
    rw [h1] at hw
    simp only [Prod.mk.injEq, Except.ok.injEq, Option.some.injEq] at hw
    obtain ⟨hw1, hw2⟩ := hw
    subst hw2
    refine ⟨⟨h2, h3⟩, [r] ++ kept, hw1.symm, Or.inr ?_⟩
    intro x hx
    rcases List.mem_append.mp hx with hx | hx
    · simp only [List.mem_singleton] at hx
      rw [hx]; exact hr
    · exact h4 x hx
  unfold tokenizerLegacy.next at h
  split at h
  · rename_i hout
    simp only [Prod.mk.injEq, Except.ok.injEq, Option.some.injEq] at h
    obtain ⟨h1, h2⟩ := h
    refine ⟨by rw [← h2, legacy_token_state]; simp, out, by rw [← h1, legacy_token_eq], ?_⟩
    left
    match out, hout, hlen with
    | [c], _, _ => exact ⟨c, rfl⟩
  · cases rs with
    | nil => simp at h
    | cons r rs =>
      dsimp only at h
      have hsingle : ∀ (rs1 : List Rune) (out1 : List Rune),
          ((Except.ok (some ((tokenizerLegacy.token T
              { incoming := { runes := rs1, err := none }, outgoing := out1 ++ [r] }).1))
                : Result),
            (tokenizerLegacy.token T
              { incoming := { runes := rs1, err := none }, outgoing := out1 ++ [r] }).2)
            = (.ok (some tok), t1) → out1 = [] →
          (t1.incoming.err = none ∧ t1.outgoing.length ≤ 1) ∧
          ∃ b, tok = tokenOf T b ∧ ((∃ r, b = [r]) ∨ ∀ x ∈ b, T.IsSpace x = false) := by
        intro rs1 out1 h1 ho
        subst ho
        simp only [Prod.mk.injEq, Except.ok.injEq, Option.some.injEq] at h1
        refine ⟨by rw [← h1.2, legacy_token_state]; simp, [r],
          by rw [← h1.1, legacy_token_eq]; rfl, Or.inl ⟨r, rfl⟩⟩
      have hempty : out = [] := by
        rename_i hout
        cases out with
        | nil => rfl
        | cons a l => simp at hout
      subst hempty
      split at h
      · exact hsingle rs [] h rfl
      · rename_i hsp
        simp only [Bool.not_eq_true] at hsp
        split at h
        · split at h
          · simp at h
          · split at h
            · exact hword r rs hsp h
            · exact hsingle rs [] h rfl
        · exact hword r rs hsp h

/-- C20. Whitespace isolation in the Legacy tokenizer: with no whitespace code
point in the mid-word punctuation table, for every input text read to its end
without error the calls of `next` end, and every emitted token that contains a
whitespace code point consists of that code point alone; so no token made of
more than one code point contains whitespace. -/
theorem legacy_whitespace_isolation (T : Tables) (hT : T.SingleRuneValues)
    (hmid : ∀ r, T.IsSpace r = true → T.midPunct r = false) (input : List Rune) :
    ∃ toks sf, (∀ fuel, input.length < fuel →
        drain (tokenizerLegacy.next T) fuel (TokenizeLegacy { runes := input, err := none })
          = some (toks, none, sf)) ∧
      (∀ tok ∈ toks, ∀ r ∈ tok.value, T.IsSpace r = true → tok.value = [r]) ∧
      (∀ tok ∈ toks, 1 < tok.value.length → ∀ r ∈ tok.value, T.IsSpace r = false) := by
  obtain ⟨toks, sf, hem, hlen⟩ :=
    legacy_terminates T (TokenizeLegacy { runes := input, err := none }) rfl
  have hall := emits_all (tokenizerLegacy.next T)
    (fun s => s.incoming.err = none ∧ s.outgoing.length ≤ 1)
    (fun tok => ∀ r ∈ tok.value, T.IsSpace r = true → tok.value = [r])
    (fun s tok s1 hinv hn => by
      obtain ⟨h1, b, hb, hcase⟩ := legacy_next_no_space T hmid s s1 tok hinv hn
      refine ⟨h1, ?_⟩
      intro r hr hsp
      rw [hb, tokenOf_value T hT] at hr ⊢
      rcases hcase with ⟨c, hc⟩ | hns
      · rw [hc] at hr ⊢
        simp only [List.mem_singleton] at hr
        rw [hr]
      · rw [hns r hr] at hsp; cases hsp)
    hem ⟨rfl, by simp [TokenizeLegacy, newTokenizerLegacy]⟩
  refine ⟨toks, sf, ?_, hall, ?_⟩
  · intro fuel hf
    apply hem.drain_eq
    simp [TokenizeLegacy, newTokenizerLegacy] at hlen
    omega
  · intro tok htok hlong r hr
    cases hs : T.IsSpace r with
    | false => rfl
    | true =>
      have := hall tok htok r hr hs
      rw [this] at hlong
      simp at hlong

theorem exampleTables_mid_no_space (r : Rune) (h : exampleTables.IsSpace r = true) :
    exampleTables.midPunct r = false := by
  simp only [exampleTables, unicodeIsSpace, Bool.or_eq_true, Bool.and_eq_true,
    decide_eq_true_eq, beq_iff_eq] at h
  have h1 : r ≠ 0x2E ∧ r ≠ 0x27 ∧ r ≠ 0x2019 := by
    delta Rune at *
    omega
  simp [exampleTables, runes, h1.1, h1.2.1, h1.2.2]

theorem legacy_whitespace_isolation_witness :
    exampleTables.SingleRuneValues ∧
    (∀ r, exampleTables.IsSpace r = true → exampleTables.midPunct r = false) ∧
    (∃ toks sf, (∀ fuel, (runes "a b\t.Net\n").length < fuel →
        drain (tokenizerLegacy.next exampleTables) fuel
            (TokenizeLegacy { runes := runes "a b\t.Net\n", err := none })
          = some (toks, none, sf)) ∧
      (∀ tok ∈ toks, ∀ r ∈ tok.value, exampleTables.IsSpace r = true → tok.value = [r]) ∧
      (∀ tok ∈ toks, 1 < tok.value.length →
        ∀ r ∈ tok.value, exampleTables.IsSpace r = false)) ∧
    (legacyTokens exampleTables (runes "a b\t.Net\n")).map Token.value
      = [runes "a", runes " ", runes "b", runes "\t", runes ".Net", runes "\n"] :=
  ⟨exampleTables_singleRuneValues, exampleTables_mid_no_space,
    legacy_whitespace_isolation exampleTables exampleTables_singleRuneValues
      exampleTables_mid_no_space (runes "a b\t.Net\n"),
    by decide⟩

/-! ## Leading punctuation in the segmentation-based tokenizer -/

/-- The token that `token` builds depends on the buffer only. -/
theorem tokenizer2_token_fst (T : Tables) (segs buffer : List seg) (q : queue) :
    (tokenizer2.token T ⟨segs, buffer, q⟩).1 = (tokenizer2.token T ⟨[], buffer, ⟨[]⟩⟩).1 := by
  unfold tokenizer2.token
  dsimp only
  split <;> rfl

/-- A leading punctuation mark followed by a segment that is neither of letters
nor of digits: the buffer is queued, the mark and the segment are queued as
tokens of their own, and the loop goes on with an empty buffer. -/
theorem segmentLoop_leading_split (T : Tables) (r : Rune) (s : seg) (rest buffer : List seg)
    (q : queue) (hlead : T.leadingPunct r = true) (hsp : T.IsSpace r = false)
    (hl : s.Typ ≠ SegmentType.Letter) (hn : s.Typ ≠ SegmentType.Number) :
    segmentLoop T (noneSeg r :: s :: rest) buffer q =
      segmentLoop T rest []
        ⟨(tokenizer2.queueBuffer T ⟨rest, buffer, q⟩).outgoing.tokens ++
          [(tokenizer2.token T ⟨[], [noneSeg r], ⟨[]⟩⟩).1,
            (tokenizer2.token T ⟨[], [s], ⟨[]⟩⟩).1]⟩ := by
  have hbuf := tokenizer2_queueBuffer_buffer T ⟨rest, buffer, q⟩
  have hseg := tokenizer2_queueBuffer_segmenter T ⟨rest, buffer, q⟩
  have e1 : (s.Typ == SegmentType.Letter) = false := by simp [hl]
  have e2 : (s.Typ == SegmentType.Number) = false := by simp [hn]
  rw [segmentLoop]
  simp only [noneSeg, tryRune, hsp, hlead, seg.Is, e1, e2, tokenizer2.accept,
    tokenizer2_pushToken_eq, hbuf, hseg, bne_self_eq_false, Bool.false_eq_true, if_false,
    Bool.not_true, if_true, Bool.or_self, List.nil_append, List.append_assoc,
    List.singleton_append]
  rw [tokenizer2_token_fst T rest [_] _, tokenizer2_token_fst T rest [s] _]

/-- C15 (as the code has it). Leading-punctuation lookahead in the
segmentation-based tokenizer: a leading-punctuation code point `r` (not
whitespace) followed by a further segment `s` of type `Letter` or `Number` is
appended to the buffer together with `s`, so that `r` and `s` are emitted inside
the same token (at the end of the input, the token of the buffer, `r` and `s`);
a following segment of any other type, word-like or not, is not merged: the
buffer, `r` and `s` are queued as separate tokens. -/
theorem tokenize2_leading_lookahead (T : Tables) (hT : T.SingleRuneValues) (r : Rune)
    (s : seg) (hlead : T.leadingPunct r = true) (hsp : T.IsSpace r = false) :
    ((s.Typ = SegmentType.Letter ∨ s.Typ = SegmentType.Number) →
      (∀ (rest buffer : List seg) (q : queue),
        segmentLoop T (noneSeg r :: s :: rest) buffer q =
          segmentLoop T rest (buffer ++ [noneSeg r] ++ [s]) q) ∧
      (∀ buffer : List seg, ∃ tok,
        tokenizer2.next T ⟨[noneSeg r, s], buffer, ⟨[]⟩⟩ = (.ok (some tok), ⟨[], [], ⟨[]⟩⟩) ∧
        tok.value = bufferBytes buffer ++ r :: s.Bytes)) ∧
    ((s.Typ ≠ SegmentType.Letter ∧ s.Typ ≠ SegmentType.Number) →
      ∀ fuel, 2 < fuel → ∃ tokr toks sf,
        drain (tokenizer2.next T) fuel (Tokenize2 [noneSeg r, s])
          = some ([tokr, toks], none, sf) ∧ tokr.value = [r] ∧ toks.value = s.Bytes) := by
  constructor
  · intro hs
    refine ⟨fun rest buffer q => segmentLoop_leading T r s rest buffer q hlead hsp hs, ?_⟩
    intro buffer
    refine ⟨(tokenizer2.token T ⟨[], buffer ++ [noneSeg r] ++ [s], ⟨[]⟩⟩).1, ?_, ?_⟩
    · simp only [tokenizer2.next, queue.len, List.length_nil, gt_iff_lt, Nat.lt_irrefl,
        if_false]
      rw [segmentLoop_leading T r s [] buffer _ hlead hsp hs, segmentLoop_flush T _ (by simp)]
    · rw [tokenizer2_token_value T hT]
      simp [bufferBytes_append, bufferBytes, noneSeg]
  · rintro ⟨hl, hn⟩ fuel hf
    have h1 : tokenizer2.next T (Tokenize2 [noneSeg r, s]) =
        (.ok (some (tokenizer2.token T ⟨[], [noneSeg r], ⟨[]⟩⟩).1),
          ⟨[], [], ⟨[(tokenizer2.token T ⟨[], [s], ⟨[]⟩⟩).1]⟩⟩) := by
      simp only [tokenizer2.next, Tokenize2, newTokenizer2, queue.len, List.length_nil,
        gt_iff_lt, Nat.lt_irrefl, if_false]
      rw [segmentLoop_leading_split T r s [] [] _ hlead hsp hl hn, segmentLoop]
      simp [tokenizer2.queueBuffer, queue.len, tokenizer2.returnPop, queue.pop]
    have h2 : tokenizer2.next T ⟨[], [], ⟨[(tokenizer2.token T ⟨[], [s], ⟨[]⟩⟩).1]⟩⟩ =
        (.ok (some (tokenizer2.token T ⟨[], [s], ⟨[]⟩⟩).1), ⟨[], [], ⟨[]⟩⟩) := by
      simp [tokenizer2.next, queue.len, tokenizer2.returnPop, queue.pop]
    refine ⟨_, _, _, Emits.drain_eq (Emits.step _ _ _ _ _ _ h1 (Emits.step _ _ _ _ _ _ h2
      (Emits.done _ _ (tokenizer2_next_end T)))) fuel (by simpa using hf), ?_, ?_⟩
    · rw [tokenizer2_token_value T hT]; simp [bufferBytes, noneSeg]
    · rw [tokenizer2_token_value T hT]; simp [bufferBytes]

theorem tokenize2_leading_lookahead_witness :
    exampleTables.SingleRuneValues ∧ exampleTables.leadingPunct 0x2E = true ∧
    exampleTables.IsSpace 0x2E = false ∧
    (((seg.mk (runes "Net") SegmentType.Letter none).Typ = SegmentType.Letter ∨
        (seg.mk (runes "Net") SegmentType.Letter none).Typ = SegmentType.Number) ∧
      (∀ (rest buffer : List seg) (q : queue),
        segmentLoop exampleTables
            (noneSeg 0x2E :: seg.mk (runes "Net") SegmentType.Letter none :: rest) buffer q =
          segmentLoop exampleTables rest
            (buffer ++ [noneSeg 0x2E] ++ [seg.mk (runes "Net") SegmentType.Letter none]) q) ∧
      (∀ buffer : List seg, ∃ tok,
        tokenizer2.next exampleTables
            ⟨[noneSeg 0x2E, seg.mk (runes "Net") SegmentType.Letter none], buffer, ⟨[]⟩⟩
          = (.ok (some tok), ⟨[], [], ⟨[]⟩⟩) ∧
        tok.value = bufferBytes buffer ++
          0x2E :: (seg.mk (runes "Net") SegmentType.Letter none).Bytes)) ∧
    (((seg.mk [0x65E5, 0x672C] SegmentType.Ideo none).Typ ≠ SegmentType.Letter ∧
        (seg.mk [0x65E5, 0x672C] SegmentType.Ideo none).Typ ≠ SegmentType.Number) ∧
      ∃ tokr toks sf,
        drain (tokenizer2.next exampleTables) 3
            (Tokenize2 [noneSeg 0x2E, seg.mk [0x65E5, 0x672C] SegmentType.Ideo none])
          = some ([tokr, toks], none, sf) ∧ tokr.value = [0x2E] ∧
        toks.value = (seg.mk [0x65E5, 0x672C] SegmentType.Ideo none).Bytes) :=
  ⟨exampleTables_singleRuneValues, by decide, by decide,
    ⟨by decide,
      (tokenize2_leading_lookahead exampleTables exampleTables_singleRuneValues 0x2E
        (seg.mk (runes "Net") SegmentType.Letter none) (by decide) (by decide)).1
        (by decide)⟩,
    ⟨by decide,
      (tokenize2_leading_lookahead exampleTables exampleTables_singleRuneValues 0x2E
        (seg.mk [0x65E5, 0x672C] SegmentType.Ideo none) (by decide) (by decide)).2
        (by decide) 3 (by decide)⟩⟩

/-- C15, as stated, fails: the leading punctuation mark `.` followed by a
word-like segment of type `Kana` (the two Katakana letters U+30AB U+30CA) is not
appended to the buffer with it; the mark and the segment are emitted as two
tokens. -/
theorem tokenize2_leading_lookahead_kana :
    exampleTables.leadingPunct 0x2E = true ∧
    (seg.mk [0x30AB, 0x30CA] SegmentType.Kana none).Typ ≠ SegmentType.None ∧
    drain (tokenizer2.next exampleTables) 3
        (Tokenize2 [noneSeg 0x2E, seg.mk [0x30AB, 0x30CA] SegmentType.Kana none])
      = some ([⟨[0x2E], true, false⟩, ⟨[0x30AB, 0x30CA], false, false⟩], none,
          ⟨[], [], ⟨[]⟩⟩) ∧
    ¬ ∃ tok sf, drain (tokenizer2.next exampleTables) 3
        (Tokenize2 [noneSeg 0x2E, seg.mk [0x30AB, 0x30CA] SegmentType.Kana none])
      = some ([tok], none, sf) := by
  refine ⟨by decide, by decide, by decide, ?_⟩
  rintro ⟨tok, sf, h⟩
  have h2 : drain (tokenizer2.next exampleTables) 3
        (Tokenize2 [noneSeg 0x2E, seg.mk [0x30AB, 0x30CA] SegmentType.Kana none])
      = some ([⟨[0x2E], true, false⟩, ⟨[0x30AB, 0x30CA], false, false⟩], none,
          ⟨[], [], ⟨[]⟩⟩) := by decide
  rw [h2] at h
  simp at h

/-- A last segment that is whitespace or is not a trailing symbol gets the
handling of terminating punctuation. -/
theorem segmentLoop_last_terminating (T : Tables) (r : Rune) (buffer : List seg) (q : queue)
    (h : T.IsSpace r = true ∨ T.punctAsSymbol r = false) :
    segmentLoop T [noneSeg r] buffer q =
      (((tokenizer2.queueBuffer T ⟨[], buffer, q⟩).accept (noneSeg r)).pushToken T).returnPop := by
  conv_lhs => rw [segmentLoop]
  rcases h with h | h
  · simp [noneSeg, tryRune, h]
  · cases hs : T.IsSpace r <;>
      simp [noneSeg, tryRune, hs, trailingOrTerminating, h]

/-- C16 (as the code has it). Leading punctuation at the end of the input in the
segmentation-based tokenizer: when a leading-punctuation code point `r` is the
last segment and is whitespace or not in the trailing-symbol set, it gets the
handling of terminating punctuation: the buffer accumulated before `r` is
flushed as one token and `r` is emitted after it as a token of its own.  When
`r` is in the trailing-symbol set and not whitespace it is appended to the
buffer instead, and is emitted inside the token of the buffer. -/
theorem tokenize2_leading_at_end (T : Tables) (hT : T.SingleRuneValues) (r : Rune)
    (buffer : List seg) (hlead : T.leadingPunct r = true) :
    ((T.IsSpace r = true ∨ T.punctAsSymbol r = false) →
      (∀ q, segmentLoop T [noneSeg r] buffer q =
        (((tokenizer2.queueBuffer T ⟨[], buffer, q⟩).accept (noneSeg r)).pushToken
          T).returnPop) ∧
      ∀ fuel, 2 < fuel → ∃ toks sf,
        drain (tokenizer2.next T) fuel ⟨[noneSeg r], buffer, ⟨[]⟩⟩ = some (toks, none, sf) ∧
        toks.map Token.value =
          (if buffer.length > 0 then [bufferBytes buffer] else []) ++ [[r]]) ∧
    ((T.IsSpace r = false ∧ T.punctAsSymbol r = true) →
      (∀ q, segmentLoop T [noneSeg r] buffer q =
        segmentLoop T [] (buffer ++ [noneSeg r]) q) ∧
      ∀ fuel, 1 < fuel → ∃ tok sf,
        drain (tokenizer2.next T) fuel ⟨[noneSeg r], buffer, ⟨[]⟩⟩
          = some ([tok], none, sf) ∧ tok.value = bufferBytes buffer ++ [r]) := by
  have _ := hlead
  constructor
  · intro h
    refine ⟨fun q => segmentLoop_last_terminating T r buffer q h, ?_⟩
    intro fuel hf
    have hloop := segmentLoop_last_terminating T r buffer ⟨[]⟩ h
    cases buffer with
    | nil =>
      have h1 : tokenizer2.next T ⟨[noneSeg r], [], ⟨[]⟩⟩ =
          (.ok (some (tokenizer2.token T ⟨[], [noneSeg r], ⟨[]⟩⟩).1), ⟨[], [], ⟨[]⟩⟩) := by
        simp only [tokenizer2.next, queue.len, List.length_nil, gt_iff_lt, Nat.lt_irrefl,
          if_false]
        rw [hloop]
        simp [tokenizer2.queueBuffer, tokenizer2.accept, tokenizer2_pushToken_eq,
          tokenizer2.returnPop, queue.pop]
      refine ⟨_, _, Emits.drain_eq (Emits.step _ _ _ _ _ _ h1
        (Emits.done _ _ (tokenizer2_next_end T))) fuel (by simp; omega), ?_⟩
      simp [tokenizer2_token_value T hT, bufferBytes, noneSeg]
    | cons b bs =>
      have h1 : tokenizer2.next T ⟨[noneSeg r], b :: bs, ⟨[]⟩⟩ =
          (.ok (some (tokenizer2.token T ⟨[], b :: bs, ⟨[]⟩⟩).1),
            ⟨[], [], ⟨[(tokenizer2.token T ⟨[], [noneSeg r], ⟨[]⟩⟩).1]⟩⟩) := by
        simp only [tokenizer2.next, queue.len, List.length_nil, gt_iff_lt, Nat.lt_irrefl,
          if_false]
        rw [hloop]
        simp [tokenizer2.queueBuffer, tokenizer2.accept, tokenizer2_pushToken_eq,
          tokenizer2.returnPop, queue.pop]
        rfl
      have h2 : tokenizer2.next T
            ⟨[], [], ⟨[(tokenizer2.token T ⟨[], [noneSeg r], ⟨[]⟩⟩).1]⟩⟩ =
          (.ok (some (tokenizer2.token T ⟨[], [noneSeg r], ⟨[]⟩⟩).1), ⟨[], [], ⟨[]⟩⟩) := by
        simp [tokenizer2.next, queue.len, tokenizer2.returnPop, queue.pop]
      refine ⟨_, _, Emits.drain_eq (Emits.step _ _ _ _ _ _ h1 (Emits.step _ _ _ _ _ _ h2
        (Emits.done _ _ (tokenizer2_next_end T)))) fuel (by simpa using hf), ?_⟩
      simp [tokenizer2_token_value T hT, bufferBytes, noneSeg]
  · rintro ⟨hsp, hsym⟩
    have hloop : ∀ q, segmentLoop T [noneSeg r] buffer q =
        segmentLoop T [] (buffer ++ [noneSeg r]) q := by
      intro q
      conv_lhs => rw [segmentLoop]
      simp [noneSeg, tryRune, hsp, trailingOrTerminating, hsym, tokenizer2.accept]
    refine ⟨hloop, ?_⟩
    intro fuel hf
    have h1 : tokenizer2.next T ⟨[noneSeg r], buffer, ⟨[]⟩⟩ =
        (.ok (some (tokenizer2.token T ⟨[], buffer ++ [noneSeg r], ⟨[]⟩⟩).1),
          ⟨[], [], ⟨[]⟩⟩) := by
      simp only [tokenizer2.next, queue.len, List.length_nil, gt_iff_lt, Nat.lt_irrefl,
        if_false]
      rw [hloop, segmentLoop_flush T _ (by simp)]
    refine ⟨_, _, Emits.drain_eq (Emits.step _ _ _ _ _ _ h1
      (Emits.done _ _ (tokenizer2_next_end T))) fuel (by simpa using hf), ?_⟩
    rw [tokenizer2_token_value T hT]
    simp [bufferBytes_append, bufferBytes, noneSeg]

theorem tokenize2_leading_at_end_witness :
    exampleTables.SingleRuneValues ∧ exampleTables.leadingPunct 0x40 = true ∧
    ((exampleTables.IsSpace 0x40 = true ∨ exampleTables.punctAsSymbol 0x40 = false) ∧
      ∃ toks sf,
        drain (tokenizer2.next exampleTables) 3
            ⟨[noneSeg 0x40], [seg.mk (runes "C") SegmentType.Letter none], ⟨[]⟩⟩
          = some (toks, none, sf) ∧
        toks.map Token.value =
          (if [seg.mk (runes "C") SegmentType.Letter none].length > 0 then
            [bufferBytes [seg.mk (runes "C") SegmentType.Letter none]] else []) ++ [[0x40]]) ∧
    exampleTables.leadingPunct 0x23 = true ∧
    ((exampleTables.IsSpace 0x23 = false ∧ exampleTables.punctAsSymbol 0x23 = true) ∧
      ∃ tok sf,
        drain (tokenizer2.next exampleTables) 2
            ⟨[noneSeg 0x23], [seg.mk (runes "C") SegmentType.Letter none], ⟨[]⟩⟩
          = some ([tok], none, sf) ∧
        tok.value = bufferBytes [seg.mk (runes "C") SegmentType.Letter none] ++ [0x23]) :=
  ⟨exampleTables_singleRuneValues, by decide,
    ⟨by decide,
      ((tokenize2_leading_at_end exampleTables exampleTables_singleRuneValues 0x40
        [seg.mk (runes "C") SegmentType.Letter none] (by decide)).1 (by decide)).2
        3 (by decide)⟩,
    by decide,
    ⟨by decide,
      ((tokenize2_leading_at_end exampleTables exampleTables_singleRuneValues 0x23
        [seg.mk (runes "C") SegmentType.Letter none] (by decide)).2 (by decide)).2
        2 (by decide)⟩⟩

/-- C16, as stated, fails: `#` is a leading punctuation mark and a trailing
symbol; as the last segment after the word `C` it is not given the handling of
terminating punctuation but is appended to the buffer, and the one token `C#` is
emitted. -/
theorem tokenize2_leading_at_end_symbol :
    exampleTables.leadingPunct 0x23 = true ∧ exampleTables.punctAsSymbol 0x23 = true ∧
    drain (tokenizer2.next exampleTables) 3
        (Tokenize2 [seg.mk (runes "C") SegmentType.Letter none, noneSeg 0x23])
      = some ([⟨runes "C#", false, false⟩], none, ⟨[], [], ⟨[]⟩⟩) ∧
    ¬ ∃ tokb tokr sf, drain (tokenizer2.next exampleTables) 3
        (Tokenize2 [seg.mk (runes "C") SegmentType.Letter none, noneSeg 0x23])
      = some ([tokb, tokr], none, sf) := by
  refine ⟨by decide, by decide, by decide, ?_⟩
  rintro ⟨tokb, tokr, sf, h⟩
  have h2 : drain (tokenizer2.next exampleTables) 3
        (Tokenize2 [seg.mk (runes "C") SegmentType.Letter none, noneSeg 0x23])
      = some ([⟨runes "C#", false, false⟩], none, ⟨[], [], ⟨[]⟩⟩) := by decide
  rw [h2] at h
  simp at h

/-! ## The Legacy tokenizer on bytes -/

theorem encodeRune_length_pos (r : Rune) : 0 < (EncodeRune r).length := by
  unfold EncodeRune
  split_ifs <;> simp

/-- Decoding undoes encoding: the bytes written for a scalar value are read back
as that value, whatever follows them. -/
theorem decodeRune_encodeRune (r : Rune) (h : validRune r = true) (rest : List Nat) :
    DecodeRune (EncodeRune r ++ rest) = (r, (EncodeRune r).length) := by
  simp only [validRune, Bool.or_eq_true, Bool.and_eq_true, decide_eq_true_eq] at h
  unfold EncodeRune
  delta Rune at *
  by_cases h1 : r < 0x80
  · simp only [h1, if_true, List.singleton_append, List.length_singleton]
    match rest with
    | [] => simp [DecodeRune, h1]
    | [_] => simp [DecodeRune, h1]
    | [_, _] => simp [DecodeRune, h1]
    | _ :: _ :: _ :: _ => simp [DecodeRune, h1]
  · by_cases h2 : r < 0x800
    · simp only [h1, h2, if_true, if_false, List.cons_append, List.nil_append,
        List.length_cons, List.length_nil]
      have e1 : ¬ (0xC0 + r / 0x40 < 0x80) := by omega
      have e2 : 0xC2 ≤ 0xC0 + r / 0x40 ∧ 0xC0 + r / 0x40 < 0xE0 ∧ 0x80 ≤ 0x80 + r % 0x40 ∧
          0x80 + r % 0x40 ≤ 0xBF := by omega
      have e3 : (0xC0 + r / 0x40) % 0x20 * 0x40 + (0x80 + r % 0x40) % 0x40 = r := by omega
      match rest with
      | [] => simp only [DecodeRune, e1, e2, e3, if_false, and_self, if_true]
      | [_] => simp only [DecodeRune, e1, e2, e3, if_false, and_self, if_true]
      | _ :: _ :: _ => simp only [DecodeRune, e1, e2, e3, if_false, and_self, if_true]
    · have h3 : ¬ ((0xD800 ≤ r ∧ r ≤ 0xDFFF) ∨ 0x10FFFF < r) := by omega
      by_cases h4 : r < 0x10000
      · simp only [h1, h2, h3, h4, if_true, if_false, List.cons_append, List.nil_append,
          List.length_cons, List.length_nil]
        have e1 : ¬ (0xE0 + r / 0x1000 < 0x80) := by omega
        have e2 : ¬ (0xC2 ≤ 0xE0 + r / 0x1000 ∧ 0xE0 + r / 0x1000 < 0xE0 ∧
            0x80 ≤ 0x80 + r / 0x40 % 0x40 ∧ 0x80 + r / 0x40 % 0x40 ≤ 0xBF) := by omega
        have e3 : 0xE0 ≤ 0xE0 + r / 0x1000 ∧ 0xE0 + r / 0x1000 < 0xF0 ∧
            (if 0xE0 + r / 0x1000 = 0xE0 then 0xA0 else 0x80) ≤ 0x80 + r / 0x40 % 0x40 ∧
            0x80 + r / 0x40 % 0x40 ≤ (if 0xE0 + r / 0x1000 = 0xED then 0x9F else 0xBF) ∧
            0x80 ≤ 0x80 + r % 0x40 ∧ 0x80 + r % 0x40 ≤ 0xBF := by
          refine ⟨by omega, by omega, ?_, ?_, by omega, by omega⟩
          · split_ifs <;> omega
          · split_ifs <;> omega
        have e4 : (0xE0 + r / 0x1000) % 0x10 * 0x1000 + (0x80 + r / 0x40 % 0x40) % 0x40 * 0x40 +
            (0x80 + r % 0x40) % 0x40 = r := by omega
        match rest with
        | [] => simp only [DecodeRune, e1, e2, e3, e4, if_false, and_self, if_true]
        | _ :: _ => simp only [DecodeRune, e1, e2, e3, e4, if_false, and_self, if_true]
      · simp only [h1, h2, h3, h4, if_true, if_false, List.cons_append, List.nil_append,
          List.length_cons, List.length_nil]
        have e1 : ¬ (0xF0 + r / 0x40000 < 0x80) := by omega
        have e2 : ¬ (0xC2 ≤ 0xF0 + r / 0x40000 ∧ 0xF0 + r / 0x40000 < 0xE0 ∧
            0x80 ≤ 0x80 + r / 0x1000 % 0x40 ∧ 0x80 + r / 0x1000 % 0x40 ≤ 0xBF) := by omega
        have e3 : ¬ (0xE0 ≤ 0xF0 + r / 0x40000 ∧ 0xF0 + r / 0x40000 < 0xF0 ∧
            (if 0xF0 + r / 0x40000 = 0xE0 then 0xA0 else 0x80) ≤ 0x80 + r / 0x1000 % 0x40 ∧
            0x80 + r / 0x1000 % 0x40 ≤ (if 0xF0 + r / 0x40000 = 0xED then 0x9F else 0xBF) ∧
            0x80 ≤ 0x80 + r / 0x40 % 0x40 ∧ 0x80 + r / 0x40 % 0x40 ≤ 0xBF) := by omega
        have e4 : 0xF0 ≤ 0xF0 + r / 0x40000 ∧ 0xF0 + r / 0x40000 < 0xF5 ∧
            (if 0xF0 + r / 0x40000 = 0xF0 then 0x90 else 0x80) ≤ 0x80 + r / 0x1000 % 0x40 ∧
            0x80 + r / 0x1000 % 0x40 ≤ (if 0xF0 + r / 0x40000 = 0xF4 then 0x8F else 0xBF) ∧
            0x80 ≤ 0x80 + r / 0x40 % 0x40 ∧ 0x80 + r / 0x40 % 0x40 ≤ 0xBF ∧
            0x80 ≤ 0x80 + r % 0x40 ∧ 0x80 + r % 0x40 ≤ 0xBF := by
          refine ⟨by omega, by omega, ?_, ?_, by omega, by omega, by omega, by omega⟩
          · split_ifs <;> omega
          · split_ifs <;> omega
        have e5 : (0xF0 + r / 0x40000) % 0x08 * 0x40000 +
            (0x80 + r / 0x1000 % 0x40) % 0x40 * 0x1000 +
            (0x80 + r / 0x40 % 0x40) % 0x40 * 0x40 + (0x80 + r % 0x40) % 0x40 = r := by omega
        simp only [DecodeRune, e1, e2, e3, e4, e5, if_false, and_self, if_true]
        split_ifs <;> first | rfl | (exfalso; omega)

theorem readRunes_length_le : ∀ (fuel : Nat) (bs : List Nat), (readRunes fuel bs).length ≤ fuel := by
  intro fuel
  induction fuel with
  | zero => intro bs; simp [readRunes]
  | succ n ih =>
    intro bs
    cases bs with
    | nil => simp [readRunes]
    | cons b bs =>
      rw [readRunes]
      simp only [List.length_cons]
      have := ih ((b :: bs).drop (DecodeRune (b :: bs)).2)
      omega

/-- Reading the bytes of a text made of scalar values gives the text back. -/
theorem readRunes_encodeString :
    ∀ (rs : List Rune), (∀ r ∈ rs, validRune r = true) →
      ∀ fuel, (encodeString rs).length ≤ fuel → readRunes fuel (encodeString rs) = rs := by
  intro rs
  induction rs with
  | nil =>
    intro _ fuel _
    cases fuel <;> simp [encodeString, readRunes]
  | cons r rs ih =>
    intro hv fuel hf
    have hr : validRune r = true := hv r (by simp)
    have hpos := encodeRune_length_pos r
    have hdec := decodeRune_encodeRune r hr (encodeString rs)
    simp only [encodeString, List.length_append] at hf ⊢
    cases fuel with
    | zero => omega
    | succ n =>
      cases hbs : EncodeRune r ++ encodeString rs with
      | nil =>
        have := congrArg List.length hbs
        simp only [List.length_append, List.length_nil] at this
        omega
      | cons b bs =>
        rw [readRunes, ← hbs, hdec]
        simp only [List.drop_left]
        rw [ih (fun x hx => hv x (by simp [hx])) n (by omega)]

theorem encodeString_append (a b : List Rune) :
    encodeString (a ++ b) = encodeString a ++ encodeString b := by
  induction a with
  | nil => rfl
  | cons r a ih => simp [encodeString, ih]

theorem concatBytes_eq (toks : List Token) :
    concatBytes toks = encodeString (concatValues toks) := by
  induction toks with
  | nil => rfl
  | cons t ts ih => simp [concatBytes, concatValues, encodeString_append, ih]

/-- C13 (as the code has it). Round trip of the Legacy tokenizer on bytes: for
every input byte sequence the values of the tokens emitted until the end
concatenate to the encoding of the runes that `ReadRune` decodes from the input;
for every input that is well-formed UTF-8, the encoding of a sequence of Unicode
scalar values, they reproduce the input byte for byte. -/
theorem legacy_round_trip_bytes (T : Tables) (hT : T.SingleRuneValues) :
    (∀ input : List Nat, ∃ toks sf,
      (∀ fuel, input.length < fuel →
        drain (tokenizerLegacy.next T) fuel (TokenizeLegacy (bytesReader input))
          = some (toks, none, sf)) ∧
      concatBytes toks = encodeString (readRunes input.length input)) ∧
    (∀ rs : List Rune, (∀ r ∈ rs, validRune r = true) → ∃ toks sf,
      (∀ fuel, (encodeString rs).length < fuel →
        drain (tokenizerLegacy.next T) fuel (TokenizeLegacy (bytesReader (encodeString rs)))
          = some (toks, none, sf)) ∧
      concatBytes toks = encodeString rs) := by
  have hall : ∀ input : List Nat, ∃ toks sf,
      (∀ fuel, input.length < fuel →
        drain (tokenizerLegacy.next T) fuel (TokenizeLegacy (bytesReader input))
          = some (toks, none, sf)) ∧
      concatBytes toks = encodeString (readRunes input.length input) := by
    intro input
    obtain ⟨toks, sf, hem, hcv, hlen⟩ := legacy_emits T hT (TokenizeLegacy (bytesReader input)) rfl
    refine ⟨toks, sf, ?_, ?_⟩
    · intro fuel hf
      apply hem.drain_eq
      have := readRunes_length_le input.length input
      simp [TokenizeLegacy, newTokenizerLegacy, bytesReader] at hlen
      omega
    · rw [concatBytes_eq, hcv]
      simp [TokenizeLegacy, newTokenizerLegacy, bytesReader]
  refine ⟨hall, ?_⟩
  intro rs hv
  obtain ⟨toks, sf, h1, h2⟩ := hall (encodeString rs)
  exact ⟨toks, sf, h1, by rw [h2, readRunes_encodeString rs hv _ (Nat.le_refl _)]⟩

theorem legacy_round_trip_bytes_witness :
    exampleTables.SingleRuneValues ∧
    (∀ r ∈ [0x68, 0xE9, 0x20, 0x20AC, 0x1F600], validRune r = true) ∧
    encodeString [0x68, 0xE9, 0x20, 0x20AC, 0x1F600]
      = [0x68, 0xC3, 0xA9, 0x20, 0xE2, 0x82, 0xAC, 0xF0, 0x9F, 0x98, 0x80] ∧
    (∃ toks sf,
      (∀ fuel, (encodeString [0x68, 0xE9, 0x20, 0x20AC, 0x1F600]).length < fuel →
        drain (tokenizerLegacy.next exampleTables) fuel
            (TokenizeLegacy (bytesReader (encodeString [0x68, 0xE9, 0x20, 0x20AC, 0x1F600])))
          = some (toks, none, sf)) ∧
      concatBytes toks = encodeString [0x68, 0xE9, 0x20, 0x20AC, 0x1F600]) :=
  ⟨exampleTables_singleRuneValues, by decide, by decide,
    (legacy_round_trip_bytes exampleTables exampleTables_singleRuneValues).2
      [0x68, 0xE9, 0x20, 0x20AC, 0x1F600] (by decide)⟩

/-- C13, as stated, fails: for the input byte `0xFF`, which is not valid UTF-8,
`ReadRune` returns U+FFFD, and the one token emitted has the three bytes
`0xEF 0xBF 0xBD` as its value, not the input. -/
theorem legacy_round_trip_invalid_utf8 :
    drain (tokenizerLegacy.next exampleTables) 2 (TokenizeLegacy (bytesReader [0xFF]))
      = some ([⟨[0xFFFD], false, false⟩], none, ⟨⟨[], none⟩, []⟩) ∧
    concatBytes [⟨[0xFFFD], false, false⟩] = [0xEF, 0xBF, 0xBD] ∧
    concatBytes [⟨[0xFFFD], false, false⟩] ≠ [0xFF] := by
  refine ⟨by decide, by decide, by decide⟩

/-! ## The command-line program -/

/-- The arguments that `setFilters` recognises, with a language that is empty or
known: the filter stored is that of `flagFilter`. -/
theorem setFilters_eq :
    ∀ (args : List String) (c : config) (lang : String),
      (lang = "" ∨ ∃ stem, stemmerMap lang = some stem) →
      setFilters c args lang =
        (none, { c with Filters := c.Filters ++ args.filterMap (flagFilter lang) }) := by
  intro args
  induction args with
  | nil => intro c lang _; simp [setFilters]
  | cons arg rest ih =>
    intro c lang hlang
    rw [setFilters]
    by_cases h1 : arg = "-ascii"
    · subst h1
      simp [filterMap, flagFilter, ih _ lang hlang, List.filterMap_cons]
    · by_cases h2 : arg = "-contractions"
      · subst h2
        simp [filterMap, flagFilter, ih _ lang hlang, List.filterMap_cons]
      · by_cases h3 : arg = "-stack"
        · subst h3
          simp [filterMap, flagFilter, ih _ lang hlang, List.filterMap_cons]
        · by_cases h4 : arg = "-stem"
          · subst h4
            rcases hlang with hl | ⟨stem, hs⟩
            · subst hl
              simp [filterMap, flagFilter, ih _ "" (Or.inl rfl), List.filterMap_cons]
            · by_cases hl : lang = ""
              · subst hl
                simp [filterMap, flagFilter, ih _ "" (Or.inl rfl), List.filterMap_cons]
              · simp [filterMap, flagFilter, hl, hs, ih _ lang (Or.inr ⟨stem, hs⟩),
                  List.filterMap_cons]
          · simp [filterMap, flagFilter, h1, h2, h3, h4, ih _ lang hlang,
              List.filterMap_cons]

/-- The loop of `execute` applies the filters first-listed first. -/
theorem filterLoop_eq {σ : Type} (apply : σ → Filter → σ) :
    ∀ (filters : List Filter) (tokens : σ),
      filterLoop apply filters tokens = appliedInOrder apply filters tokens := by
  intro filters
  induction filters with
  | nil => intro tokens; rfl
  | cons f rest ih =>
    intro tokens
    rw [filterLoop, ih]
    simp [appliedInOrder, List.foldr_append]

/-- C19. Filter order of the command-line program: for every argument list and a
language that is empty or known, `setFilters` returns no error and stores, after
the filters already in the configuration, exactly the filters of the recognised
flags (`-stem` standing for the stemmer of the language) in the order of the
arguments, skipping every other argument; and `execute` applies the filters
first-listed first: for `f1`, ..., `fn` the stream written is
`fn(...f2(f1(tokens))...)`, the filter listed last being applied last. -/
theorem filter_order (args : List String) (lang : String)
    (hlang : lang = "" ∨ ∃ stem, stemmerMap lang = some stem) :
    (∀ c : config, setFilters c args lang =
      (none, { c with Filters := c.Filters ++ args.filterMap (flagFilter lang) })) ∧
    (∀ (σ : Type) (Tokenize TokenizeHTML : Reader → σ) (apply : σ → Filter → σ)
        (html : Bool) (reader : Reader),
      execute Tokenize TokenizeHTML apply
          { (setFilters (initialConfig html) args lang).2 with
            Reader := some reader, Writer := some () }
        = .ok (appliedInOrder apply (args.filterMap (flagFilter lang))
            (if html then TokenizeHTML reader else Tokenize reader))) ∧
    (∀ (σ : Type) (apply : σ → Filter → σ) (filters : List Filter) (f : Filter) (tokens : σ),
      appliedInOrder apply (filters ++ [f]) tokens
        = apply (appliedInOrder apply filters tokens) f) := by
  refine ⟨fun c => setFilters_eq args c lang hlang, ?_, ?_⟩
  · intro σ Tokenize TokenizeHTML apply html reader
    rw [setFilters_eq args _ lang hlang]
    simp only [execute, initialConfig, List.nil_append, filterLoop_eq]
  · intro σ apply filters f tokens
    simp [appliedInOrder]

theorem filter_order_witness :
    ("french" = "" ∨ ∃ stem, stemmerMap "french" = some stem) ∧
    ((∀ c : config, setFilters c ["-stem", "-html", "-ascii", "x"] "french" =
      (none, { c with Filters := c.Filters ++
        ["-stem", "-html", "-ascii", "x"].filterMap (flagFilter "french") })) ∧
    (∀ (σ : Type) (Tokenize TokenizeHTML : Reader → σ) (apply : σ → Filter → σ)
        (html : Bool) (reader : Reader),
      execute Tokenize TokenizeHTML apply
          { (setFilters (initialConfig html) ["-stem", "-html", "-ascii", "x"] "french").2 with
            Reader := some reader, Writer := some () }
        = .ok (appliedInOrder apply
            (["-stem", "-html", "-ascii", "x"].filterMap (flagFilter "french"))
            (if html then TokenizeHTML reader else Tokenize reader))) ∧
    (∀ (σ : Type) (apply : σ → Filter → σ) (filters : List Filter) (f : Filter) (tokens : σ),
      appliedInOrder apply (filters ++ [f]) tokens
        = apply (appliedInOrder apply filters tokens) f)) ∧
    ["-stem", "-html", "-ascii", "x"].filterMap (flagFilter "french")
      = [Filter.stemmerFrench, Filter.asciiFold] ∧
    execute (fun _ => ([] : List Filter)) (fun _ => []) (fun applied f => applied ++ [f])
        { (setFilters (initialConfig false) ["-stem", "-html", "-ascii", "x"] "french").2 with
          Reader := some { runes := [], err := none }, Writer := some () }
      = .ok [Filter.stemmerFrench, Filter.asciiFold] :=
  ⟨Or.inr ⟨Filter.stemmerFrench, by decide⟩,
    filter_order ["-stem", "-html", "-ascii", "x"] "french"
      (Or.inr ⟨Filter.stemmerFrench, by decide⟩),
    by decide, rfl⟩

/-- Arguments that select no filter leave the list of filters as it is. -/
theorem setFilters_no_flag :
    ∀ (args : List String) (c : config) (lang : String),
      (∀ arg ∈ args, filterMap arg = none) → setFilters c args lang = (none, c) := by
  intro args
  induction args with
  | nil => intro c lang _; simp [setFilters]
  | cons arg rest ih =>
    intro c lang h
    rw [setFilters, h arg (by simp)]
    exact ih c lang (fun a ha => h a (by simp [ha]))

/-- C14. No default filter: with no filter flag among the arguments (none at
all, or only other flags), `setFilters` stores no filter, so the list of filters
that the program applies is empty and has not the one element that
`TestDefaultLemmatizer` expects; `execute` writes the unfiltered stream. -/
theorem no_default_filter :
    setFilters (initialConfig false) [] "english" = (none, initialConfig false) ∧
    setFilters (initialConfig false) ["-html", "-lang", "english"] "english"
      = (none, initialConfig false) ∧
    (setFilters (initialConfig false) [] "english").2.Filters = [] ∧
    (setFilters (initialConfig false) [] "english").2.Filters.length ≠ 1 ∧
    (setFilters (initialConfig false) [] "english").2.Filters ≠ [Filter.stackoverflowTags] ∧
    execute (fun _ => ([] : List Filter)) (fun _ => []) (fun applied f => applied ++ [f])
        { (setFilters (initialConfig false) [] "english").2 with
          Reader := some { runes := [], err := none }, Writer := some () }
      = .ok [] := by
  refine ⟨?_, ?_, ?_, ?_, ?_, ?_⟩
  · exact setFilters_no_flag [] _ _ (by simp)
  · exact setFilters_no_flag _ _ _ (by decide)
  · rw [setFilters_no_flag [] _ _ (by simp)]; rfl
  · rw [setFilters_no_flag [] _ _ (by simp)]; decide
  · rw [setFilters_no_flag [] _ _ (by simp)]; decide
  · rw [setFilters_no_flag [] _ _ (by simp)]; rfl

/-! ## The mid-word classes of the package `is` -/

/-- C22. The mid-word classes are disjoint: no code point satisfies two of the
predicates `MidLetter`, `MidNumLet`, `MidNum` and `SingleQuote`; and
`MidNumLetQ`, which is `MidNumLet` or the ASCII apostrophe, excludes `MidLetter`
and `MidNum` as well. -/
theorem mid_word_classes_disjoint (r : Rune) :
    ¬ (MidLetter r = true ∧ MidNumLet r = true) ∧
    ¬ (MidLetter r = true ∧ MidNum r = true) ∧
    ¬ (MidLetter r = true ∧ SingleQuote r = true) ∧
    ¬ (MidNumLet r = true ∧ MidNum r = true) ∧
    ¬ (MidNumLet r = true ∧ SingleQuote r = true) ∧
    ¬ (MidNum r = true ∧ SingleQuote r = true) ∧
    (MidNumLetQ r = true ↔ (MidNumLet r = true ∨ SingleQuote r = true)) ∧
    ¬ (MidNumLetQ r = true ∧ MidLetter r = true) ∧
    ¬ (MidNumLetQ r = true ∧ MidNum r = true) := by
  have hML : MidLetter r = true ↔
      (r = 0x00B7 ∨ r = 0x0387 ∨ r = 0x055F ∨ r = 0x05F4 ∨ r = 0x2027 ∨ r = 0xFE13 ∨
        r = 0xFE55 ∨ r = 0xFF1A) := by
    simp [MidLetter, or_assoc]
  have hMNL : MidNumLet r = true ↔
      (r = 0x002E ∨ r = 0x2019 ∨ r = 0x2024 ∨ r = 0xFE52 ∨ r = 0xFF07 ∨ r = 0xFF0E) := by
    simp [MidNumLet, or_assoc]
  have hSQ : SingleQuote r = true ↔ r = 0x0027 := by
    simp [SingleQuote]
  have hQ : MidNumLetQ r = true ↔ (MidNumLet r = true ∨ SingleQuote r = true) := by
    simp [MidNumLetQ, SingleQuote]
  rw [hQ, hML, hMNL, hSQ]
  refine ⟨?_, ?_, ?_, ?_, ?_, ?_, Iff.rfl, ?_, ?_⟩
  · rintro ⟨h1, h2⟩; delta Rune at *; omega
  · rintro ⟨h1, h2⟩
    rcases h1 with rfl | rfl | rfl | rfl | rfl | rfl | rfl | rfl <;> exact absurd h2 (by decide)
  · rintro ⟨h1, h2⟩; delta Rune at *; omega
  · rintro ⟨h1, h2⟩
    rcases h1 with rfl | rfl | rfl | rfl | rfl | rfl <;> exact absurd h2 (by decide)
  · rintro ⟨h1, h2⟩; delta Rune at *; omega
  · rintro ⟨h2, h1⟩
    subst h1
    exact absurd h2 (by decide)
  · rintro ⟨h1, h2⟩; delta Rune at *; omega
  · rintro ⟨h1, h2⟩
    rcases h1 with (rfl | rfl | rfl | rfl | rfl | rfl) | rfl <;> exact absurd h2 (by decide)

/-! ## No empty tokens -/

/-- The method `readWord`, entered with a buffer that is not empty, returns the
token of a buffer that is not empty, whatever ends the source. -/
theorem readWordLoop_nonempty (T : Tables) (err : Option Error) :
    ∀ (rs out : List Rune) (tok : Token) (t1 : tokenizerLegacy), out ≠ [] →
      readWordLoop T err rs out = (.ok (some tok), t1) → ∃ b, b ≠ [] ∧ tok = tokenOf T b := by
  intro rs
  induction rs with
  | nil =>
    intro out tok t1 hout h
    cases err with
    | none =>
      rw [readWordLoop] at h
      simp only [legacy_token_eq, Prod.mk.injEq, Except.ok.injEq, Option.some.injEq] at h
      exact ⟨out, hout, h.1.symm⟩
    | some e =>
      rw [readWordLoop] at h
      simp at h
  | cons r rs ih =>
    intro out tok t1 hout h
    rw [readWordLoop] at h
    have hflush : ∀ t2 : tokenizerLegacy,
        ((Except.ok (some ((tokenizerLegacy.token T
            { incoming := { runes := rs, err := err }, outgoing := out }).1)) : Result), t2)
          = (.ok (some tok), t1) → ∃ b, b ≠ [] ∧ tok = tokenOf T b := by
      intro t2 h2
      simp only [legacy_token_eq, Prod.mk.injEq, Except.ok.injEq, Option.some.injEq] at h2
      exact ⟨out, hout, h2.1.symm⟩
    split at h
    · split at h
      · simp at h
      · exact hflush _ h
      · exact ih (out ++ [r]) tok t1 (by simp) h
    · split at h
      · exact hflush _ h
      · exact ih (out ++ [r]) tok t1 (by simp) h

/-- Every token that `next` of the Legacy tokenizer returns, from any state, is
the token of a buffer that is not empty. -/
theorem legacy_next_nonempty (T : Tables) (t t1 : tokenizerLegacy) (tok : Token)
    (h : t.next T = (.ok (some tok), t1)) : ∃ b, b ≠ [] ∧ tok = tokenOf T b := by
  obtain ⟨⟨rs, err⟩, out⟩ := t
  unfold tokenizerLegacy.next at h
  split at h
  · rename_i hout
    simp only [legacy_token_eq, Prod.mk.injEq, Except.ok.injEq, Option.some.injEq] at h
    refine ⟨out, ?_, h.1.symm⟩
    intro hnil
    simp [hnil] at hout
  · cases rs with
    | nil => cases err <;> simp at h
    | cons r rs =>
      dsimp only [tokenizerLegacy.accept, tokenizerLegacy.readWord] at h
      split at h
      · simp only [legacy_token_eq, Prod.mk.injEq, Except.ok.injEq, Option.some.injEq] at h
        exact ⟨out ++ [r], by simp, h.1.symm⟩
      · split at h
        · split at h
          · simp at h
          · split at h
            · exact readWordLoop_nonempty T _ _ _ tok t1 (by simp) h
            · simp only [legacy_token_eq, Prod.mk.injEq, Except.ok.injEq,
                Option.some.injEq] at h
              exact ⟨out ++ [r], by simp, h.1.symm⟩
        · exact readWordLoop_nonempty T _ _ _ tok t1 (by simp) h

/-- A token built from a buffer that was not empty has a text that is not
empty. -/
theorem fromBuffer_value (T : Tables) (hT : T.SingleRuneValues) (tok : Token)
    (h : T.fromBuffer tok) : tok.value ≠ [] := by
  obtain ⟨buf, hne, hb, rfl⟩ := h
  unfold tokenOfBuffer
  rw [tokenizer2_token_value T hT]
  cases buf with
  | nil => exact absurd rfl hne
  | cons s rest =>
    have hs := hb s (by simp)
    simp [bufferBytes, hs]

theorem noEmpty_accept (T : Tables) (t : tokenizer2) (s : seg) (h : t.NoEmpty T)
    (hs : s.Bytes ≠ []) : (t.accept s).NoEmpty T := by
  obtain ⟨h1, h2, h3⟩ := h
  refine ⟨h1, ?_, h3⟩
  intro x hx
  simp only [tokenizer2.accept, List.mem_append, List.mem_singleton] at hx
  rcases hx with hx | rfl
  · exact h2 x hx
  · exact hs

theorem noEmpty_pushToken (T : Tables) (t : tokenizer2) (h : t.NoEmpty T)
    (hb : t.buffer ≠ []) : (t.pushToken T).NoEmpty T := by
  obtain ⟨h1, h2, h3⟩ := h
  rw [tokenizer2_pushToken_eq]
  refine ⟨h1, by simp, ?_⟩
  intro tok htok
  simp only [List.mem_append, List.mem_singleton] at htok
  rcases htok with htok | rfl
  · exact h3 tok htok
  · obtain ⟨segs, buffer, q⟩ := t
    exact ⟨buffer, hb, h2, tokenizer2_token_fst T segs buffer q⟩

theorem noEmpty_queueBuffer (T : Tables) (t : tokenizer2) (h : t.NoEmpty T) :
    (t.queueBuffer T).NoEmpty T := by
  unfold tokenizer2.queueBuffer
  split
  · rename_i hpos
    exact noEmpty_pushToken T t h (by intro hnil; simp [hnil] at hpos)
  · exact h

theorem noEmpty_returnPop (T : Tables) (t : tokenizer2) (h : t.NoEmpty T) :
    tokenizer2.Good T t.returnPop := by
  obtain ⟨segs, buffer, ⟨q⟩⟩ := t
  obtain ⟨h1, h2, h3⟩ := h
  cases q with
  | nil =>
    exact ⟨⟨h1, h2, by simp [tokenizer2.returnPop, queue.pop]⟩,
      by simp [tokenizer2.returnPop, queue.pop]⟩
  | cons a l =>
    refine ⟨⟨h1, h2, ?_⟩, ?_⟩
    · intro tok htok
      simp only [tokenizer2.returnPop, queue.pop] at htok
      exact h3 tok (List.mem_cons_of_mem a htok)
    · intro tok htok
      simp only [tokenizer2.returnPop, queue.pop, Except.ok.injEq, Option.some.injEq] at htok
      subst htok
      exact h3 a (List.mem_cons_self a l)

/-- The buffer is queued, the current segment is queued behind it as a token of
its own, and the front of the queue is returned. -/
theorem noEmpty_flush (T : Tables) (t : tokenizer2) (current : seg) (h : t.NoEmpty T)
    (hc : current.Bytes ≠ []) :
    tokenizer2.Good T (((t.queueBuffer T).accept current).pushToken T).returnPop :=
  noEmpty_returnPop T _
    (noEmpty_pushToken T _ (noEmpty_accept T _ current (noEmpty_queueBuffer T t h) hc)
      (by simp [tokenizer2.accept]))

/-- The loop of `next`, from a state without an empty piece. -/
theorem segmentLoop_noEmpty (T : Tables) :
    ∀ (n : Nat) (segs buffer : List seg) (q : queue), segs.length < n →
      tokenizer2.NoEmpty T ⟨segs, buffer, q⟩ →
      tokenizer2.Good T (segmentLoop T segs buffer q) := by
  intro n
  induction n with
  | zero => intro segs buffer q h; simp at h
  | succ n ih =>
    intro segs buffer q hlen h
    have hfail : ∀ (e : Error) (t : tokenizer2), t.NoEmpty T →
        tokenizer2.Good T ((Except.error e : Result), t) := by
      intro e t ht
      exact ⟨ht, by intro tok htok; simp at htok⟩
    have htrail : ∀ (t : tokenizer2) (current : seg) (r : Rune) (rest : List seg),
        rest.length < n → t.NoEmpty T → t.segmenter = rest → current.Bytes ≠ [] →
        tokenizer2.Good T (trailingOrTerminating T t current r (segmentLoop T rest)) := by
      intro t current r rest hr ht hseg hc
      unfold trailingOrTerminating
      split
      · obtain ⟨s0, b0, q0⟩ := t
        simp only at hseg
        subst hseg
        exact ih _ _ _ hr (noEmpty_accept T _ current ht hc)
      · exact noEmpty_flush T t current ht hc
    cases segs with
    | nil =>
      rw [segmentLoop]
      split
      · exact noEmpty_returnPop T _ (noEmpty_queueBuffer T _ h)
      · exact ⟨noEmpty_queueBuffer T _ h, by intro tok htok; simp at htok⟩
    | cons current rest =>
      have hlen1 : rest.length < n := by simpa using hlen
      have hc : current.Bytes ≠ [] := h.1 current (List.mem_cons_self _ _)
      have h1 : tokenizer2.NoEmpty T ⟨rest, buffer, q⟩ :=
        ⟨fun s hs => h.1 s (List.mem_cons_of_mem _ hs), h.2.1, h.2.2⟩
      cases rest with
      | nil =>
        rw [segmentLoop]
        dsimp only
        split
        · exact hfail _ _ h1
        · split
          · exact ih _ _ _ hlen1 (noEmpty_accept T _ current h1 hc)
          · split
            · exact hfail _ _ h1
            · split
              · exact noEmpty_flush T _ current h1 hc
              · exact htrail _ _ _ _ hlen1 h1 rfl hc
      | cons lookahead rest1 =>
        have hlen2 : rest1.length < n := by simp at hlen1; omega
        have hl : lookahead.Bytes ≠ [] := h1.1 lookahead (List.mem_cons_self _ _)
        have h2 : tokenizer2.NoEmpty T ⟨rest1, buffer, q⟩ :=
          ⟨fun s hs => h1.1 s (List.mem_cons_of_mem _ hs), h.2.1, h.2.2⟩
        rw [segmentLoop]
        dsimp only
        split
        · exact hfail _ _ h1
        · split
          · exact ih _ _ _ hlen1 (noEmpty_accept T _ current h1 hc)
          · split
            · exact hfail _ _ h1
            · split
              · exact noEmpty_flush T _ current h1 hc
              · split
                · split
                  · exact ih _ _ _ hlen2
                      (noEmpty_accept T _ lookahead (noEmpty_accept T _ current h2 hc) hl)
                  · have hN := noEmpty_pushToken T _
                      (noEmpty_accept T _ lookahead
                        (noEmpty_pushToken T _
                          (noEmpty_accept T _ current (noEmpty_queueBuffer T _ h2) hc)
                          (by simp [tokenizer2.accept])) hl)
                      (by simp [tokenizer2.accept])
                    exact ih _ _ _ hlen2 ⟨h2.1, hN.2.1, hN.2.2⟩
                · exact htrail _ _ _ _ hlen1 h1 rfl hc

/-- One call of `next` of `tokenizer2` from a state without an empty piece. -/
theorem tokenizer2_next_good (T : Tables) (t : tokenizer2) (h : t.NoEmpty T) :
    tokenizer2.Good T (t.next T) := by
  unfold tokenizer2.next
  split
  · exact noEmpty_returnPop T t h
  · exact segmentLoop_noEmpty T _ t.segmenter t.buffer t.outgoing (Nat.lt_succ_self _) h

/-- The states that the calls of `next` go through are without an empty piece. -/
theorem tokenizer2_after_noEmpty (T : Tables) :
    ∀ (k : Nat) (t : tokenizer2), t.NoEmpty T →
      (after (tokenizer2.next T) k t).NoEmpty T := by
  intro k
  induction k with
  | zero => intro t h; exact h
  | succ k ih =>
    intro t h
    exact ih _ (tokenizer2_next_good T t h).1

/-- C21. No empty tokens: with tables whose single-rune tokens carry their rune
as text, every token that a call of `next` of `TokenizeLegacy` returns, over any
input and after any number of calls, is the token of a buffer `outgoing` that is
not empty, and its value is not empty; and over segments that hold at least one
byte each, every token that a call of `next` of `Tokenize2` returns, after any
number of calls, is the token of a buffer of at least one segment, and its value
is not empty.  So `token` is never called on an empty buffer, and no returned
token can be taken for the `nil` that signals the end. -/
theorem no_empty_tokens (T : Tables) (hT : T.SingleRuneValues) :
    (∀ (r : Reader) (k : Nat) (tok : Token) (t1 : tokenizerLegacy),
      tokenizerLegacy.next T (after (tokenizerLegacy.next T) k (TokenizeLegacy r))
        = (.ok (some tok), t1) →
      (∃ b, b ≠ [] ∧ tok = tokenOf T b) ∧ tok.value ≠ []) ∧
    (∀ (segs : List seg), (∀ s ∈ segs, s.Bytes ≠ []) →
      ∀ (k : Nat) (tok : Token) (t1 : tokenizer2),
        tokenizer2.next T (after (tokenizer2.next T) k (Tokenize2 segs))
          = (.ok (some tok), t1) →
        (∃ buf, buf ≠ [] ∧ tok = tokenOfBuffer T buf) ∧ tok.value ≠ []) := by
  constructor
  · intro r k tok t1 h
    obtain ⟨b, hb, htok⟩ := legacy_next_nonempty T _ t1 tok h
    refine ⟨⟨b, hb, htok⟩, ?_⟩
    rw [htok, tokenOf_value T hT]
    exact hb
  · intro segs hsegs k tok t1 h
    have h0 : (Tokenize2 segs).NoEmpty T :=
      ⟨hsegs, by simp [Tokenize2, newTokenizer2], by simp [Tokenize2, newTokenizer2]⟩
    have hk := tokenizer2_next_good T _ (tokenizer2_after_noEmpty T k _ h0)
    have hf := hk.2 tok (by rw [h])
    have hv := fromBuffer_value T hT tok hf
    obtain ⟨buf, hne, _, hbuf⟩ := hf
    exact ⟨⟨buf, hne, hbuf⟩, hv⟩

theorem no_empty_tokens_witness :
    exampleTables.SingleRuneValues ∧
    (tokenizerLegacy.next exampleTables
        (after (tokenizerLegacy.next exampleTables) 1
          (TokenizeLegacy { runes := runes "C++ x", err := none }))
        = (.ok (some ⟨runes " ", false, true⟩), ⟨⟨runes "x", none⟩, []⟩) ∧
      (∃ b, b ≠ [] ∧ (⟨runes " ", false, true⟩ : Token) = tokenOf exampleTables b) ∧
      (⟨runes " ", false, true⟩ : Token).value ≠ []) ∧
    ((∀ s ∈ [noneSeg 0x2E, seg.mk (runes "Net") SegmentType.Letter none, noneSeg 0x20],
        s.Bytes ≠ []) ∧
      tokenizer2.next exampleTables
        (after (tokenizer2.next exampleTables) 1
          (Tokenize2 [noneSeg 0x2E, seg.mk (runes "Net") SegmentType.Letter none,
            noneSeg 0x20]))
        = (.ok (some ⟨runes " ", false, true⟩), ⟨[], [], ⟨[]⟩⟩) ∧
      (∃ buf, buf ≠ [] ∧ (⟨runes " ", false, true⟩ : Token) = tokenOfBuffer exampleTables buf) ∧
      (⟨runes " ", false, true⟩ : Token).value ≠ []) :=
  ⟨exampleTables_singleRuneValues,
    ⟨rfl,
      (no_empty_tokens exampleTables exampleTables_singleRuneValues).1
        { runes := runes "C++ x", err := none } 1 _ _ rfl⟩,
    ⟨by decide, rfl,
      (no_empty_tokens exampleTables exampleTables_singleRuneValues).2
        [noneSeg 0x2E, seg.mk (runes "Net") SegmentType.Letter none, noneSeg 0x20]
        (by decide) 1 _ _ rfl⟩⟩

end Jargon
